import Mathlib

/-!
# Huffman packet codec (`ballistica/generic/huffman.cc`)

A shallow embedding of the static-table Huffman codec: the construction of the 511-node tree
(`Huffman::build`), the bit writer (`DoWriteBits`), `Huffman::compress` and
`Huffman::decompress`, followed by the verification of the codec's specification.

Conventions of the embedding.
* A byte is a natural number below 256; a buffer is a `List Nat`.
* `uint32_t`, `uint16_t` and `uint8_t` arithmetic is arithmetic on `Nat` reduced modulo
  `2 ^ 32`, `2 ^ 16`, `2 ^ 8` wherever the C++ value can leave the range.
* `int` and `int16_t` values are `Int`.
* The array `nodes_[511]` is a `Mem Node`.
* Loops are recursive functions with an explicit step budget.
* An access outside a buffer or array is undefined behaviour in C++; the embedding makes it
  an outcome of its own (`oob`), distinct from a thrown exception (`error`).
-/

namespace Huffman

/-! ## The node array -/

/-- Fixed-size array: a complete binary tree whose leaves are the slots, addressed by the
binary digits of the index, least significant digit first. `Mem.fill 9 a` has 512 slots. -/
inductive Mem (α : Type) where
  | leaf : α → Mem α
  | node : Mem α → Mem α → Mem α
deriving DecidableEq

/-- Array read `a[i]`. -/
def Mem.get {α : Type} : Mem α → Nat → α
  | .leaf a, _ => a
  | .node l r, i => if i % 2 = 0 then l.get (i / 2) else r.get (i / 2)

/-- Array write `a[i] = v`. -/
def Mem.set {α : Type} : Mem α → Nat → α → Mem α
  | .leaf _, _, v => .leaf v
  | .node l r, i, v =>
    if i % 2 = 0 then .node (l.set (i / 2) v) r else .node l (r.set (i / 2) v)

/-- Array of `2 ^ d` slots, all holding `a`. -/
def Mem.fill {α : Type} : Nat → α → Mem α
  | 0, a => .leaf a
  | d + 1, a => .node (Mem.fill d a) (Mem.fill d a)

/-- Shape predicate: the array has exactly `2 ^ d` slots. -/
def Mem.Perfect {α : Type} : Nat → Mem α → Prop
  | 0, .leaf _ => True
  | d + 1, .node l r => Mem.Perfect d l ∧ Mem.Perfect d r
  | _, _ => False

/-- Modelled from the spec: the declaration of `Huffman::Node` (in `huffman.h`) is not among
the sources. The fields are the ones `huffman.cc` uses: `left_child` and `right_child`
(`int16_t`, `-1` for "none"), `parent` (`uint8_t`, `0` for "none", otherwise the parent's index
minus 255), `bits` (`uint8_t`) and `val` (`uint16_t`), the code length and code bits of a
leaf, and `frequency` (`int`). A fresh node has no parent, no children and zero in the other
fields. -/
structure Node where
  left_child : Int := -1
  right_child : Int := -1
  parent : Nat := 0
  bits : Nat := 0
  val : Nat := 0
  frequency : Int := 0
deriving DecidableEq

/-- The static table of byte frequencies (lines 24-40). -/
def g_freqs : List Int := [
    101342, 9667, 3497, 1072, 0, 3793, 0, 0, 2815, 5235, 0, 0, 0, 3570, 0, 0,
    0,      1383, 0,    0,    0, 2970, 0, 0, 2857, 0,    0, 0, 0, 0,    0, 0,
    0,      1199, 0,    0,    0, 0,    0, 0, 0,    0,    0, 0, 0, 0,    0, 0,
    0,      0,    0,    0,    0, 0,    0, 0, 0,    0,    0, 0, 0, 0,    0, 1494,
    1974,   0,    0,    0,    0, 0,    0, 0, 0,    0,    0, 0, 0, 1351, 0, 0,
    0,      0,    0,    0,    0, 0,    0, 0, 0,    0,    0, 0, 0, 0,    0, 0,
    0,      0,    0,    0,    0, 0,    0, 0, 0,    0,    0, 0, 0, 0,    0, 0,
    0,      0,    0,    0,    0, 0,    0, 0, 0,    0,    0, 0, 0, 0,    0, 0,
    0,      0,    0,    0,    0, 0,    0, 0, 0,    0,    0, 0, 0, 0,    0, 0,
    0,      0,    0,    0,    0, 0,    0, 0, 0,    0,    0, 0, 0, 0,    0, 0,
    0,      0,    0,    0,    0, 0,    0, 0, 0,    0,    0, 0, 0, 0,    0, 0,
    0,      0,    0,    0,    0, 0,    0, 0, 0,    0,    0, 0, 0, 0,    0, 1475,
    0,      0,    0,    0,    0, 0,    0, 0, 0,    0,    0, 0, 0, 0,    0, 0,
    0,      0,    0,    0,    0, 0,    0, 0, 0,    0,    0, 0, 0, 0,    0, 0,
    0,      0,    0,    0,    0, 0,    0, 0, 0,    0,    0, 0, 0, 0,    0, 0,
    0,      0,    0,    0,    0, 0,    0, 0, 0,    0,    0, 0, 0, 0,    0, 0]

/-! ## `Huffman::build` -/

/-- Lines 486-488: `for (i = 0; i < 256; i++) nodes_[i].frequency = g_freqs[i]`. -/
def loadFreqs (freqs : List Int) : Nat → Nat → Mem Node → Mem Node
  | 0, _, nodes => nodes
  | fuel + 1, i, nodes =>
    if i < 256 then
      loadFreqs freqs fuel (i + 1) (nodes.set i { nodes.get i with frequency := freqs.getD i 0 })
    else nodes

/-- Lines 520 and 523: `while (nodes_[i].parent != 0) i++`. The C++ loop has no bound; the
result 511 stands for a search that ran off the end of `nodes_`. -/
def skipParented (nodes : Mem Node) : Nat → Nat → Nat
  | 0, i => i
  | fuel + 1, i =>
    if i < 511 ∧ (nodes.get i).parent ≠ 0 then skipParented nodes fuel (i + 1) else i

/-- Lines 526-537: the scan `while (i < node_count)` that tries to knock off the larger of the
two current candidates. Returns `(smallest1, smallest2)`. -/
def scan (nodes : Mem Node) (node_count : Nat) : Nat → Nat → Nat → Nat → Nat × Nat
  | 0, _, smallest1, smallest2 => (smallest1, smallest2)
  | fuel + 1, i, smallest1, smallest2 =>
    if i < node_count then
      if (nodes.get i).parent = 0 then
        if (nodes.get smallest1).frequency > (nodes.get smallest2).frequency then
          if (nodes.get i).frequency < (nodes.get smallest1).frequency then
            scan nodes node_count fuel (i + 1) i smallest2
          else scan nodes node_count fuel (i + 1) smallest1 smallest2
        else
          if (nodes.get i).frequency < (nodes.get smallest2).frequency then
            scan nodes node_count fuel (i + 1) smallest1 i
          else scan nodes node_count fuel (i + 1) smallest1 smallest2
      else scan nodes node_count fuel (i + 1) smallest1 smallest2
    else (smallest1, smallest2)

/-- Lines 538-543: create node `node_count` as the parent of `smallest1` (right child) and
`smallest2` (left child). `none` when the `int` sum of the two frequencies overflows. -/
def link (nodes : Mem Node) (node_count smallest1 smallest2 : Nat) : Option (Mem Node) :=
  let f := (nodes.get smallest1).frequency + (nodes.get smallest2).frequency
  if f < -2147483648 ∨ 2147483647 < f then none else
  let nodes := nodes.set node_count { nodes.get node_count with frequency := f }
  let nodes := nodes.set smallest1 { nodes.get smallest1 with parent := (node_count - 255) % 256 }
  let nodes := nodes.set smallest2 { nodes.get smallest2 with parent := (node_count - 255) % 256 }
  let nodes := nodes.set node_count { nodes.get node_count with right_child := smallest1 }
  let nodes := nodes.set node_count { nodes.get node_count with left_child := smallest2 }
  some nodes

/-- One iteration of the loop of lines 516-546. `none` when a search for an unparented node
runs off the array, or the frequency sum overflows. -/
def mergeStep (nodes : Mem Node) (node_count : Nat) : Option (Mem Node) :=
  let smallest1 := skipParented nodes 511 0
  if 511 ≤ smallest1 then none else
  let smallest2 := skipParented nodes 511 (smallest1 + 1)
  if 511 ≤ smallest2 then none else
  let p := scan nodes node_count node_count (smallest2 + 1) smallest1 smallest2
  link nodes node_count p.1 p.2

/-- Lines 516-546: `while (node_count < 511)`. -/
def mergeLoop : Nat → Nat → Mem Node → Option (Mem Node)
  | 0, _, nodes => some nodes
  | fuel + 1, node_count, nodes =>
    if node_count < 511 then
      match mergeStep nodes node_count with
      | none => none
      | some nodes => mergeLoop fuel (node_count + 1) nodes
    else some nodes

/-- Lines 557-568: the walk from leaf `i` to the root, accumulating `nodes_[i].val` and
`nodes_[i].bits` (kept here in `val` and `bits`; the walk reads only `parent` and
`right_child`). `none` when the step budget is used up. -/
def climb (nodes : Mem Node) : Nat → Nat → Nat → Nat → Option (Nat × Nat)
  | 0, _, _, _ => none
  | fuel + 1, index, val, bits =>
    if (nodes.get index).parent ≠ 0 then
      if (nodes.get ((nodes.get index).parent + 255)).right_child = (index : Int) then
        climb nodes fuel ((nodes.get index).parent + 255)
          ((val <<< 1 ||| 1) % 65536) ((bits + 1) % 256)
      else
        climb nodes fuel ((nodes.get index).parent + 255)
          ((val <<< 1) % 65536) ((bits + 1) % 256)
    else some (val, bits)

/-- Lines 572-582: the stored `(val, bits)` of leaf `i` from the result of the walk. -/
def finishCode (i val bits : Nat) : Nat × Nat :=
  if bits ≥ 8 then ((i <<< 1) % 65536, (8 + 1) % 256)
  else ((val <<< 1 ||| 1) % 65536, (bits + 1) % 256)

/-- Lines 552-583: `for (i = 0; i < 256; i++)` storing the code of every leaf. -/
def storeCodes : Nat → Nat → Mem Node → Option (Mem Node)
  | 0, _, nodes => some nodes
  | fuel + 1, i, nodes =>
    if i < 256 then
      match climb nodes 511 i 0 0 with
      | none => none
      | some c =>
        storeCodes fuel (i + 1)
          (nodes.set i { nodes.get i with val := (finishCode i c.1 c.2).1,
                                          bits := (finishCode i c.1 c.2).2 })
    else some nodes

/-- `Huffman::build` (lines 481-586) for a frequency table `freqs`, started on 511 fresh
nodes. `none` stands for undefined behaviour or a walk that does not end. -/
def build (freqs : List Int) : Option (Mem Node) :=
  match mergeLoop 255 256 (loadFreqs freqs 256 0 (Mem.fill 9 {})) with
  | none => none
  | some nodes => storeCodes 256 0 nodes

/-- The member `nodes_` after the constructor has run `build()` on `g_freqs`. -/
def nodes_ : Mem Node := (build g_freqs).getD (Mem.fill 9 {})

/-! ## An equivalent, cheaper formulation of the merge loop

The selection of `smallest1` and `smallest2` only looks at the unparented nodes below
`node_count`. The definitions below keep these candidates in a list, paired with their
frequencies, and produce the sequence of pairs that the loop merges. They are proved
equivalent to `mergeLoop` and are used to evaluate `build g_freqs`. -/

/-- The unparented nodes among `lo, lo + 1, ..., lo + n - 1`, with their frequencies. -/
def candsFrom (nodes : Mem Node) : Nat → Nat → List (Nat × Int)
  | 0, _ => []
  | n + 1, lo =>
    if (nodes.get lo).parent = 0 then
      (lo, (nodes.get lo).frequency) :: candsFrom nodes n (lo + 1)
    else candsFrom nodes n (lo + 1)

/-- The scan of lines 526-537 over a list of candidates. -/
def scanC : List (Nat × Int) → Nat → Int → Nat → Int → (Nat × Int) × (Nat × Int)
  | [], s1, f1, s2, f2 => ((s1, f1), (s2, f2))
  | c :: rest, s1, f1, s2, f2 =>
    if f1 > f2 then
      if c.2 < f1 then scanC rest c.1 c.2 s2 f2 else scanC rest s1 f1 s2 f2
    else
      if c.2 < f2 then scanC rest s1 f1 c.1 c.2 else scanC rest s1 f1 s2 f2

/-- The scan `scanC`, stopped as soon as both current candidates have frequency at most 0. -/
def scanE : List (Nat × Int) → Nat → Int → Nat → Int → (Nat × Int) × (Nat × Int)
  | [], s1, f1, s2, f2 => ((s1, f1), (s2, f2))
  | c :: rest, s1, f1, s2, f2 =>
    if f1 ≤ 0 ∧ f2 ≤ 0 then ((s1, f1), (s2, f2))
    else if f1 > f2 then
      if c.2 < f1 then scanE rest c.1 c.2 s2 f2 else scanE rest s1 f1 s2 f2
    else
      if c.2 < f2 then scanE rest s1 f1 c.1 c.2 else scanE rest s1 f1 s2 f2

/-- Remove the candidates `a` and `b` and append the candidate `x`. -/
def dropSnoc (a b : Nat) (x : Nat × Int) : List (Nat × Int) → List (Nat × Int)
  | [] => [x]
  | c :: rest => if c.1 = a ∨ c.1 = b then dropSnoc a b x rest else c :: dropSnoc a b x rest

/-- One merge on the candidate list: the chosen pair and the next candidate list. -/
def stepS (cands : List (Nat × Int)) (node_count : Nat) :
    Option ((Nat × Nat) × List (Nat × Int)) :=
  match cands with
  | c1 :: c2 :: rest =>
    let p := scanE rest c1.1 c1.2 c2.1 c2.2
    if p.1.1 ≠ p.2.1 ∧ p.1.1 < node_count ∧ p.2.1 < node_count ∧ 256 ≤ node_count
        ∧ node_count < 511 ∧ 0 ≤ p.1.2 + p.2.2 then
      some ((p.1.1, p.2.1), dropSnoc p.1.1 p.2.1 (node_count, p.1.2 + p.2.2) cands)
    else none
  | _ => none

/-- The pairs `(smallest1, smallest2)` of the successive merges. -/
def loopS : Nat → Nat → List (Nat × Int) → Option (List (Nat × Nat))
  | 0, _, _ => some []
  | fuel + 1, node_count, cands =>
    if node_count < 511 then
      match stepS cands node_count with
      | none => none
      | some r =>
        match loopS fuel (node_count + 1) r.2 with
        | none => none
        | some s => some (r.1 :: s)
    else some []

/-- Apply `link` for a given sequence of pairs. -/
def replay : List (Nat × Nat) → Nat → Mem Node → Option (Mem Node)
  | [], _, nodes => some nodes
  | p :: rest, node_count, nodes =>
    match link nodes node_count p.1 p.2 with
    | none => none
    | some nodes => replay rest (node_count + 1) nodes

/-- Reset the code fields `val` and `bits` of every node. -/
def stripCodes : Mem Node → Mem Node
  | .leaf a => .leaf { a with val := 0, bits := 0 }
  | .node l r => .node (stripCodes l) (stripCodes r)

/-- The pairs `(right_child, left_child)` of the nodes `256, ..., 256 + n - 1`. -/
def childPairs (nodes : Mem Node) : Nat → Nat → List (Nat × Nat)
  | 0, _ => []
  | n + 1, i =>
    ((nodes.get i).right_child.toNat, (nodes.get i).left_child.toNat) :: childPairs nodes n (i + 1)

/-- The node array that `build g_freqs` produces, written out. -/
def builtNodes : Mem Node :=
  (.node
  (.node
   (.node
    (.node
     (.node
      (.node
       (.node
        (.node (.node (.leaf ⟨(-1), (-1), 255, 2, 3, 101342⟩) (.leaf ⟨6, 4, 121, 0, 0, 0⟩)) (.node (.leaf ⟨(-1), (-1), 57, 9, 256, 0⟩) (.leaf ⟨273, 272, 185, 0, 0, 0⟩)))
        (.node (.node (.leaf ⟨(-1), (-1), 244, 6, 41, 1974⟩) (.leaf ⟨144, 143, 153, 0, 0, 0⟩)) (.node (.leaf ⟨(-1), (-1), 89, 9, 384, 0⟩) (.leaf ⟨401, 400, 217, 0, 0, 0⟩))))
       (.node
        (.node (.node (.leaf ⟨(-1), (-1), 11, 9, 64, 0⟩) (.leaf ⟨80, 79, 137, 0, 0, 0⟩)) (.node (.leaf ⟨(-1), (-1), 73, 9, 320, 0⟩) (.leaf ⟨337, 336, 201, 0, 0, 0⟩)))
        (.node (.node (.leaf ⟨(-1), (-1), 41, 9, 192, 0⟩) (.leaf ⟨209, 208, 169, 0, 0, 0⟩)) (.node (.leaf ⟨(-1), (-1), 105, 9, 448, 0⟩) (.leaf ⟨465, 464, 233, 0, 0, 0⟩)))))
      (.node
       (.node
        (.node (.node (.leaf ⟨(-1), (-1), 5, 9, 32, 0⟩) (.leaf ⟨45, 44, 129, 0, 0, 0⟩)) (.node (.leaf ⟨(-1), (-1), 65, 9, 288, 0⟩) (.leaf ⟨305, 304, 193, 0, 0, 0⟩)))
        (.node (.node (.leaf ⟨(-1), (-1), 33, 9, 160, 0⟩) (.leaf ⟨176, 175, 161, 0, 0, 0⟩)) (.node (.leaf ⟨(-1), (-1), 97, 9, 416, 0⟩) (.leaf ⟨433, 432, 225, 0, 0, 0⟩))))
       (.node
        (.node (.node (.leaf ⟨(-1), (-1), 19, 9, 96, 0⟩) (.leaf ⟨112, 111, 145, 0, 0, 0⟩)) (.node (.leaf ⟨(-1), (-1), 81, 9, 352, 0⟩) (.leaf ⟨369, 368, 209, 0, 0, 0⟩)))
        (.node (.node (.leaf ⟨(-1), (-1), 49, 9, 224, 0⟩) (.leaf ⟨241, 240, 177, 0, 0, 0⟩)) (.node (.leaf ⟨(-1), (-1), 113, 9, 480, 0⟩) (.leaf ⟨33, 495, 244, 0, 0, 2271⟩))))))
     (.node
      (.node
       (.node
        (.node (.node (.leaf ⟨(-1), (-1), 245, 6, 21, 2815⟩) (.leaf ⟨28, 27, 125, 0, 0, 0⟩)) (.node (.leaf ⟨(-1), (-1), 61, 9, 272, 0⟩) (.leaf ⟨289, 288, 189, 0, 0, 0⟩)))
        (.node (.node (.leaf ⟨(-1), (-1), 30, 9, 144, 0⟩) (.leaf ⟨160, 159, 157, 0, 0, 0⟩)) (.node (.leaf ⟨(-1), (-1), 93, 9, 400, 0⟩) (.leaf ⟨417, 416, 221, 0, 0, 0⟩))))
       (.node
        (.node (.node (.leaf ⟨(-1), (-1), 15, 9, 80, 0⟩) (.leaf ⟨96, 95, 141, 0, 0, 0⟩)) (.node (.leaf ⟨(-1), (-1), 77, 9, 336, 0⟩) (.leaf ⟨353, 352, 205, 0, 0, 0⟩)))
        (.node (.node (.leaf ⟨(-1), (-1), 45, 9, 208, 0⟩) (.leaf ⟨225, 224, 173, 0, 0, 0⟩)) (.node (.leaf ⟨(-1), (-1), 109, 9, 464, 0⟩) (.leaf ⟨481, 480, 237, 0, 0, 0⟩)))))
      (.node
       (.node
        (.node (.node (.leaf ⟨(-1), (-1), 246, 6, 37, 2857⟩) (.leaf ⟨61, 60, 133, 0, 0, 0⟩)) (.node (.leaf ⟨(-1), (-1), 69, 9, 304, 0⟩) (.leaf ⟨321, 320, 197, 0, 0, 0⟩)))
        (.node (.node (.leaf ⟨(-1), (-1), 37, 9, 176, 0⟩) (.leaf ⟨193, 192, 165, 0, 0, 0⟩)) (.node (.leaf ⟨(-1), (-1), 101, 9, 432, 0⟩) (.leaf ⟨449, 448, 229, 0, 0, 0⟩))))
       (.node
        (.node (.node (.leaf ⟨(-1), (-1), 23, 9, 112, 0⟩) (.leaf ⟨128, 127, 149, 0, 0, 0⟩)) (.node (.leaf ⟨(-1), (-1), 85, 9, 368, 0⟩) (.leaf ⟨385, 384, 213, 0, 0, 0⟩)))
        (.node (.node (.leaf ⟨(-1), (-1), 53, 9, 240, 0⟩) (.leaf ⟨257, 256, 181, 0, 0, 0⟩)) (.node (.leaf ⟨(-1), (-1), 117, 9, 496, 0⟩) (.leaf ⟨499, 9, 252, 0, 0, 9480⟩)))))))
    (.node
     (.node
      (.node
       (.node
        (.node (.node (.leaf ⟨(-1), (-1), 1, 9, 8, 0⟩) (.leaf ⟨18, 16, 123, 0, 0, 0⟩)) (.node (.leaf ⟨(-1), (-1), 59, 9, 264, 0⟩) (.leaf ⟨281, 280, 187, 0, 0, 0⟩)))
        (.node (.node (.leaf ⟨(-1), (-1), 28, 9, 136, 0⟩) (.leaf ⟨152, 151, 155, 0, 0, 0⟩)) (.node (.leaf ⟨(-1), (-1), 91, 9, 392, 0⟩) (.leaf ⟨409, 408, 219, 0, 0, 0⟩))))
       (.node
        (.node (.node (.leaf ⟨(-1), (-1), 13, 9, 72, 0⟩) (.leaf ⟨88, 87, 139, 0, 0, 0⟩)) (.node (.leaf ⟨(-1), (-1), 75, 9, 328, 0⟩) (.leaf ⟨345, 344, 203, 0, 0, 0⟩)))
        (.node (.node (.leaf ⟨(-1), (-1), 43, 9, 200, 0⟩) (.leaf ⟨217, 216, 171, 0, 0, 0⟩)) (.node (.leaf ⟨(-1), (-1), 107, 9, 456, 0⟩) (.leaf ⟨473, 472, 235, 0, 0, 0⟩)))))
      (.node
       (.node
        (.node (.node (.leaf ⟨(-1), (-1), 6, 9, 40, 0⟩) (.leaf ⟨53, 52, 131, 0, 0, 0⟩)) (.node (.leaf ⟨(-1), (-1), 67, 9, 296, 0⟩) (.leaf ⟨313, 312, 195, 0, 0, 0⟩)))
        (.node (.node (.leaf ⟨(-1), (-1), 35, 9, 168, 0⟩) (.leaf ⟨184, 183, 163, 0, 0, 0⟩)) (.node (.leaf ⟨(-1), (-1), 99, 9, 424, 0⟩) (.leaf ⟨441, 440, 227, 0, 0, 0⟩))))
       (.node
        (.node (.node (.leaf ⟨(-1), (-1), 21, 9, 104, 0⟩) (.leaf ⟨120, 119, 147, 0, 0, 0⟩)) (.node (.leaf ⟨(-1), (-1), 83, 9, 360, 0⟩) (.leaf ⟨377, 376, 211, 0, 0, 0⟩)))
        (.node (.node (.leaf ⟨(-1), (-1), 51, 9, 232, 0⟩) (.leaf ⟨249, 248, 179, 0, 0, 0⟩)) (.node (.leaf ⟨(-1), (-1), 115, 9, 488, 0⟩) (.leaf ⟨8, 497, 250, 0, 0, 5549⟩))))))
     (.node
      (.node
       (.node
        (.node (.node (.leaf ⟨(-1), (-1), 3, 9, 24, 0⟩) (.leaf ⟨37, 36, 127, 0, 0, 0⟩)) (.node (.leaf ⟨(-1), (-1), 63, 9, 280, 0⟩) (.leaf ⟨297, 296, 191, 0, 0, 0⟩)))
        (.node (.node (.leaf ⟨(-1), (-1), 32, 9, 152, 0⟩) (.leaf ⟨168, 167, 159, 0, 0, 0⟩)) (.node (.leaf ⟨(-1), (-1), 95, 9, 408, 0⟩) (.leaf ⟨425, 424, 223, 0, 0, 0⟩))))
       (.node
        (.node (.node (.leaf ⟨(-1), (-1), 17, 9, 88, 0⟩) (.leaf ⟨104, 103, 143, 0, 0, 0⟩)) (.node (.leaf ⟨(-1), (-1), 79, 9, 344, 0⟩) (.leaf ⟨361, 360, 207, 0, 0, 0⟩)))
        (.node (.node (.leaf ⟨(-1), (-1), 47, 9, 216, 0⟩) (.leaf ⟨233, 232, 175, 0, 0, 0⟩)) (.node (.leaf ⟨(-1), (-1), 111, 9, 472, 0⟩) (.leaf ⟨489, 488, 239, 0, 0, 0⟩)))))
      (.node
       (.node
        (.node (.node (.leaf ⟨(-1), (-1), 9, 9, 56, 0⟩) (.leaf ⟨71, 70, 135, 0, 0, 0⟩)) (.node (.leaf ⟨(-1), (-1), 71, 9, 312, 0⟩) (.leaf ⟨329, 328, 199, 0, 0, 0⟩)))
        (.node (.node (.leaf ⟨(-1), (-1), 39, 9, 184, 0⟩) (.leaf ⟨201, 200, 167, 0, 0, 0⟩)) (.node (.leaf ⟨(-1), (-1), 103, 9, 440, 0⟩) (.leaf ⟨457, 456, 231, 0, 0, 0⟩))))
       (.node
        (.node (.node (.leaf ⟨(-1), (-1), 25, 9, 120, 0⟩) (.leaf ⟨136, 135, 151, 0, 0, 0⟩)) (.node (.leaf ⟨(-1), (-1), 87, 9, 376, 0⟩) (.leaf ⟨393, 392, 215, 0, 0, 0⟩)))
        (.node (.node (.leaf ⟨(-1), (-1), 55, 9, 248, 0⟩) (.leaf ⟨265, 264, 183, 0, 0, 0⟩)) (.node (.leaf ⟨(-1), (-1), 119, 9, 504, 0⟩) (.leaf ⟨505, 506, 254, 0, 0, 25205⟩))))))))
   (.node
    (.node
     (.node
      (.node
       (.node
        (.node (.node (.leaf ⟨(-1), (-1), 247, 6, 61, 3497⟩) (.leaf ⟨12, 11, 122, 0, 0, 0⟩)) (.node (.leaf ⟨(-1), (-1), 58, 9, 260, 0⟩) (.leaf ⟨277, 276, 186, 0, 0, 0⟩)))
        (.node (.node (.leaf ⟨(-1), (-1), 27, 9, 132, 0⟩) (.leaf ⟨148, 147, 154, 0, 0, 0⟩)) (.node (.leaf ⟨(-1), (-1), 90, 9, 388, 0⟩) (.leaf ⟨405, 404, 218, 0, 0, 0⟩))))
       (.node
        (.node (.node (.leaf ⟨(-1), (-1), 12, 9, 68, 0⟩) (.leaf ⟨84, 83, 138, 0, 0, 0⟩)) (.node (.leaf ⟨(-1), (-1), 74, 9, 324, 0⟩) (.leaf ⟨341, 340, 202, 0, 0, 0⟩)))
        (.node (.node (.leaf ⟨(-1), (-1), 42, 9, 196, 0⟩) (.leaf ⟨213, 212, 170, 0, 0, 0⟩)) (.node (.leaf ⟨(-1), (-1), 106, 9, 452, 0⟩) (.leaf ⟨469, 468, 234, 0, 0, 0⟩)))))
      (.node
       (.node
        (.node (.node (.leaf ⟨(-1), (-1), 5, 9, 36, 0⟩) (.leaf ⟨49, 48, 130, 0, 0, 0⟩)) (.node (.leaf ⟨(-1), (-1), 66, 9, 292, 0⟩) (.leaf ⟨309, 308, 194, 0, 0, 0⟩)))
        (.node (.node (.leaf ⟨(-1), (-1), 34, 9, 164, 0⟩) (.leaf ⟨180, 179, 162, 0, 0, 0⟩)) (.node (.leaf ⟨(-1), (-1), 98, 9, 420, 0⟩) (.leaf ⟨437, 436, 226, 0, 0, 0⟩))))
       (.node
        (.node (.node (.leaf ⟨(-1), (-1), 20, 9, 100, 0⟩) (.leaf ⟨116, 115, 146, 0, 0, 0⟩)) (.node (.leaf ⟨(-1), (-1), 82, 9, 356, 0⟩) (.leaf ⟨373, 372, 210, 0, 0, 0⟩)))
        (.node (.node (.leaf ⟨(-1), (-1), 50, 9, 228, 0⟩) (.leaf ⟨245, 244, 178, 0, 0, 0⟩)) (.node (.leaf ⟨(-1), (-1), 114, 9, 484, 0⟩) (.leaf ⟨191, 63, 246, 0, 0, 2969⟩))))))
     (.node
      (.node
       (.node
        (.node (.node (.leaf ⟨(-1), (-1), 2, 9, 20, 0⟩) (.leaf ⟨32, 31, 126, 0, 0, 0⟩)) (.node (.leaf ⟨(-1), (-1), 62, 9, 276, 0⟩) (.leaf ⟨293, 292, 190, 0, 0, 0⟩)))
        (.node (.node (.leaf ⟨(-1), (-1), 31, 9, 148, 0⟩) (.leaf ⟨164, 163, 158, 0, 0, 0⟩)) (.node (.leaf ⟨(-1), (-1), 94, 9, 404, 0⟩) (.leaf ⟨421, 420, 222, 0, 0, 0⟩))))
       (.node
        (.node (.node (.leaf ⟨(-1), (-1), 16, 9, 84, 0⟩) (.leaf ⟨100, 99, 142, 0, 0, 0⟩)) (.node (.leaf ⟨(-1), (-1), 78, 9, 340, 0⟩) (.leaf ⟨357, 356, 206, 0, 0, 0⟩)))
        (.node (.node (.leaf ⟨(-1), (-1), 46, 9, 212, 0⟩) (.leaf ⟨229, 228, 174, 0, 0, 0⟩)) (.node (.leaf ⟨(-1), (-1), 110, 9, 468, 0⟩) (.leaf ⟨485, 484, 238, 0, 0, 0⟩)))))
      (.node
       (.node
        (.node (.node (.leaf ⟨(-1), (-1), 8, 9, 52, 0⟩) (.leaf ⟨67, 66, 134, 0, 0, 0⟩)) (.node (.leaf ⟨(-1), (-1), 70, 9, 308, 0⟩) (.leaf ⟨325, 324, 198, 0, 0, 0⟩)))
        (.node (.node (.leaf ⟨(-1), (-1), 38, 9, 180, 0⟩) (.leaf ⟨197, 196, 166, 0, 0, 0⟩)) (.node (.leaf ⟨(-1), (-1), 102, 9, 436, 0⟩) (.leaf ⟨453, 452, 230, 0, 0, 0⟩))))
       (.node
        (.node (.node (.leaf ⟨(-1), (-1), 24, 9, 116, 0⟩) (.leaf ⟨132, 131, 150, 0, 0, 0⟩)) (.node (.leaf ⟨(-1), (-1), 86, 9, 372, 0⟩) (.leaf ⟨389, 388, 214, 0, 0, 0⟩)))
        (.node (.node (.leaf ⟨(-1), (-1), 54, 9, 244, 0⟩) (.leaf ⟨261, 260, 182, 0, 0, 0⟩)) (.node (.leaf ⟨(-1), (-1), 118, 9, 500, 0⟩) (.leaf ⟨503, 502, 253, 0, 0, 13830⟩)))))))
    (.node
     (.node
      (.node
       (.node
        (.node (.node (.leaf ⟨(-1), (-1), 1, 9, 12, 0⟩) (.leaf ⟨23, 22, 124, 0, 0, 0⟩)) (.node (.leaf ⟨(-1), (-1), 60, 9, 268, 0⟩) (.leaf ⟨285, 284, 188, 0, 0, 0⟩)))
        (.node (.node (.leaf ⟨(-1), (-1), 29, 9, 140, 0⟩) (.leaf ⟨156, 155, 156, 0, 0, 0⟩)) (.node (.leaf ⟨(-1), (-1), 92, 9, 396, 0⟩) (.leaf ⟨413, 412, 220, 0, 0, 0⟩))))
       (.node
        (.node (.node (.leaf ⟨(-1), (-1), 14, 9, 76, 0⟩) (.leaf ⟨92, 91, 140, 0, 0, 0⟩)) (.node (.leaf ⟨(-1), (-1), 76, 9, 332, 0⟩) (.leaf ⟨349, 348, 204, 0, 0, 0⟩)))
        (.node (.node (.leaf ⟨(-1), (-1), 44, 9, 204, 0⟩) (.leaf ⟨221, 220, 172, 0, 0, 0⟩)) (.node (.leaf ⟨(-1), (-1), 108, 9, 460, 0⟩) (.leaf ⟨477, 476, 236, 0, 0, 0⟩)))))
      (.node
       (.node
        (.node (.node (.leaf ⟨(-1), (-1), 7, 9, 44, 0⟩) (.leaf ⟨57, 56, 132, 0, 0, 0⟩)) (.node (.leaf ⟨(-1), (-1), 68, 9, 300, 0⟩) (.leaf ⟨317, 316, 196, 0, 0, 0⟩)))
        (.node (.node (.leaf ⟨(-1), (-1), 36, 9, 172, 0⟩) (.leaf ⟨188, 187, 164, 0, 0, 0⟩)) (.node (.leaf ⟨(-1), (-1), 100, 9, 428, 0⟩) (.leaf ⟨445, 444, 228, 0, 0, 0⟩))))
       (.node
        (.node (.node (.leaf ⟨(-1), (-1), 22, 9, 108, 0⟩) (.leaf ⟨124, 123, 148, 0, 0, 0⟩)) (.node (.leaf ⟨(-1), (-1), 84, 9, 364, 0⟩) (.leaf ⟨381, 380, 212, 0, 0, 0⟩)))
        (.node (.node (.leaf ⟨(-1), (-1), 52, 9, 236, 0⟩) (.leaf ⟨253, 252, 180, 0, 0, 0⟩)) (.node (.leaf ⟨(-1), (-1), 116, 9, 492, 0⟩) (.leaf ⟨21, 2, 251, 0, 0, 6467⟩))))))
     (.node
      (.node
       (.node
        (.node (.node (.leaf ⟨(-1), (-1), 4, 9, 28, 0⟩) (.leaf ⟨41, 40, 128, 0, 0, 0⟩)) (.node (.leaf ⟨(-1), (-1), 64, 9, 284, 0⟩) (.leaf ⟨301, 300, 192, 0, 0, 0⟩)))
        (.node (.node (.leaf ⟨(-1), (-1), 32, 9, 156, 0⟩) (.leaf ⟨172, 171, 160, 0, 0, 0⟩)) (.node (.leaf ⟨(-1), (-1), 96, 9, 412, 0⟩) (.leaf ⟨429, 428, 224, 0, 0, 0⟩))))
       (.node
        (.node (.node (.leaf ⟨(-1), (-1), 18, 9, 92, 0⟩) (.leaf ⟨108, 107, 144, 0, 0, 0⟩)) (.node (.leaf ⟨(-1), (-1), 80, 9, 348, 0⟩) (.leaf ⟨365, 364, 208, 0, 0, 0⟩)))
        (.node (.node (.leaf ⟨(-1), (-1), 48, 9, 220, 0⟩) (.leaf ⟨237, 236, 176, 0, 0, 0⟩)) (.node (.leaf ⟨(-1), (-1), 112, 9, 476, 0⟩) (.leaf ⟨493, 492, 240, 0, 0, 0⟩)))))
      (.node
       (.node
        (.node (.node (.leaf ⟨(-1), (-1), 10, 9, 60, 0⟩) (.leaf ⟨75, 74, 136, 0, 0, 0⟩)) (.node (.leaf ⟨(-1), (-1), 72, 9, 316, 0⟩) (.leaf ⟨333, 332, 200, 0, 0, 0⟩)))
        (.node (.node (.leaf ⟨(-1), (-1), 40, 9, 188, 0⟩) (.leaf ⟨205, 204, 168, 0, 0, 0⟩)) (.node (.leaf ⟨(-1), (-1), 104, 9, 444, 0⟩) (.leaf ⟨461, 460, 232, 0, 0, 0⟩))))
       (.node
        (.node (.node (.leaf ⟨(-1), (-1), 26, 9, 124, 0⟩) (.leaf ⟨140, 139, 152, 0, 0, 0⟩)) (.node (.leaf ⟨(-1), (-1), 88, 9, 380, 0⟩) (.leaf ⟨397, 396, 216, 0, 0, 0⟩)))
        (.node (.node (.leaf ⟨(-1), (-1), 56, 9, 252, 0⟩) (.leaf ⟨269, 268, 184, 0, 0, 0⟩)) (.node (.leaf ⟨(-1), (-1), 120, 9, 508, 0⟩) (.leaf ⟨509, 0, 0, 0, 0, 145694⟩)))))))))
  (.node
   (.node
    (.node
     (.node
      (.node
       (.node
        (.node (.node (.leaf ⟨(-1), (-1), 252, 4, 1, 9667⟩) (.leaf ⟨10, 7, 121, 0, 0, 0⟩)) (.node (.leaf ⟨(-1), (-1), 58, 9, 258, 0⟩) (.leaf ⟨275, 274, 185, 0, 0, 0⟩)))
        (.node (.node (.leaf ⟨(-1), (-1), 26, 9, 130, 0⟩) (.leaf ⟨146, 145, 153, 0, 0, 0⟩)) (.node (.leaf ⟨(-1), (-1), 89, 9, 386, 0⟩) (.leaf ⟨403, 402, 217, 0, 0, 0⟩))))
       (.node
        (.node (.node (.leaf ⟨(-1), (-1), 241, 7, 9, 1199⟩) (.leaf ⟨82, 81, 137, 0, 0, 0⟩)) (.node (.leaf ⟨(-1), (-1), 74, 9, 322, 0⟩) (.leaf ⟨339, 338, 201, 0, 0, 0⟩)))
        (.node (.node (.leaf ⟨(-1), (-1), 42, 9, 194, 0⟩) (.leaf ⟨211, 210, 169, 0, 0, 0⟩)) (.node (.leaf ⟨(-1), (-1), 105, 9, 450, 0⟩) (.leaf ⟨467, 466, 233, 0, 0, 0⟩)))))
      (.node
       (.node
        (.node (.node (.leaf ⟨(-1), (-1), 242, 7, 117, 1383⟩) (.leaf ⟨47, 46, 129, 0, 0, 0⟩)) (.node (.leaf ⟨(-1), (-1), 66, 9, 290, 0⟩) (.leaf ⟨307, 306, 193, 0, 0, 0⟩)))
        (.node (.node (.leaf ⟨(-1), (-1), 34, 9, 162, 0⟩) (.leaf ⟨178, 177, 161, 0, 0, 0⟩)) (.node (.leaf ⟨(-1), (-1), 97, 9, 418, 0⟩) (.leaf ⟨435, 434, 225, 0, 0, 0⟩))))
       (.node
        (.node (.node (.leaf ⟨(-1), (-1), 19, 9, 98, 0⟩) (.leaf ⟨114, 113, 145, 0, 0, 0⟩)) (.node (.leaf ⟨(-1), (-1), 82, 9, 354, 0⟩) (.leaf ⟨371, 370, 209, 0, 0, 0⟩)))
        (.node (.node (.leaf ⟨(-1), (-1), 50, 9, 226, 0⟩) (.leaf ⟨243, 242, 177, 0, 0, 0⟩)) (.node (.leaf ⟨(-1), (-1), 113, 9, 482, 0⟩) (.leaf ⟨77, 17, 245, 0, 0, 2734⟩))))))
     (.node
      (.node
       (.node
        (.node (.node (.leaf ⟨(-1), (-1), 249, 5, 25, 5235⟩) (.leaf ⟨30, 29, 125, 0, 0, 0⟩)) (.node (.leaf ⟨(-1), (-1), 62, 9, 274, 0⟩) (.leaf ⟨291, 290, 189, 0, 0, 0⟩)))
        (.node (.node (.leaf ⟨(-1), (-1), 30, 9, 146, 0⟩) (.leaf ⟨162, 161, 157, 0, 0, 0⟩)) (.node (.leaf ⟨(-1), (-1), 93, 9, 402, 0⟩) (.leaf ⟨419, 418, 221, 0, 0, 0⟩))))
       (.node
        (.node (.node (.leaf ⟨(-1), (-1), 15, 9, 82, 0⟩) (.leaf ⟨98, 97, 141, 0, 0, 0⟩)) (.node (.leaf ⟨(-1), (-1), 78, 9, 338, 0⟩) (.leaf ⟨355, 354, 205, 0, 0, 0⟩)))
        (.node (.node (.leaf ⟨(-1), (-1), 46, 9, 210, 0⟩) (.leaf ⟨227, 226, 173, 0, 0, 0⟩)) (.node (.leaf ⟨(-1), (-1), 109, 9, 466, 0⟩) (.leaf ⟨483, 482, 237, 0, 0, 0⟩)))))
      (.node
       (.node
        (.node (.node (.leaf ⟨(-1), (-1), 8, 9, 50, 0⟩) (.leaf ⟨65, 62, 133, 0, 0, 0⟩)) (.node (.leaf ⟨(-1), (-1), 70, 9, 306, 0⟩) (.leaf ⟨323, 322, 197, 0, 0, 0⟩)))
        (.node (.node (.leaf ⟨(-1), (-1), 38, 9, 178, 0⟩) (.leaf ⟨195, 194, 165, 0, 0, 0⟩)) (.node (.leaf ⟨(-1), (-1), 101, 9, 434, 0⟩) (.leaf ⟨451, 450, 229, 0, 0, 0⟩))))
       (.node
        (.node (.node (.leaf ⟨(-1), (-1), 23, 9, 114, 0⟩) (.leaf ⟨130, 129, 149, 0, 0, 0⟩)) (.node (.leaf ⟨(-1), (-1), 86, 9, 370, 0⟩) (.leaf ⟨387, 386, 213, 0, 0, 0⟩)))
        (.node (.node (.leaf ⟨(-1), (-1), 54, 9, 242, 0⟩) (.leaf ⟨259, 258, 181, 0, 0, 0⟩)) (.node (.leaf ⟨(-1), (-1), 117, 9, 498, 0⟩) (.leaf ⟨501, 500, 253, 0, 0, 11375⟩)))))))
    (.node
     (.node
      (.node
       (.node
        (.node (.node (.leaf ⟨(-1), (-1), 248, 6, 45, 3793⟩) (.leaf ⟨20, 19, 123, 0, 0, 0⟩)) (.node (.leaf ⟨(-1), (-1), 60, 9, 266, 0⟩) (.leaf ⟨283, 282, 187, 0, 0, 0⟩)))
        (.node (.node (.leaf ⟨(-1), (-1), 28, 9, 138, 0⟩) (.leaf ⟨154, 153, 155, 0, 0, 0⟩)) (.node (.leaf ⟨(-1), (-1), 91, 9, 394, 0⟩) (.leaf ⟨411, 410, 219, 0, 0, 0⟩))))
       (.node
        (.node (.node (.leaf ⟨(-1), (-1), 13, 9, 74, 0⟩) (.leaf ⟨90, 89, 139, 0, 0, 0⟩)) (.node (.leaf ⟨(-1), (-1), 76, 9, 330, 0⟩) (.leaf ⟨347, 346, 203, 0, 0, 0⟩)))
        (.node (.node (.leaf ⟨(-1), (-1), 44, 9, 202, 0⟩) (.leaf ⟨219, 218, 171, 0, 0, 0⟩)) (.node (.leaf ⟨(-1), (-1), 107, 9, 458, 0⟩) (.leaf ⟨475, 474, 235, 0, 0, 0⟩)))))
      (.node
       (.node
        (.node (.node (.leaf ⟨(-1), (-1), 247, 6, 29, 2970⟩) (.leaf ⟨55, 54, 131, 0, 0, 0⟩)) (.node (.leaf ⟨(-1), (-1), 68, 9, 298, 0⟩) (.leaf ⟨315, 314, 195, 0, 0, 0⟩)))
        (.node (.node (.leaf ⟨(-1), (-1), 36, 9, 170, 0⟩) (.leaf ⟨186, 185, 163, 0, 0, 0⟩)) (.node (.leaf ⟨(-1), (-1), 99, 9, 426, 0⟩) (.leaf ⟨443, 442, 227, 0, 0, 0⟩))))
       (.node
        (.node (.node (.leaf ⟨(-1), (-1), 21, 9, 106, 0⟩) (.leaf ⟨122, 121, 147, 0, 0, 0⟩)) (.node (.leaf ⟨(-1), (-1), 84, 9, 362, 0⟩) (.leaf ⟨379, 378, 211, 0, 0, 0⟩)))
        (.node (.node (.leaf ⟨(-1), (-1), 52, 9, 234, 0⟩) (.leaf ⟨251, 250, 179, 0, 0, 0⟩)) (.node (.leaf ⟨(-1), (-1), 115, 9, 490, 0⟩) (.leaf ⟨498, 24, 250, 0, 0, 5826⟩))))))
     (.node
      (.node
       (.node
        (.node (.node (.leaf ⟨(-1), (-1), 248, 6, 13, 3570⟩) (.leaf ⟨39, 38, 127, 0, 0, 0⟩)) (.node (.leaf ⟨(-1), (-1), 64, 9, 282, 0⟩) (.leaf ⟨299, 298, 191, 0, 0, 0⟩)))
        (.node (.node (.leaf ⟨(-1), (-1), 242, 7, 53, 1351⟩) (.leaf ⟨170, 169, 159, 0, 0, 0⟩)) (.node (.leaf ⟨(-1), (-1), 95, 9, 410, 0⟩) (.leaf ⟨427, 426, 223, 0, 0, 0⟩))))
       (.node
        (.node (.node (.leaf ⟨(-1), (-1), 17, 9, 90, 0⟩) (.leaf ⟨106, 105, 143, 0, 0, 0⟩)) (.node (.leaf ⟨(-1), (-1), 80, 9, 346, 0⟩) (.leaf ⟨363, 362, 207, 0, 0, 0⟩)))
        (.node (.node (.leaf ⟨(-1), (-1), 48, 9, 218, 0⟩) (.leaf ⟨235, 234, 175, 0, 0, 0⟩)) (.node (.leaf ⟨(-1), (-1), 111, 9, 474, 0⟩) (.leaf ⟨491, 490, 239, 0, 0, 0⟩)))))
      (.node
       (.node
        (.node (.node (.leaf ⟨(-1), (-1), 10, 9, 58, 0⟩) (.leaf ⟨73, 72, 135, 0, 0, 0⟩)) (.node (.leaf ⟨(-1), (-1), 72, 9, 314, 0⟩) (.leaf ⟨331, 330, 199, 0, 0, 0⟩)))
        (.node (.node (.leaf ⟨(-1), (-1), 40, 9, 186, 0⟩) (.leaf ⟨203, 202, 167, 0, 0, 0⟩)) (.node (.leaf ⟨(-1), (-1), 103, 9, 442, 0⟩) (.leaf ⟨459, 458, 231, 0, 0, 0⟩))))
       (.node
        (.node (.node (.leaf ⟨(-1), (-1), 25, 9, 122, 0⟩) (.leaf ⟨138, 137, 151, 0, 0, 0⟩)) (.node (.leaf ⟨(-1), (-1), 88, 9, 378, 0⟩) (.leaf ⟨395, 394, 215, 0, 0, 0⟩)))
        (.node (.node (.leaf ⟨(-1), (-1), 56, 9, 250, 0⟩) (.leaf ⟨267, 266, 183, 0, 0, 0⟩)) (.node (.leaf ⟨(-1), (-1), 119, 9, 506, 0⟩) (.leaf ⟨507, 508, 255, 0, 0, 44352⟩))))))))
   (.node
    (.node
     (.node
      (.node
       (.node
        (.node (.node (.leaf ⟨(-1), (-1), 240, 8, 73, 1072⟩) (.leaf ⟨15, 14, 122, 0, 0, 0⟩)) (.node (.leaf ⟨(-1), (-1), 59, 9, 262, 0⟩) (.leaf ⟨279, 278, 186, 0, 0, 0⟩)))
        (.node (.node (.leaf ⟨(-1), (-1), 27, 9, 134, 0⟩) (.leaf ⟨150, 149, 154, 0, 0, 0⟩)) (.node (.leaf ⟨(-1), (-1), 90, 9, 390, 0⟩) (.leaf ⟨407, 406, 218, 0, 0, 0⟩))))
       (.node
        (.node (.node (.leaf ⟨(-1), (-1), 12, 9, 70, 0⟩) (.leaf ⟨86, 85, 138, 0, 0, 0⟩)) (.node (.leaf ⟨(-1), (-1), 75, 9, 326, 0⟩) (.leaf ⟨343, 342, 202, 0, 0, 0⟩)))
        (.node (.node (.leaf ⟨(-1), (-1), 43, 9, 198, 0⟩) (.leaf ⟨215, 214, 170, 0, 0, 0⟩)) (.node (.leaf ⟨(-1), (-1), 106, 9, 454, 0⟩) (.leaf ⟨471, 470, 234, 0, 0, 0⟩)))))
      (.node
       (.node
        (.node (.node (.leaf ⟨(-1), (-1), 6, 9, 38, 0⟩) (.leaf ⟨51, 50, 130, 0, 0, 0⟩)) (.node (.leaf ⟨(-1), (-1), 67, 9, 294, 0⟩) (.leaf ⟨311, 310, 194, 0, 0, 0⟩)))
        (.node (.node (.leaf ⟨(-1), (-1), 35, 9, 166, 0⟩) (.leaf ⟨182, 181, 162, 0, 0, 0⟩)) (.node (.leaf ⟨(-1), (-1), 98, 9, 422, 0⟩) (.leaf ⟨439, 438, 226, 0, 0, 0⟩))))
       (.node
        (.node (.node (.leaf ⟨(-1), (-1), 20, 9, 102, 0⟩) (.leaf ⟨118, 117, 146, 0, 0, 0⟩)) (.node (.leaf ⟨(-1), (-1), 83, 9, 358, 0⟩) (.leaf ⟨375, 374, 210, 0, 0, 0⟩)))
        (.node (.node (.leaf ⟨(-1), (-1), 51, 9, 230, 0⟩) (.leaf ⟨247, 246, 178, 0, 0, 0⟩)) (.node (.leaf ⟨(-1), (-1), 114, 9, 486, 0⟩) (.leaf ⟨496, 64, 249, 0, 0, 4245⟩))))))
     (.node
      (.node
       (.node
        (.node (.node (.leaf ⟨(-1), (-1), 3, 9, 22, 0⟩) (.leaf ⟨35, 34, 126, 0, 0, 0⟩)) (.node (.leaf ⟨(-1), (-1), 63, 9, 278, 0⟩) (.leaf ⟨295, 294, 190, 0, 0, 0⟩)))
        (.node (.node (.leaf ⟨(-1), (-1), 31, 9, 150, 0⟩) (.leaf ⟨166, 165, 158, 0, 0, 0⟩)) (.node (.leaf ⟨(-1), (-1), 94, 9, 406, 0⟩) (.leaf ⟨423, 422, 222, 0, 0, 0⟩))))
       (.node
        (.node (.node (.leaf ⟨(-1), (-1), 16, 9, 86, 0⟩) (.leaf ⟨102, 101, 142, 0, 0, 0⟩)) (.node (.leaf ⟨(-1), (-1), 79, 9, 342, 0⟩) (.leaf ⟨359, 358, 206, 0, 0, 0⟩)))
        (.node (.node (.leaf ⟨(-1), (-1), 47, 9, 214, 0⟩) (.leaf ⟨231, 230, 174, 0, 0, 0⟩)) (.node (.leaf ⟨(-1), (-1), 110, 9, 470, 0⟩) (.leaf ⟨487, 486, 238, 0, 0, 0⟩)))))
      (.node
       (.node
        (.node (.node (.leaf ⟨(-1), (-1), 9, 9, 54, 0⟩) (.leaf ⟨69, 68, 134, 0, 0, 0⟩)) (.node (.leaf ⟨(-1), (-1), 71, 9, 310, 0⟩) (.leaf ⟨327, 326, 198, 0, 0, 0⟩)))
        (.node (.node (.leaf ⟨(-1), (-1), 39, 9, 182, 0⟩) (.leaf ⟨199, 198, 166, 0, 0, 0⟩)) (.node (.leaf ⟨(-1), (-1), 102, 9, 438, 0⟩) (.leaf ⟨455, 454, 230, 0, 0, 0⟩))))
       (.node
        (.node (.node (.leaf ⟨(-1), (-1), 24, 9, 118, 0⟩) (.leaf ⟨134, 133, 150, 0, 0, 0⟩)) (.node (.leaf ⟨(-1), (-1), 87, 9, 374, 0⟩) (.leaf ⟨391, 390, 214, 0, 0, 0⟩)))
        (.node (.node (.leaf ⟨(-1), (-1), 55, 9, 246, 0⟩) (.leaf ⟨263, 262, 182, 0, 0, 0⟩)) (.node (.leaf ⟨(-1), (-1), 118, 9, 502, 0⟩) (.leaf ⟨1, 504, 254, 0, 0, 19147⟩)))))))
    (.node
     (.node
      (.node
       (.node
        (.node (.node (.leaf ⟨(-1), (-1), 2, 9, 14, 0⟩) (.leaf ⟨26, 25, 124, 0, 0, 0⟩)) (.node (.leaf ⟨(-1), (-1), 61, 9, 270, 0⟩) (.leaf ⟨287, 286, 188, 0, 0, 0⟩)))
        (.node (.node (.leaf ⟨(-1), (-1), 29, 9, 142, 0⟩) (.leaf ⟨158, 157, 156, 0, 0, 0⟩)) (.node (.leaf ⟨(-1), (-1), 92, 9, 398, 0⟩) (.leaf ⟨415, 414, 220, 0, 0, 0⟩))))
       (.node
        (.node (.node (.leaf ⟨(-1), (-1), 14, 9, 78, 0⟩) (.leaf ⟨94, 93, 140, 0, 0, 0⟩)) (.node (.leaf ⟨(-1), (-1), 77, 9, 334, 0⟩) (.leaf ⟨351, 350, 204, 0, 0, 0⟩)))
        (.node (.node (.leaf ⟨(-1), (-1), 45, 9, 206, 0⟩) (.leaf ⟨223, 222, 172, 0, 0, 0⟩)) (.node (.leaf ⟨(-1), (-1), 108, 9, 462, 0⟩) (.leaf ⟨479, 478, 236, 0, 0, 0⟩)))))
      (.node
       (.node
        (.node (.node (.leaf ⟨(-1), (-1), 7, 9, 46, 0⟩) (.leaf ⟨59, 58, 132, 0, 0, 0⟩)) (.node (.leaf ⟨(-1), (-1), 69, 9, 302, 0⟩) (.leaf ⟨319, 318, 196, 0, 0, 0⟩)))
        (.node (.node (.leaf ⟨(-1), (-1), 37, 9, 174, 0⟩) (.leaf ⟨190, 189, 164, 0, 0, 0⟩)) (.node (.leaf ⟨(-1), (-1), 100, 9, 430, 0⟩) (.leaf ⟨447, 446, 228, 0, 0, 0⟩))))
       (.node
        (.node (.node (.leaf ⟨(-1), (-1), 22, 9, 110, 0⟩) (.leaf ⟨126, 125, 148, 0, 0, 0⟩)) (.node (.leaf ⟨(-1), (-1), 85, 9, 366, 0⟩) (.leaf ⟨383, 382, 212, 0, 0, 0⟩)))
        (.node (.node (.leaf ⟨(-1), (-1), 53, 9, 238, 0⟩) (.leaf ⟨255, 254, 180, 0, 0, 0⟩)) (.node (.leaf ⟨(-1), (-1), 116, 9, 494, 0⟩) (.leaf ⟨13, 5, 251, 0, 0, 7363⟩))))))
     (.node
      (.node
       (.node
        (.node (.node (.leaf ⟨(-1), (-1), 4, 9, 30, 0⟩) (.leaf ⟨43, 42, 128, 0, 0, 0⟩)) (.node (.leaf ⟨(-1), (-1), 65, 9, 286, 0⟩) (.leaf ⟨303, 302, 192, 0, 0, 0⟩)))
        (.node (.node (.leaf ⟨(-1), (-1), 33, 9, 158, 0⟩) (.leaf ⟨174, 173, 160, 0, 0, 0⟩)) (.node (.leaf ⟨(-1), (-1), 96, 9, 414, 0⟩) (.leaf ⟨431, 430, 224, 0, 0, 0⟩))))
       (.node
        (.node (.node (.leaf ⟨(-1), (-1), 18, 9, 94, 0⟩) (.leaf ⟨110, 109, 144, 0, 0, 0⟩)) (.node (.leaf ⟨(-1), (-1), 81, 9, 350, 0⟩) (.leaf ⟨367, 366, 208, 0, 0, 0⟩)))
        (.node (.node (.leaf ⟨(-1), (-1), 49, 9, 222, 0⟩) (.leaf ⟨239, 238, 176, 0, 0, 0⟩)) (.node (.leaf ⟨(-1), (-1), 112, 9, 478, 0⟩) (.leaf ⟨3, 494, 241, 0, 0, 1072⟩)))))
      (.node
       (.node
        (.node (.node (.leaf ⟨(-1), (-1), 11, 9, 62, 0⟩) (.leaf ⟨78, 76, 136, 0, 0, 0⟩)) (.node (.leaf ⟨(-1), (-1), 73, 9, 318, 0⟩) (.leaf ⟨335, 334, 200, 0, 0, 0⟩)))
        (.node (.node (.leaf ⟨(-1), (-1), 41, 9, 190, 0⟩) (.leaf ⟨207, 206, 168, 0, 0, 0⟩)) (.node (.leaf ⟨(-1), (-1), 104, 9, 446, 0⟩) (.leaf ⟨463, 462, 232, 0, 0, 0⟩))))
       (.node
        (.node (.node (.leaf ⟨(-1), (-1), 243, 7, 69, 1494⟩) (.leaf ⟨142, 141, 152, 0, 0, 0⟩)) (.node (.leaf ⟨(-1), (-1), 243, 7, 5, 1475⟩) (.leaf ⟨399, 398, 216, 0, 0, 0⟩)))
        (.node (.node (.leaf ⟨(-1), (-1), 57, 9, 254, 0⟩) (.leaf ⟨271, 270, 184, 0, 0, 0⟩)) (.node (.leaf ⟨(-1), (-1), 120, 9, 510, 0⟩) (.leaf ⟨(-1), (-1), 0, 0, 0, 0⟩))))))))))

/-! ## `DoWriteBits` and `Huffman::compress` -/

/-- Outcome of a codec call: a returned buffer, a thrown exception (`BA_PRECONDITION` or
`throw Exception`), an access outside a buffer or array (undefined behaviour), or a loop
that used up its step budget. -/
inductive Result where
  | ok (out : List Nat)
  | error
  | oob
  | outOfFuel
deriving DecidableEq

/-- The output cursor of `compress`: the buffer `out`, the byte offset of `ptr` in it, and
`bit`. -/
structure Writer where
  buf : List Nat
  ptr : Nat
  bit : Nat
deriving DecidableEq

/-- One pass of the loop body of `DoWriteBits` (lines 45-47):
`**ptr |= ((val >> src_bit) & 0x01) << (*bit)`, then advance. `none` when `*ptr` is outside
the buffer. -/
def writeBit (w : Writer) (val src_bit : Nat) : Option Writer :=
  match w.buf[w.ptr]? with
  | none => none
  | some old =>
    some { buf := w.buf.set w.ptr ((old ||| (((val >>> src_bit) &&& 1) <<< w.bit)) % 256)
           ptr := if w.bit = 7 then w.ptr + 1 else w.ptr
           bit := (w.bit + 1) % 8 }

/-- The loop `while (src_bit < val_bits)` of `DoWriteBits`. -/
def writeLoop (val val_bits : Nat) : Nat → Nat → Writer → Option Writer
  | 0, _, w => some w
  | fuel + 1, src_bit, w =>
    if src_bit < val_bits then
      match writeBit w val src_bit with
      | none => none
      | some w => writeLoop val val_bits fuel (src_bit + 1) w
    else some w

/-- `DoWriteBits(&ptr, &bit, val, val_bits)` (lines 42-50). -/
def DoWriteBits (w : Writer) (val val_bits : Nat) : Option Writer :=
  writeLoop val val_bits val_bits 0 w

/-- Lines 76-79: the `uint32_t` sum of the code lengths of the bytes of `data`. -/
def bitCount (nodes : Mem Node) : List Nat → Nat → Nat
  | [], bit_count => bit_count
  | b :: rest, bit_count => bitCount nodes rest ((bit_count + (nodes.get b).bits) % 2 ^ 32)

/-- Lines 105-108: `DoWriteBits` for every byte of `data`. -/
def writeAll (nodes : Mem Node) : List Nat → Writer → Option Writer
  | [], w => some w
  | b :: rest, w =>
    match DoWriteBits w (nodes.get b).val (nodes.get b).bits with
    | none => none
    | some w => writeAll nodes rest w

/-- Lines 82-85: `length_out` from the bit count. -/
def lengthOut (bit_count : Nat) : Nat :=
  if bit_count % 8 ≠ 0 then bit_count / 8 + 1 + 1 else bit_count / 8 + 1

/-- Lines 99-102: the header byte before the compressed flag is set. -/
def headerByte (bit_count : Nat) : Nat :=
  if 8 - bit_count % 8 = 8 then 0 else 8 - bit_count % 8

/-- `Huffman::compress` (lines 59-119). `length` is `src.size()` cast to `uint32_t`; the two
loops run over the first `length` bytes. -/
def compress (nodes : Mem Node) (src : List Nat) : Result :=
  match src[0]? with
  | none => .oob
  | some d0 =>
    if ¬ (d0 >>> 7 = 0) then .error else
    if lengthOut (bitCount nodes (src.take (src.length % 2 ^ 32)) 0) ≥ src.length % 2 ^ 32 then
      .ok src
    else
      match writeAll nodes (src.take (src.length % 2 ^ 32))
          { buf := (List.replicate
                      (lengthOut (bitCount nodes (src.take (src.length % 2 ^ 32)) 0)) 0).set 0
                      (headerByte (bitCount nodes (src.take (src.length % 2 ^ 32)) 0 % 8))
            ptr := 1
            bit := 0 } with
      | none => .oob
      | some w =>
        match w.buf[0]? with
        | none => .oob
        | some h => .ok (w.buf.set 0 ((h ||| (1 <<< 7)) % 256))

/-! ## `Huffman::decompress` -/

/-- Outcome of the tree walk for one symbol (lines 162-200): the value found at the
both-children-absent check of line 192 (`leaf`), the value found at a directional dead end of
lines 172-174 or 180-182 (`deadEnd`), each with the new bit cursor, or a failure. -/
inductive Walk where
  | leaf (val : Nat) (bit : Nat)
  | deadEnd (val : Nat) (bit : Nat)
  | error
  | oob
  | outOfFuel
deriving DecidableEq

/-- The loop `while (true)` of lines 165-200, from node `n` with the cursor at `bit`. The two
symmetric branches (bit 0: left child, bit 1: right child) are written once, on `child`. -/
def walk (nodes : Mem Node) (src : List Nat) (bit_length : Nat) : Nat → Nat → Nat → Walk
  | 0, _, _ => .outOfFuel
  | fuel + 1, n, bit =>
    if ¬ n ≤ 510 then .error else
    match src[1 + bit / 8]? with
    | none => .oob
    | some x =>
      let child : Int :=
        if (x >>> (bit % 8)) &&& 1 = 0 then (nodes.get n).left_child
        else (nodes.get n).right_child
      if child = -1 then .deadEnd n bit
      else if child < 0 ∨ 510 < child then .oob
      else if (nodes.get child.toNat).left_child = -1
          ∧ (nodes.get child.toNat).right_child = -1 then .leaf child.toNat (bit + 1)
      else if bit + 1 > bit_length then .error
      else walk nodes src bit_length fuel child.toNat (bit + 1)

/-- Lines 204-212: the eight bits at the cursor read as a byte. `some none` is a failed
`BA_PRECONDITION`, `none` a read outside the buffer. -/
def literal (src : List Nat) (length bit : Nat) : Option (Option Nat) :=
  if bit % 8 = 0 then
    if ¬ bit / 8 < length - 1 then some none else
    match src[1 + bit / 8]? with
    | none => none
    | some x => some (some x)
  else
    if ¬ bit / 8 + 1 < length - 1 then some none else
    match src[1 + bit / 8]?, src[1 + (bit / 8 + 1)]? with
    | some x, some y => some (some (((x >>> (bit % 8)) ||| (y <<< (8 - bit % 8))) % 256))
    | _, _ => none

/-- The loop `while (bit < bit_length)` of lines 156-219 and the final check of line 220.
`bit` is a `uint32_t`: `bit++` is taken below `bit_length` and in the tree walk at most at
`bit_length`, so only `bit += 8` of line 213 can wrap. -/
def decodeLoop (nodes : Mem Node) (src : List Nat) (length bit_length : Nat) :
    Nat → Nat → List Nat → Result
  | 0, _, _ => .outOfFuel
  | fuel + 1, bit, out =>
    if bit < bit_length then
      match src[1 + bit / 8]? with
      | none => .oob
      | some x =>
        if (x >>> (bit % 8)) &&& 1 ≠ 0 then
          if ¬ (nodes.get 510).parent = 0 then .error else
          match walk nodes src bit_length (bit_length + 2) 510 (bit + 1) with
          | .leaf val bit => decodeLoop nodes src length bit_length fuel bit (out ++ [val % 256])
          | .deadEnd val bit => decodeLoop nodes src length bit_length fuel bit (out ++ [val % 256])
          | .error => .error
          | .oob => .oob
          | .outOfFuel => .outOfFuel
        else
          match literal src length (bit + 1) with
          | none => .oob
          | some none => .error
          | some (some val) =>
            if (bit + 1 + 8) % 2 ^ 32 > bit_length then .error
            else
              decodeLoop nodes src length bit_length fuel ((bit + 1 + 8) % 2 ^ 32) (out ++ [val])
    else if bit = bit_length then .ok out else .error

/-- `Huffman::decompress` (lines 133-231). -/
def decompress (nodes : Mem Node) (src : List Nat) : Result :=
  if ¬ src.length % 2 ^ 32 > 0 then .error else
  match src[0]? with
  | none => .oob
  | some d0 =>
    if d0 >>> 7 ≠ 0 then
      if d0 &&& 0x0F > ((src.length % 2 ^ 32 - 1) * 8) % 2 ^ 32 then .error else
      decodeLoop nodes src (src.length % 2 ^ 32)
        (((src.length % 2 ^ 32 - 1) * 8) % 2 ^ 32 - (d0 &&& 0x0F))
        (((src.length % 2 ^ 32 - 1) * 8) % 2 ^ 32 - (d0 &&& 0x0F) + 1) 0 []
    else .ok src

/-! ## Auxiliary definitions of the verification -/

/-- Read-modify-write of one slot. -/
def Mem.upd {α : Type} (m : Mem α) (i : Nat) (f : α → α) : Mem α := m.set i (f (m.get i))

/-- Every node from `nc` on is still unparented. -/
def Fresh (t : Mem Node) (nc : Nat) : Prop := ∀ i, nc ≤ i → i < 512 → (t.get i).parent = 0

/-- Number of parent links from node `index` up to a node without parent. -/
def depthOf (nodes : Mem Node) : Nat → Nat → Nat
  | 0, _ => 0
  | fuel + 1, index =>
    if (nodes.get index).parent ≠ 0 then
      depthOf nodes fuel ((nodes.get index).parent + 255) + 1
    else 0

/-- The node reached from `index` after `k` parent links. -/
def ancestor (nodes : Mem Node) : Nat → Nat → Nat
  | 0, index => index
  | k + 1, index => ancestor nodes k ((nodes.get index).parent + 255)

/-- Node `j` is the right child of its parent. -/
@[reducible] def isRightChild (nodes : Mem Node) (j : Nat) : Prop :=
  (nodes.get ((nodes.get j).parent + 255)).right_child = (j : Int)

/-- The transmitted bit string of byte `b`: the low `bits` bits of its `val`, least
significant bit first. -/
def codeBitsOf (nodes : Mem Node) (b : Nat) : List Bool :=
  (List.range (nodes.get b).bits).map fun k => (nodes.get b).val.testBit k

/-- The concatenation of the transmitted bit strings of the bytes of `data`. -/
def encodeBits (nodes : Mem Node) : List Nat → List Bool
  | [] => []
  | b :: rest => codeBitsOf nodes b ++ encodeBits nodes rest

/-- The sixteen byte values with a non-zero entry in `g_freqs`. -/
def treeSyms : List Nat := [0, 1, 2, 3, 5, 8, 9, 13, 17, 21, 24, 33, 63, 64, 77, 191]

/-- Lines 517-537 of one merge iteration: the two searches for unparented nodes followed by
the scan. Returns `(smallest1, smallest2)` as `mergeStep` passes them to `link`. -/
def selection (nodes : Mem Node) (node_count : Nat) : Nat × Nat :=
  scan nodes node_count node_count
    (skipParented nodes 511 (skipParented nodes 511 0 + 1) + 1)
    (skipParented nodes 511 0) (skipParented nodes 511 (skipParented nodes 511 0 + 1))

/-- The number of unparented nodes among `0, ..., n - 1`. -/
def unparented (nodes : Mem Node) : Nat → Nat
  | 0 => 0
  | n + 1 => unparented nodes n + (if (nodes.get n).parent = 0 then 1 else 0)

/-- The total number of code bits of `data` (no wrap-around). -/
def codeBits (nodes : Mem Node) : List Nat → Nat
  | [] => 0
  | b :: rest => (nodes.get b).bits + codeBits nodes rest

/-- The writer state at which `compress` starts writing the payload. -/
def startWriter (bit_count : Nat) : Writer :=
  { buf := (List.replicate (lengthOut bit_count) 0).set 0 (headerByte (bit_count % 8))
    ptr := 1
    bit := 0 }

/-- The sum of the frequencies of the unparented nodes among `0, ..., n - 1`. -/
def unparentedSum (nodes : Mem Node) : Nat → Int
  | 0 => 0
  | n + 1 =>
    unparentedSum nodes n + (if (nodes.get n).parent = 0 then (nodes.get n).frequency else 0)

/-- The state of the node array when the merge loop has created the nodes `256, ..., nc - 1`
from leaves whose frequencies add up to `total`. -/
structure TreeInv (t : Mem Node) (nc : Nat) (total : Int) : Prop where
  perfect : Mem.Perfect 9 t
  fresh : Fresh t nc
  leaf : ∀ i, i < 256 → (t.get i).left_child = -1 ∧ (t.get i).right_child = -1
  inner : ∀ i, 256 ≤ i → i < nc → ∃ a b : Nat, a < i ∧ b < i ∧ a ≠ b
    ∧ (t.get i).right_child = (a : Int) ∧ (t.get i).left_child = (b : Int)
    ∧ (t.get i).frequency = (t.get a).frequency + (t.get b).frequency
    ∧ (t.get a).parent + 255 = i ∧ (t.get b).parent + 255 = i
  up : ∀ i, i < nc → (t.get i).parent ≠ 0 →
    256 ≤ (t.get i).parent + 255 ∧ (t.get i).parent + 255 < nc ∧ i < (t.get i).parent + 255
    ∧ ((t.get ((t.get i).parent + 255)).left_child = (i : Int)
        ∨ (t.get ((t.get i).parent + 255)).right_child = (i : Int))
  nonneg : ∀ i, i < nc → 0 ≤ (t.get i).frequency
  sum : unparentedSum t nc = total
  count : unparented t nc + nc = 512

/-- The nodes of `t2` have the tree fields (`parent`, the children, `frequency`) of the nodes
of `t`. -/
def SameTree (t t2 : Mem Node) : Prop :=
  Mem.Perfect 9 t2 ∧ ∀ j, j < 512 →
    (t2.get j).parent = (t.get j).parent ∧ (t2.get j).left_child = (t.get j).left_child
      ∧ (t2.get j).right_child = (t.get j).right_child
      ∧ (t2.get j).frequency = (t.get j).frequency

/-- The 511 nodes form one binary tree rooted at node 510 whose leaves are the nodes
`0, ..., 255`: node 510 is the only node without parent; every other node `i` has a parent
index `p = parent + 255` with `256 <= p <= 510` and `p > i` and is exactly one of the two
children of `p`; every node from 256 on has two children, distinct nodes of smaller index,
and its frequency is the sum of theirs; the nodes below 256 have no children; and the parent
links of every node lead to node 510. -/
def WellFormed (nodes : Mem Node) : Prop :=
  ∀ i, i < 511 →
    (((nodes.get i).parent = 0 ↔ i = 510)
      ∧ (i < 510 →
          256 ≤ (nodes.get i).parent + 255 ∧ (nodes.get i).parent + 255 ≤ 510
          ∧ i < (nodes.get i).parent + 255
          ∧ (((nodes.get ((nodes.get i).parent + 255)).left_child = (i : Int)
                ∧ (nodes.get ((nodes.get i).parent + 255)).right_child ≠ (i : Int))
              ∨ ((nodes.get ((nodes.get i).parent + 255)).left_child ≠ (i : Int)
                ∧ (nodes.get ((nodes.get i).parent + 255)).right_child = (i : Int))))
      ∧ (256 ≤ i →
          0 ≤ (nodes.get i).left_child ∧ (nodes.get i).left_child < (i : Int)
          ∧ 0 ≤ (nodes.get i).right_child ∧ (nodes.get i).right_child < (i : Int)
          ∧ (nodes.get i).left_child ≠ (nodes.get i).right_child
          ∧ (nodes.get i).frequency
              = (nodes.get (nodes.get i).left_child.toNat).frequency
                + (nodes.get (nodes.get i).right_child.toNat).frequency)
      ∧ (i < 256 → (nodes.get i).left_child = -1 ∧ (nodes.get i).right_child = -1)
      ∧ ancestor nodes (depthOf nodes 511 i) i = 510)

/-- Bit `c % 8` of byte `c / 8` of a buffer, `false` beyond its end. The payload bit `k` of a
compressed buffer is `getBit buf (8 + k)`. -/
def getBit (buf : List Nat) (c : Nat) : Bool := (buf.getD (c / 8) 0).testBit (c % 8)

/-- The writer stands in a buffer of `len` bytes with header byte `hdr`, right after the
payload bits `bits`; every payload bit after them is still zero, and every element of the
buffer is a byte. -/
structure Written (w : Writer) (len hdr : Nat) (bits : List Bool) : Prop where
  length : w.buf.length = len
  bit : w.bit < 8
  cursor : 8 * w.ptr + w.bit = 8 + bits.length
  payload : ∀ k, getBit w.buf (8 + k) = bits.getD k false
  header : w.buf.getD 0 0 = hdr
  bytes : ∀ i, w.buf.getD i 0 < 256

theorem Mem.perfect_fill {α : Type} (d : Nat) (a : α) : Mem.Perfect d (Mem.fill d a) := by
  induction d with
  | zero => trivial
  | succ d ih => exact ⟨ih, ih⟩

theorem Mem.perfect_set {α : Type} : ∀ (d : Nat) (m : Mem α) (i : Nat) (v : α),
    Mem.Perfect d m → Mem.Perfect d (m.set i v)
  | 0, .leaf _, _, _, _ => trivial
  | 0, .node _ _, _, _, h => h.elim
  | _ + 1, .leaf _, _, _, h => h.elim
  | d + 1, .node l r, i, v, h => by
    unfold Mem.set
    split
    · exact ⟨Mem.perfect_set d l _ v h.1, h.2⟩
    · exact ⟨h.1, Mem.perfect_set d r _ v h.2⟩

theorem Mem.get_set_eq {α : Type} : ∀ (d : Nat) (m : Mem α) (i : Nat) (v : α),
    Mem.Perfect d m → (m.set i v).get i = v
  | 0, .leaf _, _, _, _ => rfl
  | 0, .node _ _, _, _, h => h.elim
  | _ + 1, .leaf _, _, _, h => h.elim
  | d + 1, .node l r, i, v, h => by
    unfold Mem.set
    split
    · rename_i h0
      simp only [Mem.get, h0, if_true]
      exact Mem.get_set_eq d l _ v h.1
    · rename_i h0
      simp only [Mem.get, h0, if_false]
      exact Mem.get_set_eq d r _ v h.2

theorem Mem.get_set_ne {α : Type} : ∀ (d : Nat) (m : Mem α) (i j : Nat) (v : α),
    Mem.Perfect d m → i < 2 ^ d → j < 2 ^ d → i ≠ j → (m.set i v).get j = m.get j
  | 0, .leaf _, i, j, _, _, hi, hj, hne => by
    simp at hi hj; omega
  | 0, .node _ _, _, _, _, h, _, _, _ => h.elim
  | _ + 1, .leaf _, _, _, _, h, _, _, _ => h.elim
  | d + 1, .node l r, i, j, v, h, hi, hj, hne => by
    have hi2 : i / 2 < 2 ^ d := by
      rw [Nat.div_lt_iff_lt_mul (by decide)]; rw [pow_succ] at hi; exact hi
    have hj2 : j / 2 < 2 ^ d := by
      rw [Nat.div_lt_iff_lt_mul (by decide)]; rw [pow_succ] at hj; exact hj
    unfold Mem.set
    split
    · rename_i h0
      by_cases hj0 : j % 2 = 0
      · simp only [Mem.get, hj0, if_true]
        exact Mem.get_set_ne d l _ _ v h.1 hi2 hj2 (by omega)
      · simp only [Mem.get, hj0, if_false]
    · rename_i h0
      by_cases hj0 : j % 2 = 0
      · simp only [Mem.get, hj0, if_true]
      · simp only [Mem.get, hj0, if_false]
        exact Mem.get_set_ne d r _ _ v h.2 hi2 hj2 (by omega)

theorem Mem.get_set {α : Type} (d : Nat) (m : Mem α) (i j : Nat) (v : α)
    (h : Mem.Perfect d m) (hi : i < 2 ^ d) (hj : j < 2 ^ d) :
    (m.set i v).get j = if i = j then v else m.get j := by
  by_cases hij : i = j
  · subst hij; simp [Mem.get_set_eq d m i v h]
  · simp [hij, Mem.get_set_ne d m i j v h hi hj hij]

/-! ## `link` -/

theorem Mem.perfect_upd {α : Type} (m : Mem α) (i : Nat) (f : α → α) (h : Mem.Perfect 9 m) :
    Mem.Perfect 9 (m.upd i f) := Mem.perfect_set 9 m i _ h

theorem Mem.get_upd {α : Type} (m : Mem α) (i j : Nat) (f : α → α) (h : Mem.Perfect 9 m)
    (hi : i < 512) (hj : j < 512) :
    (m.upd i f).get j = if i = j then f (m.get j) else m.get j := by
  unfold Mem.upd
  rw [Mem.get_set 9 m i j _ h (by norm_num; exact hi) (by norm_num; exact hj)]
  by_cases hij : i = j
  · subst hij; simp
  · simp [hij]

theorem link_eq (t : Mem Node) (nc a b : Nat) :
    link t nc a b =
      if (t.get a).frequency + (t.get b).frequency < -2147483648
          ∨ 2147483647 < (t.get a).frequency + (t.get b).frequency then none
      else some (((((t.upd nc fun n =>
          { n with frequency := (t.get a).frequency + (t.get b).frequency }).upd a fun n =>
          { n with parent := (nc - 255) % 256 }).upd b fun n =>
          { n with parent := (nc - 255) % 256 }).upd nc fun n =>
          { n with right_child := (a : Int) }).upd nc fun n =>
          { n with left_child := (b : Int) }) := rfl

theorem link_perfect (t t' : Mem Node) (nc a b : Nat) (h : Mem.Perfect 9 t)
    (hl : link t nc a b = some t') : Mem.Perfect 9 t' := by
  rw [link_eq] at hl
  split at hl
  · exact absurd hl (by simp)
  · injection hl with hl
    subst hl
    exact Mem.perfect_upd _ _ _ (Mem.perfect_upd _ _ _ (Mem.perfect_upd _ _ _
      (Mem.perfect_upd _ _ _ (Mem.perfect_upd _ _ _ h))))

theorem link_get (t t' : Mem Node) (nc a b : Nat) (h : Mem.Perfect 9 t)
    (hl : link t nc a b = some t') (ha : a < 512) (hb : b < 512) (hnc : nc < 512)
    (hane : a ≠ nc) (hbne : b ≠ nc) (hab : a ≠ b) (j : Nat) (hj : j < 512) :
    t'.get j =
      if j = nc then
        { t.get nc with frequency := (t.get a).frequency + (t.get b).frequency,
                        right_child := (a : Int), left_child := (b : Int) }
      else if j = a then { t.get a with parent := (nc - 255) % 256 }
      else if j = b then { t.get b with parent := (nc - 255) % 256 }
      else t.get j := by
  rw [link_eq] at hl
  split at hl
  · exact absurd hl (by simp)
  · injection hl with hl
    subst hl
    have p1 := Mem.perfect_upd t nc (fun n =>
      { n with frequency := (t.get a).frequency + (t.get b).frequency }) h
    have p2 := Mem.perfect_upd _ a (fun n => { n with parent := (nc - 255) % 256 }) p1
    have p3 := Mem.perfect_upd _ b (fun n => { n with parent := (nc - 255) % 256 }) p2
    have p4 := Mem.perfect_upd _ nc (fun n => { n with right_child := (a : Int) }) p3
    rw [Mem.get_upd _ _ _ _ p4 hnc hj, Mem.get_upd _ _ _ _ p3 hnc hj,
      Mem.get_upd _ _ _ _ p2 hb hj, Mem.get_upd _ _ _ _ p1 ha hj,
      Mem.get_upd _ _ _ _ h hnc hj]
    by_cases h1 : j = nc
    · subst h1
      simp [hane, hbne]
    · by_cases h2 : j = a
      · subst h2
        simp [h1, Ne.symm h1, hab, Ne.symm hab]
      · by_cases h3 : j = b
        · subst h3
          simp [h1, Ne.symm h1, h2, Ne.symm h2, hab, Ne.symm hab]
        · simp [h1, Ne.symm h1, h2, Ne.symm h2, h3, Ne.symm h3]

/-! ## The candidate list against the array scan -/

theorem cands_skip (t : Mem Node) : ∀ (n lo fuel : Nat) (c : Nat × Int) (rest : List (Nat × Int)),
    candsFrom t n lo = c :: rest → lo + n ≤ 511 → n ≤ fuel →
    skipParented t fuel lo = c.1 ∧ c.2 = (t.get c.1).frequency ∧ lo ≤ c.1 ∧ c.1 < lo + n
      ∧ rest = candsFrom t (lo + n - (c.1 + 1)) (c.1 + 1)
  | 0, _, _, _, _, h, _, _ => by simp [candsFrom] at h
  | n + 1, lo, 0, _, _, _, _, hf => by omega
  | n + 1, lo, fuel + 1, c, rest, h, hlo, hf => by
    unfold candsFrom at h
    unfold skipParented
    by_cases hp : (t.get lo).parent = 0
    · rw [if_pos hp] at h
      injection h with h1 h2
      subst h1
      have : ¬ (lo < 511 ∧ (t.get lo).parent ≠ 0) := fun hh => hh.2 hp
      rw [if_neg this]
      refine ⟨rfl, rfl, le_refl _, by simp, ?_⟩
      rw [← h2]
      congr 1
      simp only
      omega
    · rw [if_neg hp] at h
      have hc : lo < 511 ∧ (t.get lo).parent ≠ 0 := ⟨by omega, hp⟩
      rw [if_pos hc]
      obtain ⟨a1, a2, a3, a4, a5⟩ :=
        cands_skip t n (lo + 1) fuel c rest h (by omega) (by omega)
      refine ⟨a1, a2, by omega, by omega, ?_⟩
      rw [a5]
      congr 1
      omega

theorem scan_cands (t : Mem Node) (nc : Nat) : ∀ (n lo fuel s1 s2 : Nat),
    lo + n = nc → n ≤ fuel →
    scan t nc fuel lo s1 s2 =
        ((scanC (candsFrom t n lo) s1 (t.get s1).frequency s2 (t.get s2).frequency).1.1,
         (scanC (candsFrom t n lo) s1 (t.get s1).frequency s2 (t.get s2).frequency).2.1)
      ∧ (scanC (candsFrom t n lo) s1 (t.get s1).frequency s2 (t.get s2).frequency).1.2
          = (t.get (scanC (candsFrom t n lo) s1 (t.get s1).frequency s2
              (t.get s2).frequency).1.1).frequency
      ∧ (scanC (candsFrom t n lo) s1 (t.get s1).frequency s2 (t.get s2).frequency).2.2
          = (t.get (scanC (candsFrom t n lo) s1 (t.get s1).frequency s2
              (t.get s2).frequency).2.1).frequency
  | 0, lo, fuel, s1, s2, hlo, _ => by
    have hge : ¬ lo < nc := by omega
    cases fuel with
    | zero => simp [scan, candsFrom, scanC]
    | succ fuel => simp [scan, candsFrom, scanC, hge]
  | n + 1, lo, 0, _, _, _, hf => by omega
  | n + 1, lo, fuel + 1, s1, s2, hlo, hf => by
    have hlt : lo < nc := by omega
    unfold scan candsFrom
    rw [if_pos hlt]
    by_cases hp : (t.get lo).parent = 0
    · rw [if_pos hp, if_pos hp]
      unfold scanC
      by_cases h12 : (t.get s1).frequency > (t.get s2).frequency
      · rw [if_pos h12, if_pos h12]
        by_cases h1 : (t.get lo).frequency < (t.get s1).frequency
        · rw [if_pos h1, if_pos h1]
          exact scan_cands t nc n (lo + 1) fuel lo s2 (by omega) (by omega)
        · rw [if_neg h1, if_neg h1]
          exact scan_cands t nc n (lo + 1) fuel s1 s2 (by omega) (by omega)
      · rw [if_neg h12, if_neg h12]
        by_cases h2 : (t.get lo).frequency < (t.get s2).frequency
        · rw [if_pos h2, if_pos h2]
          exact scan_cands t nc n (lo + 1) fuel s1 lo (by omega) (by omega)
        · rw [if_neg h2, if_neg h2]
          exact scan_cands t nc n (lo + 1) fuel s1 s2 (by omega) (by omega)
    · rw [if_neg hp, if_neg hp]
      exact scan_cands t nc n (lo + 1) fuel s1 s2 (by omega) (by omega)

theorem scanC_stable : ∀ (l : List (Nat × Int)) (s1 : Nat) (f1 : Int) (s2 : Nat) (f2 : Int),
    (∀ c ∈ l, 0 ≤ c.2) → f1 ≤ 0 → f2 ≤ 0 → scanC l s1 f1 s2 f2 = ((s1, f1), (s2, f2))
  | [], _, _, _, _, _, _, _ => rfl
  | c :: rest, s1, f1, s2, f2, h, h1, h2 => by
    have hc : 0 ≤ c.2 := h c (List.mem_cons_self _ _)
    have hr : ∀ c ∈ rest, 0 ≤ c.2 := fun x hx => h x (List.mem_cons_of_mem _ hx)
    unfold scanC
    have n1 : ¬ c.2 < f1 := by omega
    have n2 : ¬ c.2 < f2 := by omega
    rw [if_neg n1, if_neg n2]
    split <;> exact scanC_stable rest s1 f1 s2 f2 hr h1 h2

theorem scanE_eq_scanC : ∀ (l : List (Nat × Int)) (s1 : Nat) (f1 : Int) (s2 : Nat) (f2 : Int),
    (∀ c ∈ l, 0 ≤ c.2) → scanE l s1 f1 s2 f2 = scanC l s1 f1 s2 f2
  | [], _, _, _, _, _ => rfl
  | c :: rest, s1, f1, s2, f2, h => by
    have hr : ∀ c ∈ rest, 0 ≤ c.2 := fun x hx => h x (List.mem_cons_of_mem _ hx)
    unfold scanE
    by_cases h0 : f1 ≤ 0 ∧ f2 ≤ 0
    · rw [if_pos h0, scanC_stable (c :: rest) s1 f1 s2 f2 h h0.1 h0.2]
    · rw [if_neg h0]
      conv => rhs; unfold scanC
      split
      · split
        · exact scanE_eq_scanC rest _ _ _ _ hr
        · exact scanE_eq_scanC rest _ _ _ _ hr
      · split
        · exact scanE_eq_scanC rest _ _ _ _ hr
        · exact scanE_eq_scanC rest _ _ _ _ hr

theorem candsFrom_succ (t : Mem Node) (n lo : Nat) :
    candsFrom t (n + 1) lo =
      if (t.get lo).parent = 0 then (lo, (t.get lo).frequency) :: candsFrom t n (lo + 1)
      else candsFrom t n (lo + 1) := rfl

theorem cands_append (t : Mem Node) : ∀ (n m lo : Nat),
    candsFrom t (n + m) lo = candsFrom t n lo ++ candsFrom t m (lo + n)
  | 0, m, lo => by simp [candsFrom]
  | n + 1, m, lo => by
    have e : n + 1 + m = (n + m) + 1 := by omega
    rw [e, candsFrom_succ t (n + m) lo, candsFrom_succ t n lo]
    have ih := cands_append t n m (lo + 1)
    have e2 : lo + 1 + n = lo + (n + 1) := by omega
    rw [e2] at ih
    split
    · rw [ih]; rfl
    · exact ih

theorem dropSnoc_nonneg (a b : Nat) (x : Nat × Int) (hx : 0 ≤ x.2) :
    ∀ (l : List (Nat × Int)), (∀ c ∈ l, 0 ≤ c.2) → ∀ c ∈ dropSnoc a b x l, 0 ≤ c.2
  | [], _, c, hc => by
    simp [dropSnoc] at hc
    subst hc
    exact hx
  | d :: rest, h, c, hc => by
    have hr : ∀ c ∈ rest, 0 ≤ c.2 := fun y hy => h y (List.mem_cons_of_mem _ hy)
    unfold dropSnoc at hc
    split at hc
    · exact dropSnoc_nonneg a b x hx rest hr c hc
    · rcases List.mem_cons.mp hc with h1 | h1
      · subst h1; exact h _ (List.mem_cons_self _ _)
      · exact dropSnoc_nonneg a b x hx rest hr c h1

/-! ## The merge loop against the schedule of pairs -/

theorem cands_link (t t' : Mem Node) (nc a b : Nat) (x : Nat × Int) (h : Mem.Perfect 9 t)
    (hl : link t nc a b = some t') (ha : a < nc) (hb : b < nc) (hnc : nc < 511)
    (hnc0 : 256 ≤ nc) (hab : a ≠ b) : ∀ (n lo : Nat), lo + n ≤ nc →
    candsFrom t' n lo ++ [x] = dropSnoc a b x (candsFrom t n lo)
  | 0, _, _ => by simp [candsFrom, dropSnoc]
  | n + 1, lo, hlo => by
    have ih := cands_link t t' nc a b x h hl ha hb hnc hnc0 hab n (lo + 1) (by omega)
    have hg := link_get t t' nc a b h hl (by omega) (by omega) (by omega) (by omega)
      (by omega) hab lo (by omega)
    have hne : lo ≠ nc := by omega
    rw [if_neg hne] at hg
    have hP : (nc - 255) % 256 ≠ 0 := by
      have e1 : nc - 255 < 256 := by omega
      rw [Nat.mod_eq_of_lt e1]
      omega
    rw [candsFrom_succ t' n lo, candsFrom_succ t n lo]
    by_cases h1 : lo = a
    · rw [if_pos h1] at hg
      have hp' : (t'.get lo).parent ≠ 0 := by rw [hg]; exact hP
      rw [if_neg hp']
      split
      · rw [dropSnoc, if_pos (Or.inl h1)]
        exact ih
      · exact ih
    · rw [if_neg h1] at hg
      by_cases h2 : lo = b
      · rw [if_pos h2] at hg
        have hp' : (t'.get lo).parent ≠ 0 := by rw [hg]; exact hP
        rw [if_neg hp']
        split
        · rw [dropSnoc, if_pos (Or.inr h2)]
          exact ih
        · exact ih
      · rw [if_neg h2] at hg
        rw [hg]
        split
        · have : ¬ (lo = a ∨ lo = b) := fun hh => hh.elim h1 h2
          rw [dropSnoc, if_neg this, ← ih]
          rfl
        · exact ih

theorem mergeStep_of_stepS (t : Mem Node) (nc : Nat) (r : (Nat × Nat) × List (Nat × Int))
    (hnn : ∀ c ∈ candsFrom t nc 0, 0 ≤ c.2)
    (hs : stepS (candsFrom t nc 0) nc = some r) :
    mergeStep t nc = link t nc r.1.1 r.1.2 ∧ r.1.1 ≠ r.1.2 ∧ r.1.1 < nc ∧ r.1.2 < nc
      ∧ 256 ≤ nc ∧ nc < 511
      ∧ 0 ≤ (t.get r.1.1).frequency + (t.get r.1.2).frequency
      ∧ r.2 = dropSnoc r.1.1 r.1.2
          (nc, (t.get r.1.1).frequency + (t.get r.1.2).frequency) (candsFrom t nc 0) := by
  unfold stepS at hs
  split at hs
  · rename_i c1 c2 rest hc
    simp only at hs
    split at hs
    · rename_i hchk
      obtain ⟨k1, k2, k3, k4, k5, k6⟩ := hchk
      injection hs with hs
      obtain ⟨a1, a2, a3, a4, a5⟩ := cands_skip t nc 0 511 c1 (c2 :: rest) hc (by omega) (by omega)
      obtain ⟨b1, b2, b3, b4, b5⟩ :=
        cands_skip t (0 + nc - (c1.1 + 1)) (c1.1 + 1) 511 c2 rest a5.symm (by omega) (by omega)
      have hrest : ∀ c ∈ rest, 0 ≤ c.2 := by
        intro c hcm
        apply hnn c
        rw [hc]
        exact List.mem_cons_of_mem _ (List.mem_cons_of_mem _ hcm)
      obtain ⟨d1, d2, d3⟩ := scan_cands t nc (nc - (c2.1 + 1)) (c2.1 + 1) nc c1.1 c2.1
        (by omega) (by omega)
      have er : rest = candsFrom t (nc - (c2.1 + 1)) (c2.1 + 1) := by
        rw [b5]; congr 1; omega
      rw [← er, ← a2, ← b2, ← scanE_eq_scanC rest _ _ _ _ hrest] at d1 d2 d3
      have hm : mergeStep t nc = link t nc (scanE rest c1.1 c1.2 c2.1 c2.2).1.1
          (scanE rest c1.1 c1.2 c2.1 c2.2).2.1 := by
        unfold mergeStep
        simp only
        rw [a1, b1, d1]
        have n1 : ¬ 511 ≤ c1.1 := by omega
        have n2 : ¬ 511 ≤ c2.1 := by omega
        rw [if_neg n1, if_neg n2]
      subst hs
      simp only
      rw [← d2, ← d3]
      exact ⟨hm, k1, k2, k3, k4, k5, k6, rfl⟩
    · exact absurd hs (by simp)
  · exact absurd hs (by simp)

theorem mergeLoop_replay : ∀ (fuel nc : Nat) (t : Mem Node) (s : List (Nat × Nat)),
    Mem.Perfect 9 t → Fresh t nc → (∀ c ∈ candsFrom t nc 0, 0 ≤ c.2) →
    loopS fuel nc (candsFrom t nc 0) = some s → mergeLoop fuel nc t = replay s nc t
  | 0, nc, t, s, _, _, _, hs => by
    simp [loopS] at hs
    subst hs
    rfl
  | fuel + 1, nc, t, s, hp, hf, hnn, hs => by
    unfold loopS at hs
    unfold mergeLoop
    split at hs
    · rename_i hlt
      rw [if_pos hlt]
      split at hs
      · exact absurd hs (by simp)
      · rename_i r hr
        split at hs
        · exact absurd hs (by simp)
        · rename_i s' hs'
          injection hs with hs
          subst hs
          obtain ⟨m1, m2, m3, m4, m5, m6, m7, m8⟩ := mergeStep_of_stepS t nc r hnn hr
          rw [m1]
          unfold replay
          cases hl : link t nc r.1.1 r.1.2 with
          | none => rfl
          | some t' =>
            simp only
            have hp' := link_perfect t t' nc r.1.1 r.1.2 hp hl
            have hg := link_get t t' nc r.1.1 r.1.2 hp hl (by omega) (by omega) (by omega)
              (by omega) (by omega) m2
            have hf' : Fresh t' (nc + 1) := by
              intro i hi1 hi2
              rw [hg i hi2, if_neg (by omega), if_neg (by omega), if_neg (by omega)]
              exact hf i (by omega) hi2
            have hcs : candsFrom t' (nc + 1) 0 = r.2 := by
              rw [cands_append t' nc 1 0, m8,
                ← cands_link t t' nc r.1.1 r.1.2 _ hp hl m3 m4 m6 m5 m2 nc 0 (by omega)]
              congr 1
              have hgn := hg nc (by omega)
              rw [if_pos rfl] at hgn
              have hfn := hf nc (le_refl _) (by omega)
              simp only [Nat.zero_add]
              rw [candsFrom_succ, hgn]
              simp [hfn, candsFrom]
            have hnn' : ∀ c ∈ candsFrom t' (nc + 1) 0, 0 ≤ c.2 := by
              rw [hcs, m8]
              exact dropSnoc_nonneg _ _ _ m7 _ hnn
            rw [← hcs] at hs'
            exact mergeLoop_replay fuel (nc + 1) t' s' hp' hf' hnn' hs'
    · rename_i hge
      rw [if_neg hge]
      injection hs with hs
      subst hs
      rfl

/-! ## Evaluation of `build g_freqs` -/

theorem loadFreqs_perfect (freqs : List Int) : ∀ (fuel i : Nat) (m : Mem Node),
    Mem.Perfect 9 m → Mem.Perfect 9 (loadFreqs freqs fuel i m)
  | 0, _, _, h => h
  | fuel + 1, i, m, h => by
    unfold loadFreqs
    split
    · exact loadFreqs_perfect freqs fuel (i + 1) _ (Mem.perfect_set 9 _ _ _ h)
    · exact h

theorem loadFreqs_parent (freqs : List Int) : ∀ (fuel i : Nat) (m : Mem Node) (j : Nat),
    Mem.Perfect 9 m → j < 512 →
    ((loadFreqs freqs fuel i m).get j).parent = (m.get j).parent
  | 0, _, _, _, _, _ => rfl
  | fuel + 1, i, m, j, h, hj => by
    unfold loadFreqs
    split
    · rw [loadFreqs_parent freqs fuel (i + 1) _ j (Mem.perfect_set 9 _ _ _ h) hj]
      rw [Mem.get_set 9 m i j _ h (by norm_num; omega) (by norm_num; omega)]
      split
      · rename_i hij; subst hij; rfl
      · rfl
    · rfl

theorem fill_get {α : Type} (a : α) : ∀ (d i : Nat), (Mem.fill d a).get i = a
  | 0, _ => rfl
  | d + 1, i => by
    unfold Mem.fill Mem.get
    split <;> exact fill_get a d _

theorem fresh_start (freqs : List Int) :
    Fresh (loadFreqs freqs 256 0 (Mem.fill 9 {})) 256 := by
  intro i _ hi
  rw [loadFreqs_parent freqs 256 0 _ i (Mem.perfect_fill 9 _) hi, fill_get]

set_option maxRecDepth 1000000 in
theorem schedule_eval :
    (candsFrom (loadFreqs g_freqs 256 0 (Mem.fill 9 {})) 256 0).all (fun c => decide (0 ≤ c.2))
        = true
      ∧ loopS 255 256 (candsFrom (loadFreqs g_freqs 256 0 (Mem.fill 9 {})) 256 0)
        = some (childPairs builtNodes 255 256) := by
  decide!

set_option maxRecDepth 1000000 in
theorem replay_eval :
    replay (childPairs builtNodes 255 256) 256 (loadFreqs g_freqs 256 0 (Mem.fill 9 {}))
      = some (stripCodes builtNodes) := by
  decide!

set_option maxRecDepth 1000000 in
theorem storeCodes_eval : storeCodes 256 0 (stripCodes builtNodes) = some builtNodes := by
  decide!

theorem cands_start_nonneg :
    ∀ c ∈ candsFrom (loadFreqs g_freqs 256 0 (Mem.fill 9 {})) 256 0, 0 ≤ c.2 := by
  intro c hc
  have h := List.all_eq_true.mp schedule_eval.1 c hc
  exact of_decide_eq_true h

theorem mergeLoop_eval :
    mergeLoop 255 256 (loadFreqs g_freqs 256 0 (Mem.fill 9 {})) = some (stripCodes builtNodes) :=
  (mergeLoop_replay 255 256 _ _ (loadFreqs_perfect _ _ _ _ (Mem.perfect_fill 9 _))
    (fresh_start g_freqs) cands_start_nonneg schedule_eval.2).trans replay_eval

theorem build_some (freqs : List Int) (m r : Mem Node)
    (h1 : mergeLoop 255 256 (loadFreqs freqs 256 0 (Mem.fill 9 {})) = some m)
    (h2 : storeCodes 256 0 m = some r) : build freqs = some r := by
  unfold build
  rw [h1]
  exact h2

theorem build_eval : build g_freqs = some builtNodes :=
  build_some g_freqs _ _ mergeLoop_eval storeCodes_eval

theorem getD_some {α : Type} (o : Option α) (a d : α) (h : o = some a) : o.getD d = a := by
  subst h
  rfl

theorem nodes_eq : nodes_ = builtNodes := getD_some _ _ _ build_eval

/-! ## The code table of the built-in frequency table -/

set_option maxRecDepth 1000000 in
theorem table_eval : ∀ i, i < 256 →
    (((builtNodes.get i).val % 2 = 1 ↔ g_freqs.getD i 0 ≠ 0)
      ∧ (g_freqs.getD i 0 = 0 → (builtNodes.get i).val = 2 * i ∧ (builtNodes.get i).bits = 9)
      ∧ (i = 0 → (builtNodes.get i).val = 3 ∧ (builtNodes.get i).bits = 2)
      ∧ (i = 1 → (builtNodes.get i).bits = 4)
      ∧ (i = 9 → (builtNodes.get i).bits = 5)
      ∧ (i ∈ [2, 5, 8, 13, 21, 24, 64] → (builtNodes.get i).bits = 6)
      ∧ (i ∈ [17, 33, 63, 77, 191] → (builtNodes.get i).bits = 7)
      ∧ (i = 3 → (builtNodes.get i).bits = 8)) := by
  decide!

set_option maxRecDepth 1000000 in
theorem table_odd_eval :
    (List.range 256).filter (fun i => (builtNodes.get i).val % 2 = 1)
        = [0, 1, 2, 3, 5, 8, 9, 13, 17, 21, 24, 33, 63, 64, 77, 191]
      ∧ ((List.range 256).filter (fun i => g_freqs.getD i 0 = 0)).length = 240 := by
  decide!

/-- C20. Code lengths for the built-in frequency table: after `build()` the tree-coded symbols
(`val` odd) are exactly the 16 byte values with non-zero frequency, of total lengths 2 for byte
0 (`val = 3`), 4 for byte 1, 5 for byte 9, 6 for bytes 2, 5, 8, 13, 21, 24, 64, 7 for bytes 17,
33, 63, 77, 191 and 8 for byte 3; each of the 240 zero-frequency byte values `i` has the
literal form `val = 2 * i`, `bits = 9`. -/
theorem C20_code_lengths :
    (∀ i, i < 256 →
      (((nodes_.get i).val % 2 = 1 ↔ g_freqs.getD i 0 ≠ 0)
        ∧ (g_freqs.getD i 0 = 0 → (nodes_.get i).val = 2 * i ∧ (nodes_.get i).bits = 9)
        ∧ (i = 0 → (nodes_.get i).val = 3 ∧ (nodes_.get i).bits = 2)
        ∧ (i = 1 → (nodes_.get i).bits = 4)
        ∧ (i = 9 → (nodes_.get i).bits = 5)
        ∧ (i ∈ [2, 5, 8, 13, 21, 24, 64] → (nodes_.get i).bits = 6)
        ∧ (i ∈ [17, 33, 63, 77, 191] → (nodes_.get i).bits = 7)
        ∧ (i = 3 → (nodes_.get i).bits = 8)))
    ∧ (List.range 256).filter (fun i => (nodes_.get i).val % 2 = 1)
        = [0, 1, 2, 3, 5, 8, 9, 13, 17, 21, 24, 33, 63, 64, 77, 191]
    ∧ ((List.range 256).filter (fun i => g_freqs.getD i 0 = 0)).length = 240 := by
  rw [nodes_eq]
  exact ⟨table_eval, table_odd_eval⟩

theorem C20_code_lengths_witness :
    (3 < 256) ∧ (nodes_.get 3).bits = 8 ∧ (nodes_.get 0).val = 3 :=
  ⟨by decide, (C20_code_lengths.1 3 (by decide)).2.2.2.2.2.2.2 rfl,
    ((C20_code_lengths.1 0 (by decide)).2.2.1 rfl).1⟩

set_option maxRecDepth 1000000 in
theorem compress_zero_eval :
    compress builtNodes [0] = .ok [0] ∧ lengthOut (bitCount builtNodes [0] 0) = 2 := by
  decide!

/-- C11 as amended. For the one-byte input `[0x00]` the code of byte 0 has 2 bits, so the
compressed form would take 2 bytes (header and one payload byte); that is not shorter than the
input, and `compress` returns the input `[0x00]` unchanged. -/
theorem C11_single_zero_passthrough :
    compress nodes_ [0] = .ok [0] ∧ lengthOut (bitCount nodes_ [0] 0) = 2
      ∧ (nodes_.get 0).val = 3 ∧ (nodes_.get 0).bits = 2 := by
  rw [nodes_eq]
  exact ⟨compress_zero_eval.1, compress_zero_eval.2, (table_eval 0 (by decide)).2.2.1 rfl⟩

/-- C11 as stated fails: `compress [0x00]` does not return a 2-byte buffer. -/
theorem C11_counterexample : ¬ ∃ out, compress nodes_ [0] = .ok out ∧ out.length = 2 := by
  rw [nodes_eq]
  rintro ⟨out, h1, h2⟩
  rw [compress_zero_eval.1] at h1
  injection h1 with h1
  subst h1
  simp at h2

set_option maxRecDepth 1000000 in
theorem derivation_eval_a : ∀ i, i < 256 →
    (ancestor builtNodes (depthOf builtNodes 511 i) i = 510
      ∧ (builtNodes.get 510).parent = 0
      ∧ (depthOf builtNodes 511 i ≥ 8 →
          (builtNodes.get i).val = 2 * i ∧ (builtNodes.get i).bits = 9)
      ∧ 2 ≤ (builtNodes.get i).bits ∧ (builtNodes.get i).bits ≤ 9) := by
  decide!

set_option maxRecDepth 1000000 in
theorem derivation_eval_b : ∀ i, i < 256 → depthOf builtNodes 511 i < 8 →
    ((builtNodes.get i).bits = depthOf builtNodes 511 i + 1
      ∧ (builtNodes.get i).val.testBit 0 = true
      ∧ (builtNodes.get i).val < 2 ^ (builtNodes.get i).bits) := by
  decide!

set_option maxRecDepth 1000000 in
theorem derivation_eval_short : ∀ i, i < 256 → depthOf builtNodes 511 i < 8 →
    i ∈ [0, 1, 2, 3, 5, 8, 9, 13, 17, 21, 24, 33, 63, 64, 77, 191] := by
  decide!

set_option maxRecDepth 1000000 in
theorem derivation_eval_bits : ∀ p, p < 144 →
    1 ≤ p % 9 →
    p % 9 ≤ depthOf builtNodes 511
      ([0, 1, 2, 3, 5, 8, 9, 13, 17, 21, 24, 33, 63, 64, 77, 191].getD (p / 9) 0) →
    ((builtNodes.get
        ([0, 1, 2, 3, 5, 8, 9, 13, 17, 21, 24, 33, 63, 64, 77, 191].getD (p / 9) 0)).val.testBit
          (p % 9) = true
      ↔ isRightChild builtNodes (ancestor builtNodes
          (depthOf builtNodes 511
            ([0, 1, 2, 3, 5, 8, 9, 13, 17, 21, 24, 33, 63, 64, 77, 191].getD (p / 9) 0) - p % 9)
          ([0, 1, 2, 3, 5, 8, 9, 13, 17, 21, 24, 33, 63, 64, 77, 191].getD (p / 9) 0))) := by
  decide!

theorem derivation_eval_c (i : Nat) (hi : i < 256) (hd : depthOf builtNodes 511 i < 8)
    (k : Nat) (hk : k < 9) (h1 : 1 ≤ k) (h2 : k ≤ depthOf builtNodes 511 i) :
    ((builtNodes.get i).val.testBit k = true
      ↔ isRightChild builtNodes (ancestor builtNodes (depthOf builtNodes 511 i - k) i)) := by
  have hm := derivation_eval_short i hi hd
  obtain ⟨q, hq, hqi⟩ := List.mem_iff_getElem.mp hm
  have hq16 : q < 16 := hq
  have e1 : (9 * q + k) / 9 = q := by omega
  have e2 : (9 * q + k) % 9 = k := by omega
  have hg : [0, 1, 2, 3, 5, 8, 9, 13, 17, 21, 24, 33, 63, 64, 77, 191].getD q 0 = i := by
    rw [List.getD_eq_getElem _ _ hq]
    exact hqi
  have h := derivation_eval_bits (9 * q + k) (by omega)
  rw [e1, e2, hg] at h
  exact h h1 h2

/-- C13. Code-table derivation: after `build()`, for every byte value `i` with depth `d`
(the number of parent links from leaf `i` to the root 510): if `d >= 8` then `val = 2 * i` and
`bits = 9`; otherwise `bits = d + 1`, bit 0 of `val` is 1, for `1 <= k <= d` bit `k` of `val`
is 1 exactly when the ancestor-or-self of leaf `i` at depth `k` is the right child of its
parent, and `val < 2 ^ bits`. In all cases `2 <= bits <= 9`. -/
theorem C13_code_derivation : ∀ i, i < 256 →
    (ancestor nodes_ (depthOf nodes_ 511 i) i = 510
      ∧ (nodes_.get 510).parent = 0
      ∧ (depthOf nodes_ 511 i ≥ 8 → (nodes_.get i).val = 2 * i ∧ (nodes_.get i).bits = 9)
      ∧ (depthOf nodes_ 511 i < 8 →
          (nodes_.get i).bits = depthOf nodes_ 511 i + 1
          ∧ (nodes_.get i).val.testBit 0 = true
          ∧ (∀ k, 1 ≤ k → k ≤ depthOf nodes_ 511 i →
              ((nodes_.get i).val.testBit k = true
                ↔ isRightChild nodes_ (ancestor nodes_ (depthOf nodes_ 511 i - k) i)))
          ∧ (nodes_.get i).val < 2 ^ (nodes_.get i).bits)
      ∧ 2 ≤ (nodes_.get i).bits ∧ (nodes_.get i).bits ≤ 9) := by
  rw [nodes_eq]
  intro i hi
  obtain ⟨h1, h2, h3, h5, h6⟩ := derivation_eval_a i hi
  refine ⟨h1, h2, h3, ?_, h5, h6⟩
  intro hd
  obtain ⟨a1, a2, a4⟩ := derivation_eval_b i hi hd
  exact ⟨a1, a2, fun k hk1 hk2 => derivation_eval_c i hi hd k (by omega) hk1 hk2, a4⟩

theorem C13_code_derivation_witness :
    (1 < 256) ∧ (nodes_.get 1).bits = depthOf nodes_ 511 1 + 1 ∧ 2 ≤ (nodes_.get 4).bits :=
  ⟨by decide,
    ((C13_code_derivation 1 (by decide)).2.2.2.1 (by rw [nodes_eq]; decide)).1,
    (C13_code_derivation 4 (by decide)).2.2.2.2.1⟩

/-! ## Prefix-freeness of the code table -/

set_option maxRecDepth 1000000 in
theorem treeSyms_eval : ∀ p, p < 256 →
    treeSyms.getD (p / 16) 0 ≠ treeSyms.getD (p % 16) 0 →
    ¬ (codeBitsOf builtNodes (treeSyms.getD (p / 16) 0)
        <+: codeBitsOf builtNodes (treeSyms.getD (p % 16) 0)) := by
  decide!

theorem treeSyms_pair (a b : Nat) (ha : a ∈ treeSyms) (hb : b ∈ treeSyms) (hab : a ≠ b) :
    ¬ (codeBitsOf builtNodes a <+: codeBitsOf builtNodes b) := by
  obtain ⟨q, hq, hqa⟩ := List.mem_iff_getElem.mp ha
  obtain ⟨r, hr, hrb⟩ := List.mem_iff_getElem.mp hb
  have hq16 : q < 16 := hq
  have hr16 : r < 16 := hr
  have e1 : (16 * q + r) / 16 = q := by omega
  have e2 : (16 * q + r) % 16 = r := by omega
  have h := treeSyms_eval (16 * q + r) (by omega)
  rw [e1, e2, List.getD_eq_getElem _ _ hq, List.getD_eq_getElem _ _ hr, hqa, hrb] at h
  exact h hab

theorem odd_mem_treeSyms (i : Nat) (hi : i < 256) (h : (builtNodes.get i).val % 2 = 1) :
    i ∈ treeSyms := by
  have e := table_odd_eval.1
  have hm : i ∈ (List.range 256).filter (fun i => (builtNodes.get i).val % 2 = 1) := by
    rw [List.mem_filter]
    exact ⟨List.mem_range.mpr hi, by simpa using h⟩
  rw [e] at hm
  exact hm

theorem literal_code (i : Nat) (hi : i < 256) (h : ¬ (builtNodes.get i).val % 2 = 1) :
    (builtNodes.get i).val = 2 * i ∧ (builtNodes.get i).bits = 9 := by
  have t := table_eval i hi
  have hz : g_freqs.getD i 0 = 0 := by
    by_contra hne
    exact h (t.1.mpr hne)
  exact t.2.1 hz

theorem codeBitsOf_length (nodes : Mem Node) (b : Nat) :
    (codeBitsOf nodes b).length = (nodes.get b).bits := by
  simp [codeBitsOf]

theorem codeBitsOf_get (nodes : Mem Node) (b k : Nat) (hk : k < (nodes.get b).bits) :
    (codeBitsOf nodes b)[k]? = some ((nodes.get b).val.testBit k) := by
  simp [codeBitsOf, hk]

theorem prefix_get {α : Type} (l1 l2 : List α) (h : l1 <+: l2) (k : Nat) (hk : k < l1.length) :
    l2[k]? = l1[k]? := by
  obtain ⟨t, rfl⟩ := h
  rw [List.getElem?_append_left hk]

theorem byte_eq_of_double_bits (a b : Nat) (ha : a < 256) (hb : b < 256)
    (h : ∀ k, k < 9 → (2 * a).testBit k = (2 * b).testBit k) : a = b := by
  apply Nat.eq_of_testBit_eq
  intro k
  by_cases hk : k < 8
  · have := h (k + 1) (by omega)
    rw [Nat.mul_comm 2 a, Nat.mul_comm 2 b] at this
    simpa [Nat.testBit_succ] using this
  · have h1 : a < 2 ^ k := lt_of_lt_of_le ha (by
      calc 256 = 2 ^ 8 := by norm_num
        _ ≤ 2 ^ k := Nat.pow_le_pow_right (by norm_num) (by omega))
    have h2 : b < 2 ^ k := lt_of_lt_of_le hb (by
      calc 256 = 2 ^ 8 := by norm_num
        _ ≤ 2 ^ k := Nat.pow_le_pow_right (by norm_num) (by omega))
    rw [Nat.testBit_lt_two_pow h1, Nat.testBit_lt_two_pow h2]

theorem code_head (i : Nat) (hi : i < 256) :
    (codeBitsOf builtNodes i)[0]? = some (decide ((builtNodes.get i).val % 2 = 1)) := by
  have hb : 0 < (builtNodes.get i).bits := by
    have := (derivation_eval_a i hi).2.2.2.1
    omega
  rw [codeBitsOf_get builtNodes i 0 hb]
  congr 1
  rw [Nat.testBit_zero]

theorem prefix_free_built (a b : Nat) (ha : a < 256) (hb : b < 256) (hab : a ≠ b) :
    ¬ (codeBitsOf builtNodes a <+: codeBitsOf builtNodes b) := by
  intro hp
  have hla : 0 < (codeBitsOf builtNodes a).length := by
    rw [codeBitsOf_length]
    have := (derivation_eval_a a ha).2.2.2.1
    omega
  have h0 := prefix_get _ _ hp 0 hla
  rw [code_head a ha, code_head b hb] at h0
  by_cases oa : (builtNodes.get a).val % 2 = 1
  · have ob : (builtNodes.get b).val % 2 = 1 := by
      by_contra ob
      simp [oa, ob] at h0
    exact treeSyms_pair a b (odd_mem_treeSyms a ha oa) (odd_mem_treeSyms b hb ob) hab hp
  · have ob : ¬ (builtNodes.get b).val % 2 = 1 := by
      intro ob
      simp [oa, ob] at h0
    obtain ⟨va, la⟩ := literal_code a ha oa
    obtain ⟨vb, lb⟩ := literal_code b hb ob
    apply hab
    apply byte_eq_of_double_bits a b ha hb
    intro k hk
    have hk' := prefix_get _ _ hp k (by rw [codeBitsOf_length, la]; exact hk)
    rw [codeBitsOf_get builtNodes a k (by rw [la]; exact hk),
      codeBitsOf_get builtNodes b k (by rw [lb]; exact hk), va, vb] at hk'
    injection hk' with hk'
    exact hk'.symm

theorem encodeBits_unique_built : ∀ (xs ys : List Nat), (∀ x ∈ xs, x < 256) →
    (∀ y ∈ ys, y < 256) → encodeBits builtNodes xs = encodeBits builtNodes ys → xs = ys
  | [], [], _, _, _ => rfl
  | [], y :: ys, _, hy, h => by
    have hl := congrArg List.length h
    simp only [encodeBits, List.length_nil, List.length_append, codeBitsOf_length] at hl
    have := (derivation_eval_a y (hy y (List.mem_cons_self _ _))).2.2.2.1
    omega
  | x :: xs, [], hx, _, h => by
    have hl := congrArg List.length h
    simp only [encodeBits, List.length_nil, List.length_append, codeBitsOf_length] at hl
    have := (derivation_eval_a x (hx x (List.mem_cons_self _ _))).2.2.2.1
    omega
  | x :: xs, y :: ys, hx, hy, h => by
    have hx0 := hx x (List.mem_cons_self _ _)
    have hy0 := hy y (List.mem_cons_self _ _)
    simp only [encodeBits] at h
    have hxy : x = y := by
      by_contra hne
      rcases Nat.le_total (codeBitsOf builtNodes x).length (codeBitsOf builtNodes y).length
        with hle | hle
      · exact prefix_free_built x y hx0 hy0 hne
          (List.prefix_of_prefix_length_le (h ▸ List.prefix_append _ _)
            (List.prefix_append _ _) hle)
      · exact prefix_free_built y x hy0 hx0 (Ne.symm hne)
          (List.prefix_of_prefix_length_le (h.symm ▸ List.prefix_append _ _)
            (List.prefix_append _ _) hle)
    subst hxy
    have ht := List.append_cancel_left h
    rw [encodeBits_unique_built xs ys (fun z hz => hx z (List.mem_cons_of_mem _ hz))
      (fun z hz => hy z (List.mem_cons_of_mem _ hz)) ht]

/-- C12. The code table is prefix-free: after `build()`, for every two distinct byte values
`a` and `b`, the transmitted bit string of `a` (the low `bits` bits of `val`, least significant
bit first) is not a prefix of the transmitted bit string of `b`; hence a concatenation of
symbol encodings has exactly one parse. -/
theorem C12_prefix_free :
    (∀ a b, a < 256 → b < 256 → a ≠ b → ¬ (codeBitsOf nodes_ a <+: codeBitsOf nodes_ b))
    ∧ (∀ xs ys : List Nat, (∀ x ∈ xs, x < 256) → (∀ y ∈ ys, y < 256) →
        encodeBits nodes_ xs = encodeBits nodes_ ys → xs = ys) := by
  rw [nodes_eq]
  exact ⟨prefix_free_built, encodeBits_unique_built⟩

theorem C12_prefix_free_witness :
    (0 < 256) ∧ (4 < 256) ∧ ¬ (codeBitsOf nodes_ 0 <+: codeBitsOf nodes_ 4) :=
  ⟨by decide, by decide, C12_prefix_free.1 0 4 (by decide) (by decide) (by decide)⟩

/-! ## Shape of the built tree -/

set_option maxRecDepth 1000000 in
theorem tree_eval_parent : ∀ i, i < 511 →
    (((builtNodes.get i).parent = 0 ↔ i = 510)
      ∧ (i < 510 →
          256 ≤ (builtNodes.get i).parent + 255 ∧ (builtNodes.get i).parent + 255 ≤ 510
          ∧ i < (builtNodes.get i).parent + 255
          ∧ (((builtNodes.get ((builtNodes.get i).parent + 255)).left_child = (i : Int)
                ∧ (builtNodes.get ((builtNodes.get i).parent + 255)).right_child ≠ (i : Int))
              ∨ ((builtNodes.get ((builtNodes.get i).parent + 255)).left_child ≠ (i : Int)
                ∧ (builtNodes.get ((builtNodes.get i).parent + 255)).right_child = (i : Int))))) := by
  decide!

set_option maxRecDepth 1000000 in
theorem tree_eval_children : ∀ i, i < 511 →
    ((256 ≤ i →
        0 ≤ (builtNodes.get i).left_child ∧ (builtNodes.get i).left_child < (i : Int)
        ∧ 0 ≤ (builtNodes.get i).right_child ∧ (builtNodes.get i).right_child < (i : Int)
        ∧ (builtNodes.get i).left_child ≠ (builtNodes.get i).right_child
        ∧ (builtNodes.get i).frequency
            = (builtNodes.get (builtNodes.get i).left_child.toNat).frequency
              + (builtNodes.get (builtNodes.get i).right_child.toNat).frequency)
      ∧ (i < 256 →
          (builtNodes.get i).left_child = -1 ∧ (builtNodes.get i).right_child = -1)) := by
  decide!

set_option maxRecDepth 1000000 in
theorem tree_eval_root : ∀ i, i < 511 →
    ancestor builtNodes (depthOf builtNodes 511 i) i = 510 := by
  decide!

/-! ## The tree walk of `decompress` -/

theorem cands_mem (t : Mem Node) : ∀ (n lo : Nat) (c : Nat × Int), c ∈ candsFrom t n lo →
    lo ≤ c.1 ∧ c.1 < lo + n ∧ (t.get c.1).parent = 0 ∧ c.2 = (t.get c.1).frequency
  | 0, _, _, h => by simp [candsFrom] at h
  | n + 1, lo, c, h => by
    rw [candsFrom_succ] at h
    split at h
    · rename_i hp
      rcases List.mem_cons.mp h with h1 | h1
      · subst h1
        exact ⟨le_refl _, by simp, hp, rfl⟩
      · obtain ⟨a1, a2, a3, a4⟩ := cands_mem t n (lo + 1) c h1
        exact ⟨by omega, by omega, a3, a4⟩
    · obtain ⟨a1, a2, a3, a4⟩ := cands_mem t n (lo + 1) c h
      exact ⟨by omega, by omega, a3, a4⟩

theorem cands_complete (t : Mem Node) : ∀ (n lo j : Nat), lo ≤ j → j < lo + n →
    (t.get j).parent = 0 → (j, (t.get j).frequency) ∈ candsFrom t n lo
  | 0, _, _, h1, h2, _ => by omega
  | n + 1, lo, j, h1, h2, hp => by
    rw [candsFrom_succ]
    by_cases hj : j = lo
    · subst hj
      rw [if_pos hp]
      exact List.mem_cons_self _ _
    · have ih := cands_complete t n (lo + 1) j (by omega) (by omega) hp
      split
      · exact List.mem_cons_of_mem _ ih
      · exact ih

theorem cands_pairwise (t : Mem Node) : ∀ (n lo : Nat),
    (candsFrom t n lo).Pairwise (fun x y => x.1 ≠ y.1)
  | 0, _ => by simp [candsFrom]
  | n + 1, lo => by
    rw [candsFrom_succ]
    split
    · rw [List.pairwise_cons]
      refine ⟨?_, cands_pairwise t n (lo + 1)⟩
      intro c hc
      have := (cands_mem t n (lo + 1) c hc).1
      simp only
      omega
    · exact cands_pairwise t n (lo + 1)

theorem scanC_max : ∀ (l : List (Nat × Int)) (s1 : Nat) (f1 : Int) (s2 : Nat) (f2 : Int),
    max (scanC l s1 f1 s2 f2).1.2 (scanC l s1 f1 s2 f2).2.2 ≤ max f1 f2
  | [], _, _, _, _ => le_refl _
  | c :: rest, s1, f1, s2, f2 => by
    unfold scanC
    split
    · split
      · have := scanC_max rest c.1 c.2 s2 f2
        omega
      · exact scanC_max rest s1 f1 s2 f2
    · split
      · have := scanC_max rest s1 f1 c.1 c.2
        omega
      · exact scanC_max rest s1 f1 s2 f2

theorem scanC_mem : ∀ (l : List (Nat × Int)) (s1 : Nat) (f1 : Int) (s2 : Nat) (f2 : Int),
    (scanC l s1 f1 s2 f2).1 ∈ (s1, f1) :: l ∧ (scanC l s1 f1 s2 f2).2 ∈ (s2, f2) :: l
  | [], _, _, _, _ => by simp [scanC]
  | c :: rest, s1, f1, s2, f2 => by
    unfold scanC
    split
    · split
      · obtain ⟨a, b⟩ := scanC_mem rest c.1 c.2 s2 f2
        refine ⟨List.mem_cons_of_mem _ a, ?_⟩
        rcases List.mem_cons.mp b with b | b
        · rw [b]; exact List.mem_cons_self _ _
        · exact List.mem_cons_of_mem _ (List.mem_cons_of_mem _ b)
      · obtain ⟨a, b⟩ := scanC_mem rest s1 f1 s2 f2
        constructor
        · rcases List.mem_cons.mp a with a | a
          · rw [a]; exact List.mem_cons_self _ _
          · exact List.mem_cons_of_mem _ (List.mem_cons_of_mem _ a)
        · rcases List.mem_cons.mp b with b | b
          · rw [b]; exact List.mem_cons_self _ _
          · exact List.mem_cons_of_mem _ (List.mem_cons_of_mem _ b)
    · split
      · obtain ⟨a, b⟩ := scanC_mem rest s1 f1 c.1 c.2
        refine ⟨?_, List.mem_cons_of_mem _ b⟩
        rcases List.mem_cons.mp a with a | a
        · rw [a]; exact List.mem_cons_self _ _
        · exact List.mem_cons_of_mem _ (List.mem_cons_of_mem _ a)
      · obtain ⟨a, b⟩ := scanC_mem rest s1 f1 s2 f2
        constructor
        · rcases List.mem_cons.mp a with a | a
          · rw [a]; exact List.mem_cons_self _ _
          · exact List.mem_cons_of_mem _ (List.mem_cons_of_mem _ a)
        · rcases List.mem_cons.mp b with b | b
          · rw [b]; exact List.mem_cons_self _ _
          · exact List.mem_cons_of_mem _ (List.mem_cons_of_mem _ b)

theorem scanC_min : ∀ (l : List (Nat × Int)) (s1 : Nat) (f1 : Int) (s2 : Nat) (f2 : Int)
    (c : Nat × Int), c ∈ (s1, f1) :: (s2, f2) :: l →
    c = (scanC l s1 f1 s2 f2).1 ∨ c = (scanC l s1 f1 s2 f2).2
      ∨ ((scanC l s1 f1 s2 f2).1.2 ≤ c.2 ∧ (scanC l s1 f1 s2 f2).2.2 ≤ c.2)
  | [], s1, f1, s2, f2, c, h => by
    simp only [List.mem_cons, List.mem_nil_iff, or_false] at h
    rcases h with h | h
    · left; rw [h]; rfl
    · right; left; rw [h]; rfl
  | d :: rest, s1, f1, s2, f2, c, h => by
    have hc : c = (s1, f1) ∨ c = (s2, f2) ∨ c = d ∨ c ∈ rest := by
      simpa [List.mem_cons] using h
    unfold scanC
    split
    · rename_i h12
      split
      · rename_i hd
        have hm := scanC_max rest d.1 d.2 s2 f2
        rcases hc with hc | hc | hc | hc
        · right; right
          subst hc
          simp only
          constructor <;> omega
        · exact scanC_min rest d.1 d.2 s2 f2 c (by rw [hc]; simp)
        · exact scanC_min rest d.1 d.2 s2 f2 c (by rw [hc]; simp)
        · exact scanC_min rest d.1 d.2 s2 f2 c (by simp [hc])
      · rename_i hd
        have hm := scanC_max rest s1 f1 s2 f2
        rcases hc with hc | hc | hc | hc
        · exact scanC_min rest s1 f1 s2 f2 c (by rw [hc]; simp)
        · exact scanC_min rest s1 f1 s2 f2 c (by rw [hc]; simp)
        · right; right
          subst hc
          constructor <;> omega
        · exact scanC_min rest s1 f1 s2 f2 c (by simp [hc])
    · rename_i h12
      split
      · rename_i hd
        have hm := scanC_max rest s1 f1 d.1 d.2
        rcases hc with hc | hc | hc | hc
        · exact scanC_min rest s1 f1 d.1 d.2 c (by rw [hc]; simp)
        · right; right
          subst hc
          simp only
          constructor <;> omega
        · exact scanC_min rest s1 f1 d.1 d.2 c (by rw [hc]; simp)
        · exact scanC_min rest s1 f1 d.1 d.2 c (by simp [hc])
      · rename_i hd
        have hm := scanC_max rest s1 f1 s2 f2
        rcases hc with hc | hc | hc | hc
        · exact scanC_min rest s1 f1 s2 f2 c (by rw [hc]; simp)
        · exact scanC_min rest s1 f1 s2 f2 c (by rw [hc]; simp)
        · right; right
          subst hc
          constructor <;> omega
        · exact scanC_min rest s1 f1 s2 f2 c (by simp [hc])

theorem scanC_ne : ∀ (l : List (Nat × Int)) (s1 : Nat) (f1 : Int) (s2 : Nat) (f2 : Int),
    s1 ≠ s2 → (∀ c ∈ l, c.1 ≠ s1 ∧ c.1 ≠ s2) → l.Pairwise (fun x y => x.1 ≠ y.1) →
    (scanC l s1 f1 s2 f2).1.1 ≠ (scanC l s1 f1 s2 f2).2.1
  | [], _, _, _, _, h, _, _ => h
  | d :: rest, s1, f1, s2, f2, h, hl, hp => by
    have hd := hl d (List.mem_cons_self _ _)
    have hr : ∀ c ∈ rest, c.1 ≠ s1 ∧ c.1 ≠ s2 := fun c hc => hl c (List.mem_cons_of_mem _ hc)
    rw [List.pairwise_cons] at hp
    have hdr : ∀ c ∈ rest, c.1 ≠ d.1 := fun c hc => Ne.symm (hp.1 c hc)
    unfold scanC
    split
    · split
      · exact scanC_ne rest d.1 d.2 s2 f2 hd.2 (fun c hc => ⟨hdr c hc, (hr c hc).2⟩) hp.2
      · exact scanC_ne rest s1 f1 s2 f2 h hr hp.2
    · split
      · exact scanC_ne rest s1 f1 d.1 d.2 (Ne.symm hd.1)
          (fun c hc => ⟨(hr c hc).1, hdr c hc⟩) hp.2
      · exact scanC_ne rest s1 f1 s2 f2 h hr hp.2

theorem selection_cands (t : Mem Node) (nc : Nat) (c1 c2 : Nat × Int)
    (rest : List (Nat × Int)) (hnc : nc ≤ 511) (hc : candsFrom t nc 0 = c1 :: c2 :: rest) :
    selection t nc = ((scanC rest c1.1 c1.2 c2.1 c2.2).1.1, (scanC rest c1.1 c1.2 c2.1 c2.2).2.1)
      ∧ skipParented t 511 0 = c1.1 ∧ skipParented t 511 (c1.1 + 1) = c2.1
      ∧ c1.1 < c2.1 ∧ c2.1 < nc := by
  obtain ⟨a1, a2, a3, a4, a5⟩ := cands_skip t nc 0 511 c1 (c2 :: rest) hc (by omega) (by omega)
  obtain ⟨b1, b2, b3, b4, b5⟩ :=
    cands_skip t (0 + nc - (c1.1 + 1)) (c1.1 + 1) 511 c2 rest a5.symm (by omega) (by omega)
  obtain ⟨d1, _, _⟩ := scan_cands t nc (nc - (c2.1 + 1)) (c2.1 + 1) nc c1.1 c2.1
    (by omega) (by omega)
  have er : rest = candsFrom t (nc - (c2.1 + 1)) (c2.1 + 1) := by
    rw [b5]; congr 1; omega
  rw [← er, ← a2, ← b2] at d1
  refine ⟨?_, a1, b1, by omega, by omega⟩
  unfold selection
  rw [a1, b1, d1]

theorem two_cands (t : Mem Node) (nc a b : Nat) (hab : a < b) (hb : b < nc)
    (ha0 : (t.get a).parent = 0) (hb0 : (t.get b).parent = 0) :
    ∃ c1 c2 rest, candsFrom t nc 0 = c1 :: c2 :: rest := by
  have ma := cands_complete t nc 0 a (by omega) (by omega) ha0
  have mb := cands_complete t nc 0 b (by omega) (by omega) hb0
  cases hl : candsFrom t nc 0 with
  | nil => rw [hl] at ma; simp at ma
  | cons c1 l2 =>
    cases l2 with
    | nil =>
      rw [hl] at ma mb
      simp only [List.mem_singleton] at ma mb
      have : a = b := by
        have e := ma.trans mb.symm
        exact congrArg Prod.fst e
      omega
    | cons c2 rest => exact ⟨c1, c2, rest, rfl⟩

theorem selection_minimal (t : Mem Node) (nc : Nat) (hnc : nc ≤ 511)
    (h2 : ∃ a b, a < b ∧ b < nc ∧ (t.get a).parent = 0 ∧ (t.get b).parent = 0) :
    (selection t nc).1 ≠ (selection t nc).2
      ∧ (selection t nc).1 < nc ∧ (selection t nc).2 < nc
      ∧ (t.get (selection t nc).1).parent = 0 ∧ (t.get (selection t nc).2).parent = 0
      ∧ ∀ j, j < nc → (t.get j).parent = 0 → j ≠ (selection t nc).1 →
          j ≠ (selection t nc).2 →
          (t.get (selection t nc).1).frequency ≤ (t.get j).frequency
            ∧ (t.get (selection t nc).2).frequency ≤ (t.get j).frequency := by
  obtain ⟨a, b, hab, hb, ha0, hb0⟩ := h2
  obtain ⟨c1, c2, rest, hc⟩ := two_cands t nc a b hab hb ha0 hb0
  obtain ⟨hs, _, _, h12, _⟩ := selection_cands t nc c1 c2 rest hnc hc
  have hall : ∀ c ∈ c1 :: c2 :: rest, 0 ≤ c.1 ∧ c.1 < 0 + nc ∧ (t.get c.1).parent = 0
      ∧ c.2 = (t.get c.1).frequency := fun c hm => cands_mem t nc 0 c (hc ▸ hm)
  have hpw : (c1 :: c2 :: rest).Pairwise (fun x y => x.1 ≠ y.1) := hc ▸ cands_pairwise t nc 0
  rw [List.pairwise_cons, List.pairwise_cons] at hpw
  obtain ⟨m1, m2⟩ := scanC_mem rest c1.1 c1.2 c2.1 c2.2
  have r1 : (scanC rest c1.1 c1.2 c2.1 c2.2).1 ∈ c1 :: c2 :: rest := by
    rcases List.mem_cons.mp m1 with h | h
    · rw [h]; exact List.mem_cons_self _ _
    · exact List.mem_cons_of_mem _ (List.mem_cons_of_mem _ h)
  have r2 : (scanC rest c1.1 c1.2 c2.1 c2.2).2 ∈ c1 :: c2 :: rest := by
    rcases List.mem_cons.mp m2 with h | h
    · rw [h]; exact List.mem_cons_of_mem _ (List.mem_cons_self _ _)
    · exact List.mem_cons_of_mem _ (List.mem_cons_of_mem _ h)
  have hne := scanC_ne rest c1.1 c1.2 c2.1 c2.2 (by omega)
    (fun c hcm => ⟨Ne.symm (hpw.1 c (List.mem_cons_of_mem _ hcm)), Ne.symm (hpw.2.1 c hcm)⟩)
    hpw.2.2
  obtain ⟨_, p2, p3, p4⟩ := hall _ r1
  obtain ⟨_, q2, q3, q4⟩ := hall _ r2
  rw [hs]
  refine ⟨hne, by omega, by omega, p3, q3, ?_⟩
  intro j hj hj0 hj1 hj2
  have mj : (j, (t.get j).frequency) ∈ c1 :: c2 :: rest :=
    hc ▸ cands_complete t nc 0 j (by omega) (by omega) hj0
  rcases scanC_min rest c1.1 c1.2 c2.1 c2.2 _ mj with h | h | h
  · exact absurd (congrArg Prod.fst h) hj1
  · exact absurd (congrArg Prod.fst h) hj2
  · rw [← p4, ← q4]
    exact h

theorem start_parent (freqs : List Int) (j : Nat) (hj : j < 512) :
    ((loadFreqs freqs 256 0 (Mem.fill 9 {})).get j).parent = 0 := by
  rw [loadFreqs_parent freqs 256 0 _ j (Mem.perfect_fill 9 _) hj, fill_get]

/-- C15. The selection scan picks two minimum-frequency candidates: for every state of the
node array in which at least two of the first `node_count` nodes are unparented, the scan of
one merge iteration (lines 517-537) ends with `smallest1 != smallest2`, both unparented and
below `node_count`, and every other unparented node below `node_count` has a frequency that
is at least the frequency of `smallest1` and at least the frequency of `smallest2`. -/
theorem C15_selection_minimal (nodes : Mem Node) (node_count : Nat) (hnc : node_count ≤ 511)
    (h2 : ∃ a b, a < b ∧ b < node_count ∧ (nodes.get a).parent = 0
      ∧ (nodes.get b).parent = 0) :
    (selection nodes node_count).1 ≠ (selection nodes node_count).2
      ∧ (selection nodes node_count).1 < node_count
      ∧ (selection nodes node_count).2 < node_count
      ∧ (nodes.get (selection nodes node_count).1).parent = 0
      ∧ (nodes.get (selection nodes node_count).2).parent = 0
      ∧ ∀ j, j < node_count → (nodes.get j).parent = 0 →
          j ≠ (selection nodes node_count).1 → j ≠ (selection nodes node_count).2 →
          (nodes.get (selection nodes node_count).1).frequency ≤ (nodes.get j).frequency
            ∧ (nodes.get (selection nodes node_count).2).frequency ≤ (nodes.get j).frequency :=
  selection_minimal nodes node_count hnc h2

theorem C15_selection_minimal_witness :
    (256 ≤ 511)
      ∧ (selection (loadFreqs g_freqs 256 0 (Mem.fill 9 {})) 256).1
          ≠ (selection (loadFreqs g_freqs 256 0 (Mem.fill 9 {})) 256).2 :=
  ⟨by decide,
    (C15_selection_minimal (loadFreqs g_freqs 256 0 (Mem.fill 9 {})) 256 (by decide)
      ⟨0, 1, by decide, by decide, start_parent g_freqs 0 (by decide),
        start_parent g_freqs 1 (by decide)⟩).1⟩

theorem mergeLoop_unfold (f nc : Nat) (t : Mem Node) :
    mergeLoop (f + 1) nc t =
      if nc < 511 then
        match mergeStep t nc with
        | none => none
        | some t1 => mergeLoop f (nc + 1) t1
      else some t := rfl

theorem mergeLoop_succ : ∀ (k nc : Nat) (t : Mem Node),
    mergeLoop (k + 1) nc t =
      match mergeLoop k nc t with
      | none => none
      | some t1 => if nc + k < 511 then mergeStep t1 (nc + k) else some t1
  | 0, nc, t => by
    rw [mergeLoop_unfold]
    simp only [mergeLoop, Nat.add_zero]
    split
    · cases mergeStep t nc <;> rfl
    · rfl
  | k + 1, nc, t => by
    rw [mergeLoop_unfold (k + 1), mergeLoop_unfold k]
    by_cases h : nc < 511
    · rw [if_pos h, if_pos h]
      cases hm : mergeStep t nc with
      | none => rfl
      | some t1 =>
        simp only
        rw [mergeLoop_succ k (nc + 1) t1]
        have e : nc + 1 + k = nc + (k + 1) := by omega
        rw [e]
    · rw [if_neg h, if_neg h]
      simp only
      have : ¬ nc + (k + 1) < 511 := by omega
      rw [if_neg this]

theorem loopS_unfold (f nc : Nat) (cands : List (Nat × Int)) :
    loopS (f + 1) nc cands =
      if nc < 511 then
        match stepS cands nc with
        | none => none
        | some r =>
          match loopS f (nc + 1) r.2 with
          | none => none
          | some s => some (r.1 :: s)
      else some [] := rfl

theorem stepS_selection (t : Mem Node) (nc : Nat) (r : (Nat × Nat) × List (Nat × Int))
    (hnn : ∀ c ∈ candsFrom t nc 0, 0 ≤ c.2)
    (hs : stepS (candsFrom t nc 0) nc = some r) :
    r.1 = selection t nc ∧ skipParented t 511 0 < nc
      ∧ skipParented t 511 (skipParented t 511 0 + 1) < nc
      ∧ ∃ a b, a < b ∧ b < nc ∧ (t.get a).parent = 0 ∧ (t.get b).parent = 0 := by
  unfold stepS at hs
  split at hs
  · rename_i c1 c2 rest hc
    simp only at hs
    split at hs
    · rename_i hchk
      injection hs with hs
      obtain ⟨e1, e2, e3, e4, e5⟩ := selection_cands t nc c1 c2 rest (by omega) hc
      have hrest : ∀ c ∈ rest, 0 ≤ c.2 := by
        intro c hcm
        apply hnn c
        rw [hc]
        exact List.mem_cons_of_mem _ (List.mem_cons_of_mem _ hcm)
      rw [scanE_eq_scanC rest _ _ _ _ hrest] at hs
      have m1 := cands_mem t nc 0 c1 (by rw [hc]; exact List.mem_cons_self _ _)
      have m2 := cands_mem t nc 0 c2
        (by rw [hc]; exact List.mem_cons_of_mem _ (List.mem_cons_self _ _))
      refine ⟨?_, by omega, by rw [e2, e3]; omega, c1.1, c2.1, e4, e5, m1.2.2.1, m2.2.2.1⟩
      rw [e1, ← hs]
    · exact absurd hs (by simp)
  · exact absurd hs (by simp)

theorem count_link (t t1 : Mem Node) (a b : Nat) (hab : a ≠ b)
    (ha : (t.get a).parent = 0) (hb : (t.get b).parent = 0)
    (ha1 : (t1.get a).parent ≠ 0) (hb1 : (t1.get b).parent ≠ 0) : ∀ (n : Nat),
    (∀ j, j < n → j ≠ a → j ≠ b → (t1.get j).parent = (t.get j).parent) →
    unparented t1 n + (if a < n then 1 else 0) + (if b < n then 1 else 0) = unparented t n
  | 0, _ => by simp [unparented]
  | n + 1, h => by
    have ih := count_link t t1 a b hab ha hb ha1 hb1 n
      (fun j hj => h j (by omega))
    simp only [unparented]
    by_cases hna : n = a
    · subst hna
      rw [if_neg ha1, if_pos ha]
      have hbn : b ≠ n := Ne.symm hab
      split_ifs at ih ⊢ <;> omega
    · by_cases hnb : n = b
      · subst hnb
        rw [if_neg hb1, if_pos hb]
        split_ifs at ih ⊢ <;> omega
      · rw [h n (by omega) hna hnb]
        split_ifs at ih ⊢ <;> omega

theorem unparented_all (t : Mem Node) : ∀ (n : Nat), (∀ j, j < n → (t.get j).parent = 0) →
    unparented t n = n
  | 0, _ => rfl
  | n + 1, h => by
    simp only [unparented]
    rw [unparented_all t n (fun j hj => h j (by omega)), if_pos (h n (by omega))]

theorem step_inv (t t1 : Mem Node) (nc : Nat) (r : (Nat × Nat) × List (Nat × Int))
    (hp : Mem.Perfect 9 t) (hf : Fresh t nc) (hnn : ∀ c ∈ candsFrom t nc 0, 0 ≤ c.2)
    (hs : stepS (candsFrom t nc 0) nc = some r)
    (hl : link t nc r.1.1 r.1.2 = some t1) :
    mergeStep t nc = some t1 ∧ Mem.Perfect 9 t1 ∧ Fresh t1 (nc + 1)
      ∧ candsFrom t1 (nc + 1) 0 = r.2 ∧ (∀ c ∈ candsFrom t1 (nc + 1) 0, 0 ≤ c.2)
      ∧ unparented t1 (nc + 1) + 1 = unparented t nc := by
  obtain ⟨m1, m2, m3, m4, m5, m6, m7, m8⟩ := mergeStep_of_stepS t nc r hnn hs
  obtain ⟨s1, _, _, h2⟩ := stepS_selection t nc r hnn hs
  obtain ⟨_, _, _, q1, q2, _⟩ := selection_minimal t nc (by omega) h2
  rw [← s1] at q1 q2
  have hp1 := link_perfect t t1 nc r.1.1 r.1.2 hp hl
  have hg := link_get t t1 nc r.1.1 r.1.2 hp hl (by omega) (by omega) (by omega)
    (by omega) (by omega) m2
  have hf1 : Fresh t1 (nc + 1) := by
    intro i hi1 hi2
    rw [hg i hi2, if_neg (by omega), if_neg (by omega), if_neg (by omega)]
    exact hf i (by omega) hi2
  have hgn := hg nc (by omega)
  rw [if_pos rfl] at hgn
  have hfn := hf nc (le_refl _) (by omega)
  have hcs : candsFrom t1 (nc + 1) 0 = r.2 := by
    rw [cands_append t1 nc 1 0, m8,
      ← cands_link t t1 nc r.1.1 r.1.2 _ hp hl m3 m4 m6 m5 m2 nc 0 (by omega)]
    congr 1
    simp only [Nat.zero_add]
    rw [candsFrom_succ, hgn]
    simp [hfn, candsFrom]
  have hnn1 : ∀ c ∈ candsFrom t1 (nc + 1) 0, 0 ≤ c.2 := by
    rw [hcs, m8]
    exact dropSnoc_nonneg _ _ _ m7 _ hnn
  have hP : (nc - 255) % 256 ≠ 0 := by
    have e1 : nc - 255 < 256 := by omega
    rw [Nat.mod_eq_of_lt e1]
    omega
  have ga := hg r.1.1 (by omega)
  rw [if_neg (by omega), if_pos rfl] at ga
  have gb := hg r.1.2 (by omega)
  rw [if_neg (by omega), if_neg (Ne.symm m2), if_pos rfl] at gb
  have hcount := count_link t t1 r.1.1 r.1.2 m2 q1 q2 (by rw [ga]; exact hP)
    (by rw [gb]; exact hP) nc (by
      intro j hj hja hjb
      rw [hg j (by omega), if_neg (by omega), if_neg hja, if_neg hjb])
  rw [if_pos m3, if_pos m4] at hcount
  refine ⟨m1.trans hl, hp1, hf1, hcs, hnn1, ?_⟩
  simp only [unparented]
  have hgp : (t1.get nc).parent = 0 := by rw [hgn]; exact hfn
  rw [if_pos hgp]
  omega

theorem replay_unfold (p : Nat × Nat) (rest : List (Nat × Nat)) (nc : Nat) (t : Mem Node) :
    replay (p :: rest) nc t =
      match link t nc p.1 p.2 with
      | none => none
      | some t1 => replay rest (nc + 1) t1 := rfl

theorem run_inv (t0 final : Mem Node) (sched : List (Nat × Nat))
    (hp : Mem.Perfect 9 t0) (hf : Fresh t0 256) (hnn : ∀ c ∈ candsFrom t0 256 0, 0 ≤ c.2)
    (hu : unparented t0 256 = 256)
    (hL : loopS 255 256 (candsFrom t0 256 0) = some sched)
    (hR : replay sched 256 t0 = some final) : ∀ (k : Nat), k ≤ 255 →
    ∃ t s, mergeLoop k 256 t0 = some t ∧ Mem.Perfect 9 t ∧ Fresh t (256 + k)
      ∧ (∀ c ∈ candsFrom t (256 + k) 0, 0 ≤ c.2) ∧ unparented t (256 + k) + k = 256
      ∧ loopS (255 - k) (256 + k) (candsFrom t (256 + k) 0) = some s
      ∧ replay s (256 + k) t = some final
  | 0, _ => by
    refine ⟨t0, sched, rfl, hp, ?_, ?_, ?_, ?_, ?_⟩
    · exact hf
    · exact hnn
    · simp only [Nat.add_zero]; exact hu
    · simp only [Nat.add_zero, Nat.sub_zero]; exact hL
    · exact hR
  | k + 1, hk => by
    obtain ⟨t, s, a1, a2, a3, a4, a5, a6, a7⟩ := run_inv t0 final sched hp hf hnn hu hL hR k
      (by omega)
    have e : 255 - k = (254 - k) + 1 := by omega
    rw [e, loopS_unfold] at a6
    have hlt : 256 + k < 511 := by omega
    rw [if_pos hlt] at a6
    cases hs : stepS (candsFrom t (256 + k) 0) (256 + k) with
    | none => rw [hs] at a6; exact absurd a6 (by simp)
    | some r =>
      rw [hs] at a6
      simp only at a6
      cases hl2 : loopS (254 - k) (256 + k + 1) r.2 with
      | none => rw [hl2] at a6; exact absurd a6 (by simp)
      | some s1 =>
        rw [hl2] at a6
        simp only at a6
        injection a6 with a6
        subst a6
        rw [replay_unfold] at a7
        cases hl : link t (256 + k) r.1.1 r.1.2 with
        | none => rw [hl] at a7; exact absurd a7 (by simp)
        | some t1 =>
          rw [hl] at a7
          simp only at a7
          obtain ⟨b1, b2, b3, b4, b5, b6⟩ := step_inv t t1 (256 + k) r a2 a3 a4 hs hl
          have e3 : 256 + (k + 1) = 256 + k + 1 := by omega
          rw [e3]
          refine ⟨t1, s1, ?_, b2, b3, b5, by omega, ?_, a7⟩
          · rw [mergeLoop_succ, a1]
            simp only
            rw [if_pos hlt, b1]
          · rw [b4]
            have e2 : 255 - (k + 1) = 254 - k := by omega
            rw [e2]
            exact hl2

theorem stepS_of_loopS (f nc : Nat) (cands : List (Nat × Int)) (s : List (Nat × Nat))
    (hlt : nc < 511) (h : loopS (f + 1) nc cands = some s) :
    ∃ r, stepS cands nc = some r := by
  rw [loopS_unfold, if_pos hlt] at h
  cases hs : stepS cands nc with
  | none => rw [hs] at h; exact absurd h (by simp)
  | some r => exact ⟨r, rfl⟩

theorem run_step (t0 final : Mem Node) (sched : List (Nat × Nat))
    (hp : Mem.Perfect 9 t0) (hf : Fresh t0 256) (hnn : ∀ c ∈ candsFrom t0 256 0, 0 ≤ c.2)
    (hu : unparented t0 256 = 256)
    (hL : loopS 255 256 (candsFrom t0 256 0) = some sched)
    (hR : replay sched 256 t0 = some final) (k : Nat) (hk : k ≤ 254) :
    ∃ t, mergeLoop k 256 t0 = some t
      ∧ unparented t (256 + k) = 512 - (256 + k) ∧ 2 ≤ unparented t (256 + k)
      ∧ skipParented t 511 0 < 256 + k
      ∧ skipParented t 511 (skipParented t 511 0 + 1) < 256 + k
      ∧ (selection t (256 + k)).1 < 256 + k ∧ (selection t (256 + k)).2 < 256 + k
      ∧ (selection t (256 + k)).1 ≠ (selection t (256 + k)).2
      ∧ ∃ t1, mergeStep t (256 + k) = some t1 := by
  obtain ⟨t, s, a1, a2, a3, a4, a5, a6, a7⟩ :=
    run_inv t0 final sched hp hf hnn hu hL hR k (by omega)
  obtain ⟨t1, s1, c1, _⟩ := run_inv t0 final sched hp hf hnn hu hL hR (k + 1) (by omega)
  have hlt : 256 + k < 511 := by omega
  rw [mergeLoop_succ, a1] at c1
  simp only at c1
  rw [if_pos hlt] at c1
  have e : 255 - k = (254 - k) + 1 := by omega
  rw [e] at a6
  obtain ⟨r, hs⟩ := stepS_of_loopS _ _ _ _ hlt a6
  obtain ⟨s1, s2, s3, _⟩ := stepS_selection t (256 + k) r a4 hs
  obtain ⟨_, m2, m3, m4, _⟩ := mergeStep_of_stepS t (256 + k) r a4 hs
  rw [s1] at m2 m3 m4
  exact ⟨t, a1, by omega, by omega, s2, s3, m3, m4, m2, t1, c1⟩

theorem start_unparented (freqs : List Int) :
    unparented (loadFreqs freqs 256 0 (Mem.fill 9 {})) 256 = 256 :=
  unparented_all (loadFreqs freqs 256 0 (Mem.fill 9 {})) 256
    (fun j hj => start_parent freqs j (Nat.lt_trans hj (by decide)))

theorem built_run_inv : ∀ (k : Nat), k ≤ 255 →
    ∃ t s, mergeLoop k 256 (loadFreqs g_freqs 256 0 (Mem.fill 9 {})) = some t
      ∧ Mem.Perfect 9 t ∧ Fresh t (256 + k)
      ∧ (∀ c ∈ candsFrom t (256 + k) 0, 0 ≤ c.2) ∧ unparented t (256 + k) + k = 256
      ∧ loopS (255 - k) (256 + k) (candsFrom t (256 + k) 0) = some s
      ∧ replay s (256 + k) t = some (stripCodes builtNodes) := by
  have h := run_inv _ _ _ (loadFreqs_perfect _ _ _ _ (Mem.perfect_fill 9 _))
    (fresh_start g_freqs) cands_start_nonneg (start_unparented g_freqs) schedule_eval.2
    replay_eval
  exact h

theorem built_run_step : ∀ (k : Nat), k ≤ 254 →
    ∃ t, mergeLoop k 256 (loadFreqs g_freqs 256 0 (Mem.fill 9 {})) = some t
      ∧ unparented t (256 + k) = 512 - (256 + k) ∧ 2 ≤ unparented t (256 + k)
      ∧ skipParented t 511 0 < 256 + k
      ∧ skipParented t 511 (skipParented t 511 0 + 1) < 256 + k
      ∧ (selection t (256 + k)).1 < 256 + k ∧ (selection t (256 + k)).2 < 256 + k
      ∧ (selection t (256 + k)).1 ≠ (selection t (256 + k)).2
      ∧ ∃ t1, mergeStep t (256 + k) = some t1 := by
  have h := run_step _ _ _ (loadFreqs_perfect _ _ _ _ (Mem.perfect_fill 9 _))
    (fresh_start g_freqs) cands_start_nonneg (start_unparented g_freqs) schedule_eval.2
    replay_eval
  exact h

/-- C17. The candidate scan never runs off the node array: at the start of each of the 255
merge iterations of `build()` (`node_count = 256 + k`, `k = 0..254`) exactly
`512 - node_count` of the nodes `0 .. node_count - 1` are unparented, which is at least 2; so
both searches `while (nodes_[i].parent != 0) i++` stop at an index below `node_count`, the two
selected nodes are distinct and below `node_count <= 510`, and the iteration completes. After
the last iteration exactly one of the 511 nodes is unparented, and in the finished array
every parent index `parent + 255` read by the code walk lies in `256..510`. -/
theorem C17_candidates_in_range :
    (∀ k, k ≤ 254 →
      ∃ t, mergeLoop k 256 (loadFreqs g_freqs 256 0 (Mem.fill 9 {})) = some t
        ∧ unparented t (256 + k) = 512 - (256 + k) ∧ 2 ≤ unparented t (256 + k)
        ∧ skipParented t 511 0 < 256 + k
        ∧ skipParented t 511 (skipParented t 511 0 + 1) < 256 + k
        ∧ (selection t (256 + k)).1 < 256 + k ∧ (selection t (256 + k)).2 < 256 + k
        ∧ (selection t (256 + k)).1 ≠ (selection t (256 + k)).2
        ∧ ∃ t1, mergeStep t (256 + k) = some t1)
    ∧ (∃ t, mergeLoop 255 256 (loadFreqs g_freqs 256 0 (Mem.fill 9 {})) = some t
        ∧ unparented t 511 = 1)
    ∧ (∀ i, i < 510 →
        256 ≤ (nodes_.get i).parent + 255 ∧ (nodes_.get i).parent + 255 ≤ 510) := by
  refine ⟨built_run_step, ?_, ?_⟩
  · obtain ⟨t, s, a1, _, _, _, a5, _, _⟩ := built_run_inv 255 (le_refl _)
    have e : 256 + 255 = 511 := rfl
    rw [e] at a5
    exact ⟨t, a1, by omega⟩
  · rw [nodes_eq]
    intro i hi
    obtain ⟨h1, h2, _⟩ := (tree_eval_parent i (by omega)).2 hi
    exact ⟨h1, h2⟩

theorem C17_candidates_in_range_witness :
    (3 ≤ 254)
      ∧ ∃ t, mergeLoop 3 256 (loadFreqs g_freqs 256 0 (Mem.fill 9 {})) = some t
        ∧ unparented t (256 + 3) = 512 - (256 + 3) :=
  ⟨by decide, (C17_candidates_in_range.1 3 (by decide)).imp fun _ h => ⟨h.1, h.2.1⟩⟩

/-! ## Well-formedness of the built tree -/

set_option maxRecDepth 1000000 in
theorem overflow_eval : build (List.replicate 256 1073741824) = none := by
  decide!

/-- C14 as stated fails for "any table of 256 non-negative frequencies": on the table whose
256 entries are all `2 ^ 30` the first merge adds two frequencies to `2 ^ 31`, which is not an
`int`; the construction does not produce a tree whose node frequencies are the sums of their
children's. -/
theorem C14_counterexample :
    (∀ f ∈ List.replicate 256 (1073741824 : Int), 0 ≤ f)
      ∧ (List.replicate 256 (1073741824 : Int)).length = 256
      ∧ ¬ ∃ nodes, build (List.replicate 256 1073741824) = some nodes := by
  refine ⟨?_, List.length_replicate _ _, ?_⟩
  · intro f hf
    rw [List.eq_of_mem_replicate hf]
    decide
  · rintro ⟨nodes, h⟩
    rw [overflow_eval] at h
    exact absurd h (by simp)

/-! ## `decompress`: header handling -/

theorem getElem?_one_add {α : Type} (a : α) (rest : List α) (k : Nat) :
    (a :: rest)[1 + k]? = rest[k]? := by
  rw [Nat.add_comm]
  exact List.getElem?_cons_succ

theorem walk_tail (nodes : Mem Node) (a b : Nat) (rest : List Nat) (bl : Nat) :
    ∀ (fuel n bit : Nat),
    walk nodes (a :: rest) bl fuel n bit = walk nodes (b :: rest) bl fuel n bit
  | 0, _, _ => rfl
  | fuel + 1, n, bit => by
    unfold walk
    rw [getElem?_one_add, getElem?_one_add]
    split
    · rfl
    · cases rest[bit / 8]? with
      | none => rfl
      | some x =>
        simp only
        rw [walk_tail nodes a b rest bl fuel]

theorem literal_tail (a b : Nat) (rest : List Nat) (length bit : Nat) :
    literal (a :: rest) length bit = literal (b :: rest) length bit := by
  unfold literal
  rw [getElem?_one_add, getElem?_one_add, getElem?_one_add, getElem?_one_add]

theorem decodeLoop_tail (nodes : Mem Node) (a b : Nat) (rest : List Nat) (length bl : Nat) :
    ∀ (fuel bit : Nat) (out : List Nat),
    decodeLoop nodes (a :: rest) length bl fuel bit out
      = decodeLoop nodes (b :: rest) length bl fuel bit out
  | 0, _, _ => rfl
  | fuel + 1, bit, out => by
    unfold decodeLoop
    rw [getElem?_one_add, getElem?_one_add, walk_tail nodes a b rest bl,
      literal_tail a b rest length]
    split
    · cases rest[bit / 8]? with
      | none => rfl
      | some x =>
        simp only
        split
        · split
          · rfl
          · cases walk nodes (b :: rest) bl (bl + 2) 510 (bit + 1) with
            | leaf v c => exact decodeLoop_tail nodes a b rest length bl fuel _ _
            | deadEnd v c => exact decodeLoop_tail nodes a b rest length bl fuel _ _
            | error => rfl
            | oob => rfl
            | outOfFuel => rfl
        · cases literal (b :: rest) length (bit + 1) with
          | none => rfl
          | some o =>
            cases o with
            | none => rfl
            | some v =>
              simp only
              split
              · rfl
              · exact decodeLoop_tail nodes a b rest length bl fuel _ _
    · rfl

/-- C9. Reserved header bits are ignored by the decoder: two buffers with the same bytes
after byte 0, whose bytes 0 both have bit 7 set and have the same low four bits (so that they
differ at most in bits 6-4), get the same result from `decompress`: the same output, or a
failure on both. -/
theorem C9_reserved_bits_ignored (d0 d1 : Nat) (rest : List Nat)
    (h0 : d0 >>> 7 ≠ 0) (h1 : d1 >>> 7 ≠ 0) (hlow : d0 &&& 0x0F = d1 &&& 0x0F) :
    decompress nodes_ (d0 :: rest) = decompress nodes_ (d1 :: rest) := by
  unfold decompress
  simp only [List.length_cons, List.getElem?_cons_zero]
  rw [if_pos h0, if_pos h1, hlow, decodeLoop_tail nodes_ d0 d1 rest]

theorem C9_reserved_bits_ignored_witness :
    (0x80 >>> 7 ≠ 0) ∧ (0xF0 >>> 7 ≠ 0) ∧ (0x80 &&& 0x0F = 0xF0 &&& 0x0F)
      ∧ decompress nodes_ [0x80, 0xFF] = decompress nodes_ [0xF0, 0xFF] :=
  ⟨by decide, by decide, by decide,
    C9_reserved_bits_ignored 0x80 0xF0 [0xFF] (by decide) (by decide) (by decide)⟩

/-- C8 as amended. Decompress passthrough: for every buffer whose length is not a multiple of
`2 ^ 32` (in particular every length from 1 to `2 ^ 32 - 1`) and whose first byte has bit 7
clear, `decompress` returns the input unchanged and reports no error, whatever the low bits
of the first byte and the remaining bytes are. -/
theorem C8_passthrough (d0 : Nat) (rest : List Nat) (hflag : d0 >>> 7 = 0)
    (hlen : (d0 :: rest).length % 2 ^ 32 ≠ 0) :
    decompress nodes_ (d0 :: rest) = .ok (d0 :: rest) := by
  unfold decompress
  have h1 : ¬ ¬ (d0 :: rest).length % 2 ^ 32 > 0 := by omega
  rw [if_neg h1]
  simp only [List.getElem?_cons_zero]
  have h2 : ¬ d0 >>> 7 ≠ 0 := by simp [hflag]
  rw [if_neg h2]

theorem C8_passthrough_witness :
    (0x7F >>> 7 = 0) ∧ ([0x7F, 0xFF, 3].length % 2 ^ 32 ≠ 0)
      ∧ decompress nodes_ [0x7F, 0xFF, 3] = .ok [0x7F, 0xFF, 3] :=
  ⟨by decide, by decide, C8_passthrough 0x7F [0xFF, 3] (by decide) (by decide)⟩

/-- C8 as stated fails: a buffer of `2 ^ 32` zero bytes has length at least 1 and bit 7 of its
first byte clear, but `length`, the size cast to `uint32_t`, is 0 and the precondition
`length > 0` of line 138 throws. -/
theorem C8_counterexample :
    1 ≤ (List.replicate 4294967296 0).length
      ∧ (List.replicate 4294967296 0)[0]? = some 0
      ∧ decompress nodes_ (List.replicate 4294967296 0) = .error := by
  refine ⟨?_, ?_, ?_⟩
  · rw [List.length_replicate]; decide
  · rw [List.getElem?_replicate]; rfl
  · unfold decompress
    rw [List.length_replicate]
    rfl

set_option maxRecDepth 1000000 in
theorem remainder_nine_eval : decompress builtNodes [0x89, 117, 0] = .ok [17] := by
  decide!

/-- C10 as stated fails: the 3-byte buffer `89 75 00` (hex) has the compressed flag set and
remainder 9, and `decompress` returns the one-byte output `[17]`. -/
theorem C10_counterexample :
    (0x89 >>> 7 ≠ 0) ∧ (0x89 &&& 0x0F = 9) ∧ decompress nodes_ [0x89, 117, 0] = .ok [17] := by
  rw [nodes_eq]
  exact ⟨by decide, by decide, remainder_nine_eval⟩

/-- C10 as amended. A buffer whose header byte has the compressed flag set and the low four
bits equal to 9 is rejected with a decode error whenever its payload has fewer than 9 bits,
that is for the lengths 1 and 2 (the guard `remainder > bit_length` of line 150). -/
theorem C10_remainder_nine_short (d0 : Nat) (rest : List Nat) (hflag : d0 >>> 7 ≠ 0)
    (hrem : d0 &&& 0x0F = 9) (hlen : rest.length ≤ 1) :
    decompress nodes_ (d0 :: rest) = .error := by
  unfold decompress
  simp only [List.length_cons, List.getElem?_cons_zero]
  have h1 : (rest.length + 1) % 2 ^ 32 = rest.length + 1 := Nat.mod_eq_of_lt (by omega)
  rw [h1, if_pos hflag, hrem]
  have h2 : ¬ ¬ rest.length + 1 > 0 := by omega
  rw [if_neg h2]
  have h3 : 9 > (rest.length + 1 - 1) * 8 % 2 ^ 32 := by
    have : rest.length = 0 ∨ rest.length = 1 := by omega
    rcases this with h | h <;> rw [h] <;> decide
  rw [if_pos h3]

theorem C10_remainder_nine_short_witness :
    (0x89 >>> 7 ≠ 0) ∧ (0x89 &&& 0x0F = 9) ∧ ([117].length ≤ 1)
      ∧ decompress nodes_ [0x89, 117] = .error :=
  ⟨by decide, by decide, by decide,
    C10_remainder_nine_short 0x89 [117] (by decide) (by decide) (by decide)⟩

set_option maxRecDepth 1000000 in
theorem walk_past_end_eval : decompress builtNodes [0x80, 0xF5] = .oob := by
  decide!

/-- C2, at the failing input. On the 2-byte buffer `80 F5` (hex) the payload is the single
byte `ptr[0]`; after the 7-bit code of byte 17 the control bit at bit 7 is 1, the cursor
becomes 8 = `bit_length`, and the read `ptr[bit / 8]` of line 168 is `ptr[1]`, one byte past
the buffer: the call performs a read outside the buffer. -/
theorem C2_read_past_buffer : decompress nodes_ [0x80, 0xF5] = .oob := by
  rw [nodes_eq]
  exact walk_past_end_eval

theorem bitCount_replicate (nodes : Mem Node) (b : Nat) : ∀ (n acc : Nat),
    bitCount nodes (List.replicate n b) acc
      = if n = 0 then acc else (acc + n * (nodes.get b).bits) % 2 ^ 32
  | 0, acc => by simp [bitCount]
  | n + 1, acc => by
    rw [List.replicate_succ, bitCount, bitCount_replicate nodes b n]
    by_cases hn : n = 0
    · subst hn
      simp
    · rw [if_neg hn, if_neg (by omega)]
      rw [Nat.add_mod, Nat.mod_mod, ← Nat.add_mod]
      congr 1
      ring

theorem codeBits_replicate (nodes : Mem Node) (b : Nat) : ∀ (n : Nat),
    codeBits nodes (List.replicate n b) = n * (nodes.get b).bits
  | 0 => by simp [codeBits]
  | n + 1 => by
    rw [List.replicate_succ, codeBits, codeBits_replicate nodes b n]
    ring

theorem compress_replicate (nodes : Mem Node) (n b : Nat) (hn2 : n + 1 < 2 ^ 32)
    (hb : b >>> 7 = 0) :
    compress nodes (List.replicate (n + 1) b) =
      if lengthOut (((n + 1) * (nodes.get b).bits) % 2 ^ 32) ≥ n + 1 then
        .ok (List.replicate (n + 1) b)
      else
        match writeAll nodes (List.replicate (n + 1) b)
            (startWriter (((n + 1) * (nodes.get b).bits) % 2 ^ 32)) with
        | none => .oob
        | some w =>
          match w.buf[0]? with
          | none => .oob
          | some h => .ok (w.buf.set 0 ((h ||| (1 <<< 7)) % 256)) := by
  unfold compress
  have h0 : (List.replicate (n + 1) b)[0]? = some b := by
    rw [List.getElem?_replicate]
    simp
  rw [h0]
  simp only
  have hb2 : ¬ ¬ b >>> 7 = 0 := by simp [hb]
  rw [if_neg hb2, List.length_replicate, Nat.mod_eq_of_lt hn2, List.take_replicate,
    Nat.min_self, bitCount_replicate, if_neg (Nat.succ_ne_zero n), Nat.zero_add]
  rfl

theorem compress_overflow (nodes : Mem Node) (n b : Nat) (hn2 : n + 1 < 2 ^ 32)
    (hb : b >>> 7 = 0)
    (hlen : ¬ lengthOut (((n + 1) * (nodes.get b).bits) % 2 ^ 32) ≥ n + 1)
    (hw : DoWriteBits (startWriter (((n + 1) * (nodes.get b).bits) % 2 ^ 32))
      (nodes.get b).val (nodes.get b).bits = none) :
    compress nodes (List.replicate (n + 1) b) = .oob := by
  rw [compress_replicate nodes n b hn2 hb, if_neg hlen, List.replicate_succ, writeAll, hw]

set_option maxRecDepth 1000000 in
theorem overflow_four_eval :
    (¬ lengthOut (((477218588 + 1) * (builtNodes.get 4).bits) % 2 ^ 32) ≥ 477218588 + 1)
      ∧ DoWriteBits (startWriter (((477218588 + 1) * (builtNodes.get 4).bits) % 2 ^ 32))
          (builtNodes.get 4).val (builtNodes.get 4).bits = none
      ∧ (builtNodes.get 4).bits = 9 := by
  decide!

theorem compress_four_oob : compress builtNodes (List.replicate (477218588 + 1) 4) = .oob :=
  compress_overflow builtNodes 477218588 4 (by decide) (by decide) overflow_four_eval.1
    overflow_four_eval.2.1

/-- C19, at the failing input. For the input of 477218589 bytes of value 4 (first byte below
`0x80`; each byte has a 9-bit code) the `uint32_t` bit count wraps to 5, `length_out` is 2 and
the compressed path is taken; the first `DoWriteBits` call writes its ninth bit at offset 2 of
the 2-byte output buffer: a write outside the buffer. -/
theorem C19_write_past_buffer :
    (List.replicate (477218588 + 1) 4)[0]? = some 4
      ∧ lengthOut (((477218588 + 1) * (nodes_.get 4).bits) % 2 ^ 32) = 2
      ∧ DoWriteBits (startWriter (((477218588 + 1) * (nodes_.get 4).bits) % 2 ^ 32))
          (nodes_.get 4).val (nodes_.get 4).bits = none
      ∧ compress nodes_ (List.replicate (477218588 + 1) 4) = .oob := by
  rw [nodes_eq]
  refine ⟨?_, ?_, overflow_four_eval.2.1, compress_four_oob⟩
  · rw [List.getElem?_replicate]; rfl
  · rw [overflow_four_eval.2.2]; decide

/-! ## One merge on an arbitrary table -/

theorem exists_unparented (t : Mem Node) : ∀ (n : Nat), 1 ≤ unparented t n →
    ∃ a, a < n ∧ (t.get a).parent = 0
  | 0, h => by simp [unparented] at h
  | n + 1, h => by
    by_cases hp : (t.get n).parent = 0
    · exact ⟨n, by omega, hp⟩
    · simp only [unparented, if_neg hp, Nat.add_zero] at h
      obtain ⟨a, ha, ha0⟩ := exists_unparented t n h
      exact ⟨a, by omega, ha0⟩

theorem exists_two_unparented (t : Mem Node) : ∀ (n : Nat), 2 ≤ unparented t n →
    ∃ a b, a < b ∧ b < n ∧ (t.get a).parent = 0 ∧ (t.get b).parent = 0
  | 0, h => by simp [unparented] at h
  | n + 1, h => by
    by_cases hp : (t.get n).parent = 0
    · simp only [unparented, if_pos hp] at h
      obtain ⟨a, ha, ha0⟩ := exists_unparented t n (by omega)
      exact ⟨a, n, ha, by omega, ha0, hp⟩
    · simp only [unparented, if_neg hp, Nat.add_zero] at h
      obtain ⟨a, b, hab, hb, ha0, hb0⟩ := exists_two_unparented t n h
      exact ⟨a, b, hab, by omega, ha0, hb0⟩

theorem mergeStep_selection (t : Mem Node) (nc : Nat) (hnc : nc ≤ 510)
    (h2 : ∃ a b, a < b ∧ b < nc ∧ (t.get a).parent = 0 ∧ (t.get b).parent = 0) :
    mergeStep t nc = link t nc (selection t nc).1 (selection t nc).2 := by
  obtain ⟨a, b, hab, hb, ha0, hb0⟩ := h2
  obtain ⟨c1, c2, rest, hc⟩ := two_cands t nc a b hab hb ha0 hb0
  obtain ⟨_, e2, e3, e4, e5⟩ := selection_cands t nc c1 c2 rest (by omega) hc
  unfold mergeStep selection
  simp only
  rw [e2, e3]
  have n1 : ¬ 511 ≤ c1.1 := by omega
  have n2 : ¬ 511 ≤ c2.1 := by omega
  rw [if_neg n1, if_neg n2]

theorem unparentedSum_nonneg (t : Mem Node) : ∀ (n : Nat),
    (∀ i, i < n → 0 ≤ (t.get i).frequency) → 0 ≤ unparentedSum t n
  | 0, _ => le_refl _
  | n + 1, h => by
    have ih := unparentedSum_nonneg t n (fun i hi => h i (by omega))
    have hn := h n (by omega)
    simp only [unparentedSum]
    split_ifs <;> omega

theorem one_le_sum (t : Mem Node) (a : Nat) (ha : (t.get a).parent = 0) : ∀ (n : Nat),
    (∀ i, i < n → 0 ≤ (t.get i).frequency) → a < n →
    (t.get a).frequency ≤ unparentedSum t n
  | 0, _, h => by omega
  | n + 1, h, han => by
    have hnn := unparentedSum_nonneg t n (fun i hi => h i (by omega))
    have hn := h n (by omega)
    simp only [unparentedSum]
    by_cases e : a = n
    · subst e
      rw [if_pos ha]
      omega
    · have ih := one_le_sum t a ha n (fun i hi => h i (by omega)) (by omega)
      split_ifs <;> omega

theorem pair_le_sum (t : Mem Node) (a b : Nat) (hab : a < b) (ha : (t.get a).parent = 0)
    (hb : (t.get b).parent = 0) : ∀ (n : Nat),
    (∀ i, i < n → 0 ≤ (t.get i).frequency) → b < n →
    (t.get a).frequency + (t.get b).frequency ≤ unparentedSum t n
  | 0, _, h => by omega
  | n + 1, h, hbn => by
    have hn := h n (by omega)
    simp only [unparentedSum]
    by_cases e : b = n
    · subst e
      rw [if_pos hb]
      have := one_le_sum t a ha b (fun i hi => h i (by omega)) hab
      omega
    · have ih := pair_le_sum t a b hab ha hb n (fun i hi => h i (by omega)) (by omega)
      split_ifs <;> omega

theorem sum_link (t t1 : Mem Node) (a b : Nat) (hab : a ≠ b)
    (ha : (t.get a).parent = 0) (hb : (t.get b).parent = 0)
    (ha1 : (t1.get a).parent ≠ 0) (hb1 : (t1.get b).parent ≠ 0) : ∀ (n : Nat),
    (∀ j, j < n → j ≠ a → j ≠ b → (t1.get j).parent = (t.get j).parent
      ∧ (t1.get j).frequency = (t.get j).frequency) →
    unparentedSum t1 n + (if a < n then (t.get a).frequency else 0)
      + (if b < n then (t.get b).frequency else 0) = unparentedSum t n
  | 0, _ => by simp [unparentedSum]
  | n + 1, h => by
    have ih := sum_link t t1 a b hab ha hb ha1 hb1 n (fun j hj => h j (by omega))
    simp only [unparentedSum]
    by_cases hna : n = a
    · subst hna
      rw [if_neg ha1, if_pos ha]
      have hbn : b ≠ n := Ne.symm hab
      split_ifs at ih ⊢ <;> omega
    · by_cases hnb : n = b
      · subst hnb
        rw [if_neg hb1, if_pos hb]
        split_ifs at ih ⊢ <;> omega
      · rw [(h n (by omega) hna hnb).1, (h n (by omega) hna hnb).2]
        split_ifs at ih ⊢ <;> omega

theorem link_some (t : Mem Node) (nc a b : Nat)
    (h1 : 0 ≤ (t.get a).frequency + (t.get b).frequency)
    (h2 : (t.get a).frequency + (t.get b).frequency ≤ 2147483647) :
    ∃ t1, link t nc a b = some t1 := by
  rw [link_eq, if_neg (by omega)]
  exact ⟨_, rfl⟩

theorem link_fields (t t1 : Mem Node) (nc a b : Nat) (hp : Mem.Perfect 9 t)
    (hl : link t nc a b = some t1) (ha : a < nc) (hb : b < nc) (hnc : nc < 512)
    (hab : a ≠ b) (j : Nat) (hj : j < 512) :
    (t1.get j).frequency
        = (if j = nc then (t.get a).frequency + (t.get b).frequency else (t.get j).frequency)
      ∧ (t1.get j).left_child = (if j = nc then (b : Int) else (t.get j).left_child)
      ∧ (t1.get j).right_child = (if j = nc then (a : Int) else (t.get j).right_child)
      ∧ (t1.get j).parent
          = (if j = a ∨ j = b then (nc - 255) % 256 else (t.get j).parent) := by
  rw [link_get t t1 nc a b hp hl (by omega) (by omega) hnc (by omega) (by omega) hab j hj]
  by_cases h1 : j = nc
  · subst h1
    have n1 : ¬ (j = a ∨ j = b) := by omega
    simp only [if_true, if_neg n1, and_self]
  · by_cases h2 : j = a
    · subst h2
      simp only [if_neg h1, if_true, true_or, and_self]
    · by_cases h3 : j = b
      · subst h3
        simp only [if_neg h1, if_neg h2, if_true, or_true, and_self]
      · have n1 : ¬ (j = a ∨ j = b) := by omega
        simp only [if_neg h1, if_neg h2, if_neg h3, if_neg n1, and_self]

theorem merge_inv (t : Mem Node) (nc : Nat) (total : Int) (h : TreeInv t nc total)
    (h256 : 256 ≤ nc) (h510 : nc ≤ 510) (htot : total ≤ 2147483647) :
    ∃ t1, mergeStep t nc = some t1 ∧ TreeInv t1 (nc + 1) total := by
  have hcnt := h.count
  have h2 := exists_two_unparented t nc (by omega)
  obtain ⟨hne, hs1, hs2, hp1, hp2, _⟩ := selection_minimal t nc (by omega) h2
  have hm := mergeStep_selection t nc h510 h2
  rcases hsel : selection t nc with ⟨a, b⟩
  rw [hsel] at hne hs1 hs2 hp1 hp2 hm
  simp only at hne hs1 hs2 hp1 hp2 hm
  have hfa := h.nonneg a hs1
  have hfb := h.nonneg b hs2
  have hle : (t.get a).frequency + (t.get b).frequency ≤ total := by
    rw [← h.sum]
    rcases Nat.lt_or_gt_of_ne hne with hab | hab
    · exact pair_le_sum t a b hab hp1 hp2 nc h.nonneg hs2
    · have := pair_le_sum t b a hab hp2 hp1 nc h.nonneg hs1
      omega
  obtain ⟨t1, hl⟩ := link_some t nc a b (by omega) (by omega)
  have hF := link_fields t t1 nc a b h.perfect hl hs1 hs2 (by omega) hne
  have hP : (nc - 255) % 256 = nc - 255 := Nat.mod_eq_of_lt (by omega)
  have hfn : (t.get nc).parent = 0 := h.fresh nc (le_refl _) (by omega)
  have hpa : (t1.get a).parent = nc - 255 := by
    rw [(hF a (by omega)).2.2.2, if_pos (Or.inl rfl), hP]
  have hpb : (t1.get b).parent = nc - 255 := by
    rw [(hF b (by omega)).2.2.2, if_pos (Or.inr rfl), hP]
  have hpo : ∀ j, j < 512 → j ≠ a → j ≠ b → (t1.get j).parent = (t.get j).parent := by
    intro j hj hja hjb
    have n1 : ¬ (j = a ∨ j = b) := by omega
    rw [(hF j hj).2.2.2, if_neg n1]
  have hfo : ∀ j, j < 512 → j ≠ nc → (t1.get j).frequency = (t.get j).frequency := by
    intro j hj hjn
    rw [(hF j hj).1, if_neg hjn]
  have hlo : ∀ j, j < 512 → j ≠ nc → (t1.get j).left_child = (t.get j).left_child := by
    intro j hj hjn
    rw [(hF j hj).2.1, if_neg hjn]
  have hro : ∀ j, j < 512 → j ≠ nc → (t1.get j).right_child = (t.get j).right_child := by
    intro j hj hjn
    rw [(hF j hj).2.2.1, if_neg hjn]
  have hfN : (t1.get nc).frequency = (t.get a).frequency + (t.get b).frequency := by
    rw [(hF nc (by omega)).1, if_pos rfl]
  have hlN : (t1.get nc).left_child = (b : Int) := by
    rw [(hF nc (by omega)).2.1, if_pos rfl]
  have hrN : (t1.get nc).right_child = (a : Int) := by
    rw [(hF nc (by omega)).2.2.1, if_pos rfl]
  have hpN : (t1.get nc).parent = 0 := by
    rw [hpo nc (by omega) (by omega) (by omega)]
    exact hfn
  refine ⟨t1, hm.trans hl, ?_⟩
  refine ⟨link_perfect t t1 nc a b h.perfect hl, ?_, ?_, ?_, ?_, ?_, ?_, ?_⟩
  · intro i hi1 hi2
    rw [hpo i hi2 (by omega) (by omega)]
    exact h.fresh i (by omega) hi2
  · intro i hi
    rw [hlo i (by omega) (by omega), hro i (by omega) (by omega)]
    exact h.leaf i hi
  · intro i hi1 hi2
    by_cases hin : i = nc
    · subst hin
      refine ⟨a, b, hs1, hs2, hne, hrN, hlN, ?_, ?_, ?_⟩
      · rw [hfN, hfo a (by omega) (by omega), hfo b (by omega) (by omega)]
      · rw [hpa]; omega
      · rw [hpb]; omega
    · obtain ⟨a2, b2, q1, q2, q3, q4, q5, q6, q7, q8⟩ := h.inner i hi1 (by omega)
      have na : a2 ≠ a := by
        intro e
        rw [e, hp1] at q7
        omega
      have na2 : a2 ≠ b := by
        intro e
        rw [e, hp2] at q7
        omega
      have nb : b2 ≠ a := by
        intro e
        rw [e, hp1] at q8
        omega
      have nb2 : b2 ≠ b := by
        intro e
        rw [e, hp2] at q8
        omega
      refine ⟨a2, b2, q1, q2, q3, ?_, ?_, ?_, ?_, ?_⟩
      · rw [hro i (by omega) hin]; exact q4
      · rw [hlo i (by omega) hin]; exact q5
      · rw [hfo i (by omega) hin, hfo a2 (by omega) (by omega), hfo b2 (by omega) (by omega)]
        exact q6
      · rw [hpo a2 (by omega) na na2]; exact q7
      · rw [hpo b2 (by omega) nb nb2]; exact q8
  · intro i hi hpi
    by_cases hia : i = a
    · subst hia
      rw [hpa]
      have e : nc - 255 + 255 = nc := by omega
      rw [e]
      exact ⟨h256, by omega, hs1, Or.inr hrN⟩
    · by_cases hib : i = b
      · subst hib
        rw [hpb]
        have e : nc - 255 + 255 = nc := by omega
        rw [e]
        exact ⟨h256, by omega, hs2, Or.inl hlN⟩
      · rw [hpo i (by omega) hia hib] at hpi ⊢
        have hin : i ≠ nc := by
          intro e
          rw [e] at hpi
          exact hpi hfn
        obtain ⟨u1, u2, u3, u4⟩ := h.up i (by omega) hpi
        refine ⟨u1, by omega, u3, ?_⟩
        rw [hlo _ (by omega) (by omega), hro _ (by omega) (by omega)]
        exact u4
  · intro i hi
    by_cases hin : i = nc
    · subst hin
      rw [hfN]
      omega
    · rw [hfo i (by omega) hin]
      exact h.nonneg i (by omega)
  · have hs := sum_link t t1 a b hne hp1 hp2 (by rw [hpa]; omega) (by rw [hpb]; omega) nc
      (fun j hj hja hjb => ⟨hpo j (by omega) hja hjb, hfo j (by omega) (by omega)⟩)
    rw [if_pos hs1, if_pos hs2] at hs
    simp only [unparentedSum]
    rw [if_pos hpN, hfN, ← h.sum]
    omega
  · have hc := count_link t t1 a b hne hp1 hp2 (by rw [hpa]; omega) (by rw [hpb]; omega) nc
      (fun j hj hja hjb => hpo j (by omega) hja hjb)
    rw [if_pos hs1, if_pos hs2] at hc
    simp only [unparented]
    rw [if_pos hpN]
    omega

theorem loop_inv (t0 : Mem Node) (total : Int) (h0 : TreeInv t0 256 total)
    (htot : total ≤ 2147483647) : ∀ (k : Nat), k ≤ 255 →
    ∃ t, mergeLoop k 256 t0 = some t ∧ TreeInv t (256 + k) total
  | 0, _ => ⟨t0, rfl, h0⟩
  | k + 1, hk => by
    obtain ⟨t, e, hi⟩ := loop_inv t0 total h0 htot k (by omega)
    obtain ⟨t1, e1, hi1⟩ := merge_inv t (256 + k) total hi (by omega) (by omega) htot
    refine ⟨t1, ?_, hi1⟩
    rw [mergeLoop_succ, e]
    simp only
    rw [if_pos (by omega), e1]

/-! ## The start of the merge loop and the code-storing loop on an arbitrary table -/

theorem loadFreqs_get (freqs : List Int) : ∀ (fuel i : Nat) (m : Mem Node) (j : Nat),
    Mem.Perfect 9 m → j < 512 →
    (loadFreqs freqs fuel i m).get j =
      if i ≤ j ∧ j < i + fuel ∧ j < 256 then { m.get j with frequency := freqs.getD j 0 }
      else m.get j
  | 0, i, m, j, _, _ => by
    have n1 : ¬ (i ≤ j ∧ j < i + 0 ∧ j < 256) := by omega
    rw [if_neg n1]
    rfl
  | fuel + 1, i, m, j, h, hj => by
    unfold loadFreqs
    by_cases hi : i < 256
    · rw [if_pos hi, loadFreqs_get freqs fuel (i + 1) _ j (Mem.perfect_set 9 _ _ _ h) hj,
        Mem.get_set 9 m i j _ h (by norm_num; omega) (by norm_num; omega)]
      by_cases hij : i = j
      · subst hij
        have n1 : ¬ (i + 1 ≤ i ∧ i < i + 1 + fuel ∧ i < 256) := by omega
        have n2 : i ≤ i ∧ i < i + (fuel + 1) ∧ i < 256 := by omega
        rw [if_neg n1, if_pos n2, if_pos rfl]
      · rw [if_neg hij]
        by_cases hc : i + 1 ≤ j ∧ j < i + 1 + fuel ∧ j < 256
        · have n2 : i ≤ j ∧ j < i + (fuel + 1) ∧ j < 256 := by omega
          rw [if_pos hc, if_pos n2]
        · have n2 : ¬ (i ≤ j ∧ j < i + (fuel + 1) ∧ j < 256) := by omega
          rw [if_neg hc, if_neg n2]
    · have n2 : ¬ (i ≤ j ∧ j < i + (fuel + 1) ∧ j < 256) := by omega
      rw [if_neg hi, if_neg n2]

theorem start_get (freqs : List Int) (j : Nat) (hj : j < 512) :
    (loadFreqs freqs 256 0 (Mem.fill 9 {})).get j =
      if j < 256 then { ({} : Node) with frequency := freqs.getD j 0 } else {} := by
  rw [loadFreqs_get freqs 256 0 _ j (Mem.perfect_fill 9 _) hj, fill_get]
  by_cases h : j < 256
  · have n : 0 ≤ j ∧ j < 0 + 256 ∧ j < 256 := by omega
    rw [if_pos h, if_pos n]
  · have n : ¬ (0 ≤ j ∧ j < 0 + 256 ∧ j < 256) := by omega
    rw [if_neg h, if_neg n]

theorem start_sum (freqs : List Int) : ∀ (n : Nat), n ≤ 256 → n ≤ freqs.length →
    unparentedSum (loadFreqs freqs 256 0 (Mem.fill 9 {})) n = (freqs.take n).sum
  | 0, _, _ => by
    rw [List.take_zero]
    rfl
  | n + 1, h1, h2 => by
    simp only [unparentedSum]
    rw [start_sum freqs n (by omega) (by omega), if_pos (start_parent freqs n (by omega)),
      start_get freqs n (by omega), if_pos (by omega), List.sum_take_succ freqs n (by omega),
      List.getD_eq_getElem freqs 0 (by omega)]

theorem start_inv (freqs : List Int) (t0 : Mem Node) (hlen : freqs.length = 256)
    (hnn : ∀ f ∈ freqs, 0 ≤ f) (hp : Mem.Perfect 9 t0) (hf : Fresh t0 256)
    (hg : ∀ j, j < 512 →
      t0.get j = if j < 256 then { ({} : Node) with frequency := freqs.getD j 0 } else {})
    (hs : unparentedSum t0 256 = (freqs.take 256).sum) (hu : unparented t0 256 = 256) :
    TreeInv t0 256 freqs.sum := by
  refine ⟨hp, hf, ?_, ?_, ?_, ?_, ?_, ?_⟩
  · intro i hi
    rw [hg i (by omega), if_pos hi]
    exact ⟨rfl, rfl⟩
  · intro i h1 h2
    omega
  · intro i hi hpi
    rw [hg i (by omega), if_pos hi] at hpi
    exact absurd rfl hpi
  · intro i hi
    rw [hg i (by omega), if_pos hi]
    show 0 ≤ freqs.getD i 0
    rw [List.getD_eq_getElem freqs 0 (by omega)]
    exact hnn _ (List.getElem_mem _)
  · rw [hs]
    have e : List.take 256 freqs = freqs := List.take_of_length_le (by omega)
    rw [e]
  · rw [hu]

theorem climb_some (t : Mem Node)
    (hup : ∀ i, i < 511 → (t.get i).parent ≠ 0 →
      i < (t.get i).parent + 255 ∧ (t.get i).parent + 255 < 511) :
    ∀ (fuel index val bits : Nat), index < 511 → 510 - index < fuel →
    ∃ c, climb t fuel index val bits = some c
  | 0, _, _, _, _, h => by omega
  | fuel + 1, index, val, bits, hi, hf => by
    unfold climb
    by_cases hp : (t.get index).parent ≠ 0
    · rw [if_pos hp]
      obtain ⟨u1, u2⟩ := hup index hi hp
      split
      · exact climb_some t hup fuel _ _ _ u2 (by omega)
      · exact climb_some t hup fuel _ _ _ u2 (by omega)
    · rw [if_neg hp]
      exact ⟨_, rfl⟩

theorem storeCodes_same (t : Mem Node)
    (hup : ∀ i, i < 511 → (t.get i).parent ≠ 0 →
      i < (t.get i).parent + 255 ∧ (t.get i).parent + 255 < 511) :
    ∀ (fuel i : Nat) (t2 : Mem Node), SameTree t t2 →
    ∃ t3, storeCodes fuel i t2 = some t3 ∧ SameTree t t3
  | 0, _, t2, h => ⟨t2, rfl, h⟩
  | fuel + 1, i, t2, h => by
    unfold storeCodes
    by_cases hi : i < 256
    · rw [if_pos hi]
      have hup2 : ∀ j, j < 511 → (t2.get j).parent ≠ 0 →
          j < (t2.get j).parent + 255 ∧ (t2.get j).parent + 255 < 511 := by
        intro j hj hp
        rw [(h.2 j (by omega)).1] at hp ⊢
        exact hup j hj hp
      obtain ⟨c, hc⟩ := climb_some t2 hup2 511 i 0 0 (by omega) (by omega)
      rw [hc]
      simp only
      apply storeCodes_same t hup fuel (i + 1)
      refine ⟨Mem.perfect_set 9 _ _ _ h.1, ?_⟩
      intro j hj
      rw [Mem.get_set 9 t2 i j _ h.1 (by norm_num; omega) (by norm_num; omega)]
      by_cases hij : i = j
      · subst hij
        rw [if_pos rfl]
        exact h.2 i hj
      · rw [if_neg hij]
        exact h.2 j hj
    · rw [if_neg hi]
      exact ⟨t2, rfl, h⟩

theorem unparented_zero (t : Mem Node) : ∀ (n : Nat), unparented t n = 0 →
    ∀ i, i < n → (t.get i).parent ≠ 0
  | 0, _, i, hi => by omega
  | n + 1, h, i, hi => by
    simp only [unparented] at h
    by_cases hp : (t.get n).parent = 0
    · rw [if_pos hp] at h
      omega
    · rw [if_neg hp] at h
      by_cases e : i = n
      · subst e
        exact hp
      · exact unparented_zero t n (by omega) i (by omega)

theorem root_reach (t : Mem Node)
    (h1 : ∀ i, i < 511 → ((t.get i).parent = 0 ↔ i = 510))
    (h2 : ∀ i, i < 510 → i < (t.get i).parent + 255 ∧ (t.get i).parent + 255 ≤ 510) :
    ∀ (fuel i : Nat), i < 511 → 510 - i < fuel → ancestor t (depthOf t fuel i) i = 510
  | 0, _, _, h => by omega
  | fuel + 1, i, hi, hf => by
    unfold depthOf
    by_cases hp : (t.get i).parent ≠ 0
    · rw [if_pos hp]
      have hi2 : i < 510 := by
        by_contra hn
        have e : i = 510 := by omega
        exact hp ((h1 i hi).mpr e)
      obtain ⟨u1, u2⟩ := h2 i hi2
      have ih := root_reach t h1 h2 fuel ((t.get i).parent + 255) (by omega) (by omega)
      unfold ancestor
      exact ih
    · rw [if_neg hp]
      have e := (h1 i hi).mp (by simpa using hp)
      subst e
      rfl

theorem wellFormed_of_inv (t t3 : Mem Node) (total : Int) (h : TreeInv t 511 total)
    (hs : SameTree t t3) : WellFormed t3 := by
  have h510 : (t.get 510).parent = 0 := by
    by_contra hn
    have := h.up 510 (by omega) hn
    omega
  have hcount := h.count
  have hz : unparented t 510 = 0 := by
    have e : unparented t 511 = unparented t 510 + 1 := by
      show unparented t 510 + (if (t.get 510).parent = 0 then 1 else 0) = _
      rw [if_pos h510]
    omega
  have hpz := unparented_zero t 510 hz
  have P1 : ∀ i, i < 511 → ((t3.get i).parent = 0 ↔ i = 510) := by
    intro i hi
    rw [(hs.2 i (by omega)).1]
    constructor
    · intro hp
      by_contra hn
      exact hpz i (by omega) hp
    · intro e
      subst e
      exact h510
  have P2 : ∀ i, i < 510 →
      256 ≤ (t3.get i).parent + 255 ∧ (t3.get i).parent + 255 ≤ 510
        ∧ i < (t3.get i).parent + 255
        ∧ (((t3.get ((t3.get i).parent + 255)).left_child = (i : Int)
              ∧ (t3.get ((t3.get i).parent + 255)).right_child ≠ (i : Int))
            ∨ ((t3.get ((t3.get i).parent + 255)).left_child ≠ (i : Int)
              ∧ (t3.get ((t3.get i).parent + 255)).right_child = (i : Int))) := by
    intro i hi
    rw [(hs.2 i (by omega)).1]
    obtain ⟨u1, u2, u3, u4⟩ := h.up i (by omega) (hpz i hi)
    rw [(hs.2 _ (by omega)).2.1, (hs.2 _ (by omega)).2.2.1]
    obtain ⟨a, b, _, _, q3, q4, q5, _⟩ := h.inner _ u1 u2
    refine ⟨u1, by omega, u3, ?_⟩
    rw [q4, q5] at u4 ⊢
    rcases u4 with e | e
    · left
      refine ⟨e, ?_⟩
      intro e2
      have : (a : Int) = (b : Int) := e2.trans e.symm
      omega
    · right
      refine ⟨?_, e⟩
      intro e2
      have : (a : Int) = (b : Int) := e.trans e2.symm
      omega
  intro i hi
  refine ⟨P1 i hi, P2 i, ?_, ?_, ?_⟩
  · intro h256
    obtain ⟨a, b, q1, q2, q3, q4, q5, q6, _, _⟩ := h.inner i h256 hi
    rw [(hs.2 i (by omega)).2.1, (hs.2 i (by omega)).2.2.1, (hs.2 i (by omega)).2.2.2, q4, q5,
      Int.toNat_ofNat, Int.toNat_ofNat, (hs.2 a (by omega)).2.2.2, (hs.2 b (by omega)).2.2.2, q6]
    refine ⟨by omega, by omega, by omega, by omega, ?_, by omega⟩
    intro e
    omega
  · intro h256
    rw [(hs.2 i (by omega)).2.1, (hs.2 i (by omega)).2.2.1]
    exact h.leaf i h256
  · exact root_reach t3 P1 (fun j hj => ⟨(P2 j hj).2.2.1, (P2 j hj).2.1⟩) 511 i hi (by omega)

/-- Every run of `build` on a table of 256 non-negative frequencies whose sum is an `int`
returns, and returns a well-formed tree. -/
theorem build_wellFormed (freqs : List Int) (hlen : freqs.length = 256)
    (hnn : ∀ f ∈ freqs, 0 ≤ f) (hsum : freqs.sum ≤ 2147483647) :
    ∃ nodes, build freqs = some nodes ∧ WellFormed nodes := by
  obtain ⟨t, e, hi⟩ := loop_inv _ _
    (start_inv freqs _ hlen hnn (loadFreqs_perfect _ _ _ _ (Mem.perfect_fill 9 _))
      (fresh_start freqs) (start_get freqs)
      (start_sum freqs 256 (le_refl _) (le_of_eq hlen.symm)) (start_unparented freqs))
    hsum 255 (le_refl _)
  have hup : ∀ i, i < 511 → (t.get i).parent ≠ 0 →
      i < (t.get i).parent + 255 ∧ (t.get i).parent + 255 < 511 := by
    intro i hi1 hp
    obtain ⟨_, u2, u3, _⟩ := hi.up i hi1 hp
    exact ⟨u3, u2⟩
  obtain ⟨t3, e3, hs⟩ := storeCodes_same t hup 256 0 t ⟨hi.perfect, fun j _ => ⟨rfl, rfl, rfl, rfl⟩⟩
  refine ⟨t3, ?_, wellFormed_of_inv t t3 _ hi hs⟩
  unfold build
  rw [e]
  exact e3

/-- The tree built from the built-in table is well formed. -/
theorem built_wellFormed : WellFormed nodes_ := by
  rw [nodes_eq]
  intro i hi
  exact ⟨(tree_eval_parent i hi).1, (tree_eval_parent i hi).2, (tree_eval_children i hi).1,
    (tree_eval_children i hi).2, tree_eval_root i hi⟩

/-- C14 as amended. Tree well-formedness after `build()`, for any table of 256 non-negative
frequencies whose sum is at most `INT_MAX = 2147483647` (the built-in table is one): `build`
returns, and in the node array it leaves node 510 is the only node among `0..510` with no
parent; every node `i` in `0..509` has a parent index `p = parent + 255` with
`256 <= p <= 510` and `p > i`, and `i` is exactly one of `p`'s `left_child` / `right_child`;
every internal node `256..510` has two children, distinct nodes of smaller index, and its
frequency is the sum of theirs; the leaves `0..255` have no children; and the parent links of
every node lead to the root 510. -/
theorem C14_tree_well_formed (freqs : List Int) (hlen : freqs.length = 256)
    (hnn : ∀ f ∈ freqs, 0 ≤ f) (hsum : freqs.sum ≤ 2147483647) :
    ∃ nodes, build freqs = some nodes ∧ WellFormed nodes :=
  build_wellFormed freqs hlen hnn hsum

set_option maxRecDepth 1000000 in
theorem C14_tree_well_formed_witness :
    g_freqs.length = 256 ∧ (∀ f ∈ g_freqs, 0 ≤ f) ∧ g_freqs.sum ≤ 2147483647
      ∧ ∃ nodes, build g_freqs = some nodes ∧ WellFormed nodes :=
  ⟨by decide, by decide, by decide,
    C14_tree_well_formed g_freqs (by decide) (by decide) (by decide)⟩

/-! ## `DoWriteBits` and the payload of `compress` -/

theorem testBit_one (j : Nat) : (1 : Nat).testBit j = decide (0 = j) := by
  have h := @Nat.testBit_two_pow 0 j
  rw [pow_zero] at h
  exact h

theorem testBit_write (old val k bit j : Nat) (hj : j < 8) :
    ((old ||| (((val >>> k) &&& 1) <<< bit)) % 256).testBit j
      = (old.testBit j || (decide (j = bit) && val.testBit k)) := by
  have e : (256 : Nat) = 2 ^ 8 := by norm_num
  rw [e, Nat.testBit_mod_two_pow, Nat.testBit_or, Nat.testBit_shiftLeft, Nat.testBit_and,
    Nat.testBit_shiftRight, testBit_one]
  have hd : decide (j < 8) = true := by simp [hj]
  rw [hd, Bool.true_and]
  by_cases hjb : j = bit
  · subst hjb
    simp
  · have h1 : decide (j = bit) = false := by simp [hjb]
    rw [h1]
    by_cases hge : j ≥ bit
    · have h2 : decide (0 = j - bit) = false := by
        have : ¬ (0 = j - bit) := by omega
        simp [this]
      rw [h2]
      simp
    · have h2 : decide (j ≥ bit) = false := by simp [hge]
      rw [h2]
      simp

theorem getD_set (l : List Nat) (i j x : Nat) (hi : i < l.length) :
    (l.set i x).getD j 0 = if i = j then x else l.getD j 0 := by
  rw [List.getD_eq_getElem?_getD, List.getD_eq_getElem?_getD, List.getElem?_set]
  by_cases h : i = j
  · rw [if_pos h, if_pos h, if_pos hi]
    rfl
  · rw [if_neg h, if_neg h]

theorem writeBit_spec (w : Writer) (val k : Nat) (hb : w.bit < 8) (hp : w.ptr < w.buf.length)
    (hz : getBit w.buf (8 * w.ptr + w.bit) = false) :
    ∃ w2, writeBit w val k = some w2 ∧ w2.buf.length = w.buf.length ∧ w2.bit < 8
      ∧ 8 * w2.ptr + w2.bit = 8 * w.ptr + w.bit + 1
      ∧ (∀ c, getBit w2.buf c
          = if c = 8 * w.ptr + w.bit then val.testBit k else getBit w.buf c)
      ∧ (∀ i, i ≠ w.ptr → w2.buf.getD i 0 = w.buf.getD i 0)
      ∧ ((∀ i, w.buf.getD i 0 < 256) → ∀ i, w2.buf.getD i 0 < 256) := by
  have hg : w.buf[w.ptr]? = some (w.buf.getD w.ptr 0) := by
    rw [List.getD_eq_getElem?_getD, List.getElem?_eq_getElem hp]
    rfl
  unfold writeBit
  rw [hg]
  refine ⟨_, rfl, ?_, ?_, ?_, ?_, ?_, ?_⟩
  · exact List.length_set _ _ _
  · exact Nat.mod_lt _ (by norm_num)
  · simp only
    by_cases h7 : w.bit = 7
    · rw [if_pos h7, h7]
      omega
    · rw [if_neg h7, Nat.mod_eq_of_lt (by omega)]
      omega
  · intro c
    simp only
    unfold getBit at hz ⊢
    have e1 : (8 * w.ptr + w.bit) / 8 = w.ptr := by omega
    have e2 : (8 * w.ptr + w.bit) % 8 = w.bit := by omega
    rw [e1, e2] at hz
    rw [getD_set _ _ _ _ hp]
    by_cases hc : w.ptr = c / 8
    · rw [if_pos hc, testBit_write _ _ _ _ _ (Nat.mod_lt _ (by norm_num))]
      by_cases hcc : c = 8 * w.ptr + w.bit
      · rw [if_pos hcc]
        have e3 : c % 8 = w.bit := by omega
        rw [e3, hz]
        simp
      · rw [if_neg hcc]
        have e3 : ¬ (c % 8 = w.bit) := by omega
        have e4 : decide (c % 8 = w.bit) = false := by simp [e3]
        rw [e4, ← hc]
        simp
    · rw [if_neg hc]
      have hcc : ¬ (c = 8 * w.ptr + w.bit) := by omega
      rw [if_neg hcc]
  · intro i hi
    simp only
    rw [getD_set _ _ _ _ hp, if_neg (Ne.symm hi)]
  · intro hby i
    simp only
    rw [getD_set _ _ _ _ hp]
    split
    · exact Nat.mod_lt _ (by norm_num)
    · exact hby i

theorem getD_snoc (bits : List Bool) (v : Bool) (k : Nat) :
    (bits ++ [v]).getD k false
      = if k = bits.length then v else bits.getD k false := by
  rw [List.getD_eq_getElem?_getD, List.getD_eq_getElem?_getD]
  by_cases h : k < bits.length
  · rw [List.getElem?_append_left h, if_neg (by omega)]
  · rw [List.getElem?_append_right (by omega)]
    by_cases e : k = bits.length
    · rw [if_pos e, e, Nat.sub_self]
      rfl
    · rw [if_neg e, List.getElem?_eq_none (by simp; omega), List.getElem?_eq_none (by omega)]

theorem written_bit (w : Writer) (len hdr : Nat) (bits : List Bool) (val k : Nat)
    (h : Written w len hdr bits) (hroom : 8 + bits.length < 8 * len) :
    ∃ w2, writeBit w val k = some w2 ∧ Written w2 len hdr (bits ++ [val.testBit k]) := by
  have hc := h.cursor
  have hb := h.bit
  have hp : w.ptr < w.buf.length := by rw [h.length]; omega
  have hz : getBit w.buf (8 * w.ptr + w.bit) = false := by
    rw [hc, h.payload, List.getD_eq_getElem?_getD, List.getElem?_eq_none (le_refl _)]
    rfl
  obtain ⟨w2, e, a1, a2, a3, a4, a5, a6⟩ := writeBit_spec w val k hb hp hz
  refine ⟨w2, e, ?_, a2, ?_, ?_, ?_, a6 h.bytes⟩
  · rw [a1, h.length]
  · rw [a3, List.length_append, List.length_singleton]
    omega
  · intro j
    rw [a4, getD_snoc, h.payload]
    by_cases e1 : j = bits.length
    · rw [if_pos e1, if_pos (by omega)]
    · rw [if_neg e1, if_neg (by omega)]
  · rw [a5 0 (by omega)]
    exact h.header

theorem written_loop (len hdr val vb : Nat) : ∀ (fuel k : Nat) (w : Writer) (bits : List Bool),
    Written w len hdr bits → k + fuel = vb → 8 + bits.length + fuel ≤ 8 * len →
    ∃ w2, writeLoop val vb fuel k w = some w2
      ∧ Written w2 len hdr (bits ++ (List.range' k fuel).map fun i => val.testBit i)
  | 0, k, w, bits, h, _, _ => by
    refine ⟨w, rfl, ?_⟩
    simp only [List.range'_zero, List.map_nil, List.append_nil]
    exact h
  | fuel + 1, k, w, bits, h, hk, hroom => by
    unfold writeLoop
    rw [if_pos (by omega)]
    obtain ⟨w1, e1, h1⟩ := written_bit w len hdr bits val k h (by omega)
    rw [e1]
    simp only
    obtain ⟨w2, e2, h2⟩ := written_loop len hdr val vb fuel (k + 1) w1 _ h1 (by omega)
      (by rw [List.length_append, List.length_singleton]; omega)
    refine ⟨w2, e2, ?_⟩
    rw [List.range'_succ, List.map_cons]
    rw [List.append_assoc] at h2
    exact h2

theorem written_code (nodes : Mem Node) (len hdr b : Nat) (w : Writer) (bits : List Bool)
    (h : Written w len hdr bits) (hroom : 8 + bits.length + (nodes.get b).bits ≤ 8 * len) :
    ∃ w2, DoWriteBits w (nodes.get b).val (nodes.get b).bits = some w2
      ∧ 8 * w2.ptr + w2.bit = 8 * w.ptr + w.bit + (nodes.get b).bits
      ∧ Written w2 len hdr (bits ++ codeBitsOf nodes b) := by
  obtain ⟨w2, e, h2⟩ := written_loop len hdr (nodes.get b).val (nodes.get b).bits
    (nodes.get b).bits 0 w bits h (by omega) hroom
  refine ⟨w2, e, ?_, ?_⟩
  · rw [h2.cursor, h.cursor, List.length_append, List.length_map, List.length_range']
    omega
  · unfold codeBitsOf
    rw [List.range_eq_range']
    exact h2

theorem encodeBits_length (nodes : Mem Node) : ∀ (data : List Nat),
    (encodeBits nodes data).length = codeBits nodes data
  | [] => rfl
  | b :: rest => by
    simp only [encodeBits, codeBits, List.length_append]
    rw [encodeBits_length nodes rest]
    unfold codeBitsOf
    rw [List.length_map, List.length_range]

theorem written_all (nodes : Mem Node) (len hdr : Nat) : ∀ (data : List Nat) (w : Writer)
    (bits : List Bool), Written w len hdr bits →
    8 + bits.length + codeBits nodes data ≤ 8 * len →
    ∃ w2, writeAll nodes data w = some w2 ∧ Written w2 len hdr (bits ++ encodeBits nodes data)
  | [], w, bits, h, _ => by
    refine ⟨w, rfl, ?_⟩
    simp only [encodeBits, List.append_nil]
    exact h
  | b :: rest, w, bits, h, hroom => by
    simp only [codeBits] at hroom
    obtain ⟨w1, e1, _, h1⟩ := written_code nodes len hdr b w bits h (by omega)
    have hl : (codeBitsOf nodes b).length = (nodes.get b).bits := by
      unfold codeBitsOf
      rw [List.length_map, List.length_range]
    obtain ⟨w2, e2, h2⟩ := written_all nodes len hdr rest w1 _ h1
      (by rw [List.length_append, hl]; omega)
    refine ⟨w2, ?_, ?_⟩
    · unfold writeAll
      rw [e1]
      exact e2
    · simp only [encodeBits]
      rw [List.append_assoc] at h2
      exact h2

theorem bitCount_eq (nodes : Mem Node) : ∀ (data : List Nat) (acc : Nat),
    bitCount nodes data acc % 2 ^ 32 = (acc + codeBits nodes data) % 2 ^ 32
  | [], acc => by simp [bitCount, codeBits]
  | b :: rest, acc => by
    simp only [bitCount, codeBits]
    rw [bitCount_eq nodes rest, Nat.add_mod, Nat.mod_mod, ← Nat.add_mod]
    congr 1
    omega

theorem bitCount_lt (nodes : Mem Node) : ∀ (data : List Nat) (acc : Nat), acc < 2 ^ 32 →
    bitCount nodes data acc < 2 ^ 32
  | [], acc, h => h
  | b :: rest, acc, _ => by
    simp only [bitCount]
    exact bitCount_lt nodes rest _ (Nat.mod_lt _ (by norm_num))

theorem bitCount_exact (nodes : Mem Node) (data : List Nat)
    (hB : codeBits nodes data < 2 ^ 32) : bitCount nodes data 0 = codeBits nodes data := by
  have h1 := bitCount_eq nodes data 0
  have h2 := bitCount_lt nodes data 0 (by norm_num)
  rw [Nat.mod_eq_of_lt h2, Nat.zero_add, Nat.mod_eq_of_lt hB] at h1
  exact h1

theorem start_written (bit_count : Nat) :
    Written (startWriter bit_count) (lengthOut bit_count) (headerByte (bit_count % 8)) [] := by
  have hl : 1 ≤ lengthOut bit_count := by
    unfold lengthOut
    split <;> omega
  have hh : headerByte (bit_count % 8) < 256 := by
    unfold headerByte
    split <;> omega
  refine ⟨?_, ?_, ?_, ?_, ?_, ?_⟩
  · simp [startWriter]
  · simp [startWriter]
  · simp [startWriter]
  · intro k
    unfold getBit startWriter
    simp only
    rw [getD_set _ _ _ _ (by rw [List.length_replicate]; omega), if_neg (by omega),
      List.getD_eq_getElem?_getD, List.getElem?_replicate]
    split <;> simp
  · unfold startWriter
    simp only
    rw [getD_set _ _ _ _ (by rw [List.length_replicate]; omega), if_pos rfl]
  · intro i
    unfold startWriter
    simp only
    rw [getD_set _ _ _ _ (by rw [List.length_replicate]; omega)]
    split
    · exact hh
    · rw [List.getD_eq_getElem?_getD, List.getElem?_replicate]
      split <;> simp

theorem lengthOut_eq (bit_count : Nat) : lengthOut bit_count = (bit_count + 7) / 8 + 1 := by
  unfold lengthOut
  split <;> omega

theorem headerByte_eq (bit_count : Nat) :
    headerByte (bit_count % 8) = (8 - bit_count % 8) % 8 := by
  unfold headerByte
  split <;> omega

theorem flag_byte (h : Nat) (hh : h < 8) : (h ||| (1 <<< 7)) % 256 = 128 + h := by
  interval_cases h <;> rfl

/-- On an input whose length and number of code bits fit a `uint32_t`, `compress` returns
the input itself when `ceil(B / 8) + 1 >= L`, and otherwise a buffer of `ceil(B / 8) + 1`
bytes whose byte 0 is `0x80 + (8 - B mod 8) mod 8` and whose payload bits are the code bits of
the input followed by zeros; in particular no write leaves the buffer. -/
theorem compress_spec (nodes : Mem Node) (src : List Nat) (d0 : Nat)
    (h0 : src[0]? = some d0) (hd : d0 >>> 7 = 0) (hlen : src.length < 2 ^ 32)
    (hB : codeBits nodes src < 2 ^ 32) :
    (lengthOut (codeBits nodes src) ≥ src.length → compress nodes src = .ok src)
    ∧ (lengthOut (codeBits nodes src) < src.length →
        ∃ out, compress nodes src = .ok out
          ∧ out.length = lengthOut (codeBits nodes src)
          ∧ out.getD 0 0 = 128 + headerByte (codeBits nodes src % 8)
          ∧ (∀ k, getBit out (8 + k) = (encodeBits nodes src).getD k false)
          ∧ ∀ i, out.getD i 0 < 256) := by
  have hd2 : ¬ ¬ d0 >>> 7 = 0 := by simp [hd]
  have hroom : 8 + ([] : List Bool).length + codeBits nodes src
      ≤ 8 * lengthOut (codeBits nodes src) := by
    rw [lengthOut_eq, List.length_nil]
    omega
  obtain ⟨w2, e2, h2⟩ := written_all nodes _ _ src (startWriter (codeBits nodes src)) []
    (start_written (codeBits nodes src)) hroom
  rw [List.nil_append] at h2
  unfold startWriter at e2
  have hl1 : 1 ≤ lengthOut (codeBits nodes src) := by
    rw [lengthOut_eq]
    omega
  have hg : w2.buf[0]? = some (w2.buf.getD 0 0) := by
    rw [List.getD_eq_getElem?_getD, List.getElem?_eq_getElem (by rw [h2.length]; omega)]
    rfl
  have hh : headerByte (codeBits nodes src % 8) < 8 := by
    unfold headerByte
    split <;> omega
  unfold compress
  rw [h0]
  simp only
  rw [if_neg hd2, Nat.mod_eq_of_lt hlen, List.take_length, bitCount_exact nodes src hB]
  constructor
  · intro hge
    rw [if_pos hge]
  · intro hlt
    rw [if_neg (by omega), e2]
    simp only
    rw [hg]
    simp only
    refine ⟨_, rfl, ?_, ?_, ?_, ?_⟩
    · rw [List.length_set, h2.length]
    · rw [getD_set _ _ _ _ (by rw [h2.length]; omega), if_pos rfl, h2.header, flag_byte _ hh]
    · intro k
      rw [← h2.payload k]
      unfold getBit
      rw [getD_set _ _ _ _ (by rw [h2.length]; omega), if_neg (by omega)]
    · intro i
      rw [getD_set _ _ _ _ (by rw [h2.length]; omega)]
      split
      · exact Nat.mod_lt _ (by norm_num)
      · exact h2.bytes i

/-! ## Decoding one symbol of the built code -/

theorem ancestor_up (t : Mem Node) : ∀ (k i : Nat),
    ancestor t (k + 1) i = (t.get (ancestor t k i)).parent + 255
  | 0, _ => rfl
  | k + 1, i => by
    show ancestor t (k + 1) ((t.get i).parent + 255) = _
    rw [ancestor_up t k]
    rfl

theorem depth_parent (t : Mem Node) : ∀ (fuel i k : Nat), k < depthOf t fuel i →
    (t.get (ancestor t k i)).parent ≠ 0
  | 0, _, _, h => by simp [depthOf] at h
  | fuel + 1, i, k, h => by
    unfold depthOf at h
    by_cases hp : (t.get i).parent ≠ 0
    · rw [if_pos hp] at h
      cases k with
      | zero => exact hp
      | succ k => exact depth_parent t fuel _ k (by omega)
    · rw [if_neg hp] at h
      omega

theorem chain_built (b : Nat) (hb : b < 256) : ∀ (k : Nat), k ≤ depthOf builtNodes 511 b →
    ancestor builtNodes k b ≤ 510
      ∧ (k < depthOf builtNodes 511 b → ancestor builtNodes k b < 510)
      ∧ (1 ≤ k → 256 ≤ ancestor builtNodes k b)
  | 0, _ => by
    refine ⟨?_, ?_, ?_⟩
    · show b ≤ 510
      omega
    · intro _
      show b < 510
      omega
    · intro h
      omega
  | k + 1, hk => by
    obtain ⟨_, a2, _⟩ := chain_built b hb k (by omega)
    have hlt := a2 (by omega)
    obtain ⟨p1, p2, _, _⟩ := (tree_eval_parent _ (by omega)).2 hlt
    rw [ancestor_up]
    refine ⟨p2, ?_, fun _ => p1⟩
    intro hk2
    have hne := depth_parent builtNodes 511 b (k + 1) hk2
    rw [ancestor_up] at hne
    by_contra hge
    have e : (builtNodes.get (ancestor builtNodes k b)).parent + 255 = 510 := by omega
    rw [e] at hne
    exact hne ((tree_eval_parent 510 (by omega)).1.mpr rfl)

theorem bit_test (x s : Nat) : ((x >>> s) &&& 1 = 0) ↔ x.testBit s = false := by
  unfold Nat.testBit
  rw [Nat.and_comm]
  simp

theorem read_bit (src : List Nat) (pos : Nat) (h : 1 + pos / 8 < src.length) :
    ∃ x, src[1 + pos / 8]? = some x ∧ (((x >>> (pos % 8)) &&& 1 = 0) ↔ getBit src (8 + pos) = false) := by
  refine ⟨src[1 + pos / 8], List.getElem?_eq_getElem h, ?_⟩
  rw [bit_test]
  unfold getBit
  have e1 : (8 + pos) / 8 = 1 + pos / 8 := by omega
  have e2 : (8 + pos) % 8 = pos % 8 := by omega
  rw [e1, e2, List.getD_eq_getElem _ _ h]

theorem walk_down (src : List Nat) (n bit b : Nat) (hb : b < 256)
    (hlen : bit + depthOf builtNodes 511 b + 1 ≤ n) (hn : n ≤ 8 * (src.length - 1))
    (hbits : ∀ t, 1 ≤ t → t ≤ depthOf builtNodes 511 b →
      (getBit src (8 + bit + t) = true
        ↔ isRightChild builtNodes (ancestor builtNodes (depthOf builtNodes 511 b - t) b))) :
    ∀ (m fuel : Nat), m + 1 ≤ depthOf builtNodes 511 b → m + 1 ≤ fuel →
    walk builtNodes src n fuel (ancestor builtNodes (m + 1) b)
        (bit + (depthOf builtNodes 511 b - m))
      = .leaf b (bit + depthOf builtNodes 511 b + 1)
  | _, 0, _, h => by omega
  | m, fuel + 1, hm, hf => by
    obtain ⟨c1, c2, c3⟩ := chain_built b hb m (by omega)
    obtain ⟨u1, _, _⟩ := chain_built b hb (m + 1) hm
    have hc := c2 (by omega)
    obtain ⟨p1, p2, p3, p4⟩ := (tree_eval_parent _ (by omega)).2 hc
    rw [← ancestor_up] at p1 p2 p3 p4
    have hb2 := hbits (depthOf builtNodes 511 b - m) (by omega) (by omega)
    have e0 : depthOf builtNodes 511 b - (depthOf builtNodes 511 b - m) = m := by omega
    rw [e0] at hb2
    unfold isRightChild at hb2
    rw [← ancestor_up] at hb2
    obtain ⟨x, hx, hxb⟩ := read_bit src (bit + (depthOf builtNodes 511 b - m)) (by omega)
    have e1 : 8 + (bit + (depthOf builtNodes 511 b - m))
        = 8 + bit + (depthOf builtNodes 511 b - m) := by omega
    rw [e1] at hxb
    unfold walk
    rw [if_neg (by omega), hx]
    simp only
    have hchild : (if (x >>> ((bit + (depthOf builtNodes 511 b - m)) % 8)) &&& 1 = 0
          then (builtNodes.get (ancestor builtNodes (m + 1) b)).left_child
          else (builtNodes.get (ancestor builtNodes (m + 1) b)).right_child)
        = ((ancestor builtNodes m b : Nat) : Int) := by
      by_cases hz : (x >>> ((bit + (depthOf builtNodes 511 b - m)) % 8)) &&& 1 = 0
      · rw [if_pos hz]
        have hf2 := hxb.mp hz
        rcases p4 with ⟨q1, _⟩ | ⟨_, q2⟩
        · exact q1
        · have := hb2.mpr q2
          rw [hf2] at this
          exact absurd this (by simp)
      · rw [if_neg hz]
        have ht : getBit src (8 + bit + (depthOf builtNodes 511 b - m)) = true := by
          by_contra hne
          exact hz (hxb.mpr (by simpa using hne))
        exact hb2.mp ht
    rw [hchild]
    have n1 : ¬ ((ancestor builtNodes m b : Nat) : Int) = -1 := by omega
    have n2 : ¬ (((ancestor builtNodes m b : Nat) : Int) < 0
        ∨ 510 < ((ancestor builtNodes m b : Nat) : Int)) := by omega
    rw [if_neg n1, if_neg n2, Int.toNat_ofNat]
    cases m with
    | zero =>
      have hl := (tree_eval_children b (by omega)).2 hb
      have ea : ancestor builtNodes 0 b = b := rfl
      rw [ea, if_pos hl, Nat.sub_zero]
    | succ m =>
      have h256 := c3 (by omega)
      obtain ⟨k1, _, _⟩ := (tree_eval_children _ (by omega)).1 h256
      have n3 : ¬ ((builtNodes.get (ancestor builtNodes (m + 1) b)).left_child = -1
          ∧ (builtNodes.get (ancestor builtNodes (m + 1) b)).right_child = -1) := by
        intro h
        omega
      rw [if_neg n3, if_neg (by omega)]
      have e2 : bit + (depthOf builtNodes 511 b - (m + 1)) + 1
          = bit + (depthOf builtNodes 511 b - m) := by omega
      rw [e2]
      exact walk_down src n bit b hb hlen hn hbits m fuel (by omega) (by omega)

theorem getElem?_getD (src : List Nat) (i : Nat) (h : i < src.length) :
    src[i]? = some (src.getD i 0) := by
  rw [List.getD_eq_getElem?_getD, List.getElem?_eq_getElem h]
  rfl

theorem testBit_high (x i : Nat) (hx : x < 256) (hi : 8 ≤ i) : x.testBit i = false := by
  apply Nat.testBit_lt_two_pow
  have h1 : (2 : Nat) ^ 8 ≤ 2 ^ i := Nat.pow_le_pow_right (by norm_num) hi
  have h2 : (2 : Nat) ^ 8 = 256 := by norm_num
  omega

theorem literal_value (src : List Nat) (len p v : Nat) (hlen : len = src.length)
    (hroom : p + 8 ≤ 8 * (len - 1)) (hv : v < 256) (hby : ∀ i, src.getD i 0 < 256)
    (hbits : ∀ k, k < 8 → getBit src (8 + p + k) = v.testBit k) :
    literal src len p = some (some v) := by
  unfold literal
  by_cases h0 : p % 8 = 0
  · rw [if_pos h0, if_neg (by omega), getElem?_getD src (1 + p / 8) (by omega)]
    simp only
    congr 2
    apply Nat.eq_of_testBit_eq
    intro i
    by_cases hi : i < 8
    · rw [← hbits i hi]
      unfold getBit
      have e1 : (8 + p + i) / 8 = 1 + p / 8 := by omega
      have e2 : (8 + p + i) % 8 = i := by omega
      rw [e1, e2]
    · rw [testBit_high _ i (hby _) (by omega), testBit_high v i hv (by omega)]
  · rw [if_neg h0, if_neg (by omega), getElem?_getD src (1 + p / 8) (by omega),
      getElem?_getD src (1 + (p / 8 + 1)) (by omega)]
    simp only
    congr 2
    apply Nat.eq_of_testBit_eq
    intro i
    have e256 : (256 : Nat) = 2 ^ 8 := by norm_num
    by_cases hi : i < 8
    · rw [← hbits i hi, e256, Nat.testBit_mod_two_pow, Nat.testBit_or, Nat.testBit_shiftRight,
        Nat.testBit_shiftLeft]
      have hd : decide (i < 8) = true := by simp [hi]
      rw [hd, Bool.true_and]
      unfold getBit
      by_cases hs : p % 8 + i < 8
      · have e1 : (8 + p + i) / 8 = 1 + p / 8 := by omega
        have e2 : (8 + p + i) % 8 = p % 8 + i := by omega
        have e3 : decide (i ≥ 8 - p % 8) = false := by
          have : ¬ (i ≥ 8 - p % 8) := by omega
          simp [this]
        rw [e1, e2, e3]
        simp
      · have e1 : (8 + p + i) / 8 = 1 + (p / 8 + 1) := by omega
        have e2 : (8 + p + i) % 8 = i - (8 - p % 8) := by omega
        have e3 : decide (i ≥ 8 - p % 8) = true := by
          have : i ≥ 8 - p % 8 := by omega
          simp [this]
        rw [e1, e2, e3, testBit_high _ (p % 8 + i) (hby _) (by omega)]
        simp
    · rw [e256, Nat.testBit_mod_two_pow, testBit_high v i hv (by omega)]
      have hd : decide (i < 8) = false := by simp [hi]
      rw [hd]
      rfl

theorem codeBitsOf_getD (nodes : Mem Node) (b k : Nat) (hk : k < (nodes.get b).bits) :
    (codeBitsOf nodes b).getD k false = (nodes.get b).val.testBit k := by
  unfold codeBitsOf
  rw [List.getD_eq_getElem _ _ (by rw [List.length_map, List.length_range]; exact hk)]
  simp

theorem testBit_double (b k : Nat) : (2 * b).testBit (k + 1) = b.testBit k := by
  rw [Nat.testBit_succ]
  congr 1
  omega

theorem testBit_double_zero (b : Nat) : (2 * b).testBit 0 = false := by
  rw [Nat.testBit_zero]
  have : ¬ (2 * b % 2 = 1) := by omega
  simp [this]

theorem decode_step (src : List Nat) (len n fuel bit b : Nat) (acc : List Nat)
    (hlen : len = src.length) (hn : n ≤ 8 * (len - 1)) (hL : len ≤ 2 ^ 29)
    (hby : ∀ i, src.getD i 0 < 256) (hb : b < 256)
    (hroom : bit + (builtNodes.get b).bits ≤ n)
    (hbits : ∀ k, k < (builtNodes.get b).bits →
      getBit src (8 + bit + k) = (builtNodes.get b).val.testBit k) :
    decodeLoop builtNodes src len n (fuel + 1) bit acc
      = decodeLoop builtNodes src len n fuel (bit + (builtNodes.get b).bits) (acc ++ [b]) := by
  obtain ⟨hanc, hroot, hdeep, hb2, hb9⟩ := derivation_eval_a b hb
  obtain ⟨x, hx, hxb⟩ := read_bit src bit (by omega)
  have h0 := hbits 0 (by omega)
  rw [Nat.add_zero] at h0
  conv_lhs => unfold decodeLoop
  rw [if_pos (by omega), hx]
  simp only
  by_cases hd : depthOf builtNodes 511 b < 8
  · obtain ⟨e1, e2, _⟩ := derivation_eval_b b hb hd
    have hc : (x >>> (bit % 8)) &&& 1 ≠ 0 := by
      intro h
      have := hxb.mp h
      rw [h0, e2] at this
      exact absurd this (by simp)
    have hr : ¬ ¬ (builtNodes.get 510).parent = 0 := by simp [hroot]
    rw [if_pos hc, if_neg hr]
    have hw := walk_down src n bit b hb (by omega) (by rw [← hlen]; exact hn)
      (fun t ht1 ht2 => by
        rw [hbits t (by omega)]
        exact derivation_eval_c b hb hd t (by omega) ht1 ht2)
      (depthOf builtNodes 511 b - 1) (n + 2) (by omega) (by omega)
    have e3 : depthOf builtNodes 511 b - 1 + 1 = depthOf builtNodes 511 b := by omega
    have e4 : depthOf builtNodes 511 b - (depthOf builtNodes 511 b - 1) = 1 := by omega
    rw [e3, e4, hanc] at hw
    rw [hw]
    simp only
    rw [Nat.mod_eq_of_lt hb, e1, Nat.add_assoc]
  · obtain ⟨ev, eb⟩ := hdeep (by omega)
    have hz : (x >>> (bit % 8)) &&& 1 = 0 := by
      apply hxb.mpr
      rw [h0, ev]
      exact testBit_double_zero b
    have hz2 : ¬ (x >>> (bit % 8)) &&& 1 ≠ 0 := by simp [hz]
    rw [if_neg hz2]
    have hl := literal_value src len (bit + 1) b hlen (by omega) hb hby (fun k hk => by
      have := hbits (k + 1) (by omega)
      rw [ev, testBit_double] at this
      rw [← this]
      congr 1
      omega)
    rw [hl]
    simp only
    have e5 : (bit + 1 + 8) % 2 ^ 32 = bit + 1 + 8 := Nat.mod_eq_of_lt (by omega)
    rw [e5, if_neg (by omega), eb]

theorem codeBits_ge (data : List Nat) (hd : ∀ x ∈ data, x < 256) :
    data.length ≤ codeBits builtNodes data := by
  induction data with
  | nil => exact le_refl _
  | cons b rest ih =>
    have hb := (derivation_eval_a b (hd b (List.mem_cons_self _ _))).2.2.2.1
    have := ih (fun x hx => hd x (List.mem_cons_of_mem _ hx))
    simp only [codeBits, List.length_cons]
    omega

theorem decode_all (src : List Nat) (len n : Nat) (hlen : len = src.length)
    (hn : n ≤ 8 * (len - 1)) (hL : len ≤ 2 ^ 29) (hby : ∀ i, src.getD i 0 < 256) :
    ∀ (data : List Nat) (fuel bit : Nat) (acc : List Nat), (∀ x ∈ data, x < 256) →
    bit + codeBits builtNodes data = n → data.length < fuel →
    (∀ k, k < codeBits builtNodes data →
      getBit src (8 + bit + k) = (encodeBits builtNodes data).getD k false) →
    decodeLoop builtNodes src len n fuel bit acc = .ok (acc ++ data)
  | [], 0, _, _, _, _, hf, _ => by simp at hf
  | [], fuel + 1, bit, acc, _, hbit, _, _ => by
    simp only [codeBits, Nat.add_zero] at hbit
    unfold decodeLoop
    rw [if_neg (by omega), if_pos hbit, List.append_nil]
  | b :: rest, 0, _, _, _, _, hf, _ => by simp at hf
  | b :: rest, fuel + 1, bit, acc, hd, hbit, hf, hs => by
    simp only [codeBits] at hbit hs
    have hb := hd b (List.mem_cons_self _ _)
    have hl : (codeBitsOf builtNodes b).length = (builtNodes.get b).bits := by
      unfold codeBitsOf
      rw [List.length_map, List.length_range]
    rw [decode_step src len n fuel bit b acc hlen hn hL hby hb (by omega) (fun k hk => by
      rw [hs k (by omega)]
      simp only [encodeBits]
      rw [List.getD_eq_getElem?_getD, List.getElem?_append_left (by rw [hl]; exact hk),
        ← List.getD_eq_getElem?_getD, codeBitsOf_getD _ _ _ hk])]
    rw [decode_all src len n hlen hn hL hby rest fuel (bit + (builtNodes.get b).bits)
      (acc ++ [b]) (fun x hx => hd x (List.mem_cons_of_mem _ hx)) (by omega)
      (by simp only [List.length_cons] at hf; omega) (fun k hk => by
        have := hs ((builtNodes.get b).bits + k) (by omega)
        simp only [encodeBits] at this
        rw [List.getD_eq_getElem?_getD, List.getElem?_append_right (by rw [hl]; omega), hl,
          Nat.add_sub_cancel_left, ← List.getD_eq_getElem?_getD] at this
        rw [← this]
        congr 1
        omega)]
    rw [List.append_assoc]
    rfl

theorem flag_bits (h : Nat) (hh : h < 8) :
    (128 + h) >>> 7 ≠ 0 ∧ (128 + h) &&& 0x0F = h := by
  interval_cases h <;> decide

theorem roundtrip_built (S : List Nat) (d0 : Nat) (hS : ∀ x ∈ S, x < 256)
    (h0 : S[0]? = some d0) (hd : d0 >>> 7 = 0) (hlen : S.length < 2 ^ 32)
    (hB : codeBits builtNodes S + 8 ≤ 2 ^ 32) :
    ∃ c, compress builtNodes S = .ok c ∧ decompress builtNodes c = .ok S := by
  obtain ⟨hpass, hcomp⟩ := compress_spec builtNodes S d0 h0 hd hlen (by omega)
  have hpos : 0 < S.length := by
    cases S with
    | nil => simp at h0
    | cons a rest => simp
  have hge := codeBits_ge S hS
  by_cases hc : lengthOut (codeBits builtNodes S) ≥ S.length
  · refine ⟨S, hpass hc, ?_⟩
    unfold decompress
    rw [Nat.mod_eq_of_lt hlen, if_neg (by omega), h0]
    simp only
    rw [if_neg (by simp [hd])]
  · obtain ⟨out, e, hl, hh, hp, hby⟩ := hcomp (by omega)
    refine ⟨out, e, ?_⟩
    rw [lengthOut_eq] at hl
    have hh8 : headerByte (codeBits builtNodes S % 8) < 8 := by
      unfold headerByte
      split <;> omega
    obtain ⟨f1, f2⟩ := flag_bits _ hh8
    have eL : out.length % 2 ^ 32 = (codeBits builtNodes S + 7) / 8 + 1 := by
      rw [hl]
      exact Nat.mod_eq_of_lt (by omega)
    have e8 : ((codeBits builtNodes S + 7) / 8 + 1 - 1) * 8 % 2 ^ 32
        = (codeBits builtNodes S + 7) / 8 * 8 := by
      rw [Nat.add_sub_cancel]
      exact Nat.mod_eq_of_lt (by omega)
    have eB : (codeBits builtNodes S + 7) / 8 * 8 - headerByte (codeBits builtNodes S % 8)
        = codeBits builtNodes S := by
      rw [headerByte_eq]
      omega
    have hdec := decode_all out ((codeBits builtNodes S + 7) / 8 + 1) (codeBits builtNodes S)
      hl.symm (by omega) (by omega) hby S (codeBits builtNodes S + 1) 0 [] hS (by omega) (by omega)
      (fun k _ => by
        rw [Nat.add_zero]
        exact hp k)
    unfold decompress
    rw [eL, if_neg (by omega), getElem?_getD out 0 (by omega), hh]
    simp only
    rw [if_pos f1, f2, e8, if_neg (by rw [headerByte_eq]; omega), eB, hdec, List.nil_append]

/-! ## The acceptance condition of `decompress` -/

theorem compress_wrap_zero (nodes : Mem Node) (src : List Nat) (d0 : Nat)
    (h0 : src[0]? = some d0) (hd : d0 >>> 7 = 0) (hl : src.length % 2 ^ 32 = 0) :
    compress nodes src = .ok src := by
  have hd2 : ¬ ¬ d0 >>> 7 = 0 := by simp [hd]
  unfold compress
  rw [h0]
  simp only
  rw [if_neg hd2, hl, List.take_zero, if_pos (Nat.zero_le _)]

theorem compress_trunc (nodes : Mem Node) (src small : List Nat) (l : Nat)
    (hl : src.length % 2 ^ 32 = l) (ht : src.take l = small) (hs : small.length = l)
    (hl32 : l < 2 ^ 32) (h0 : src[0]? = small[0]?)
    (hpath : ¬ lengthOut (bitCount nodes small 0) ≥ l) :
    compress nodes src = compress nodes small := by
  have e1 : small.length % 2 ^ 32 = l := by
    rw [hs]
    exact Nat.mod_eq_of_lt hl32
  have e2 : small.take l = small := by
    rw [← hs]
    exact List.take_length _
  unfold compress
  rw [hl, ht, e1, e2, h0]
  cases small[0]? with
  | none => rfl
  | some d0 =>
    simp only
    by_cases hd : ¬ d0 >>> 7 = 0
    · rw [if_pos hd, if_pos hd]
    · rw [if_neg hd, if_neg hd, if_neg hpath, if_neg hpath]

set_option maxRecDepth 1000000 in
theorem small_eval :
    compress builtNodes [0, 0, 0] = .ok [130, 63]
      ∧ (¬ lengthOut (bitCount builtNodes [0, 0, 0] 0) ≥ 3)
      ∧ codeBitsOf builtNodes 0 = [true, true]
      ∧ (builtNodes.get 0).bits = 2 ∧ (builtNodes.get 1).bits = 4 := by
  decide!

theorem codeBits_cons (nodes : Mem Node) (b : Nat) (rest : List Nat) :
    codeBits nodes (b :: rest) = (nodes.get b).bits + codeBits nodes rest := rfl

theorem encodeBits_cons (nodes : Mem Node) (b : Nat) (rest : List Nat) :
    encodeBits nodes (b :: rest) = codeBitsOf nodes b ++ encodeBits nodes rest := rfl

/-- C1 as stated fails: the sequence of `2 ^ 32` zero bytes has length at least 1 and first
byte below `0x80`; its size cast to `uint32_t` is 0, `compress` returns it unchanged, and
`decompress` rejects that buffer at `BA_PRECONDITION(length > 0)`. -/
theorem C1_counterexample :
    (List.replicate 4294967296 0)[0]? = some 0
      ∧ compress nodes_ (List.replicate 4294967296 0) = .ok (List.replicate 4294967296 0)
      ∧ decompress nodes_ (List.replicate 4294967296 0) = .error := by
  have h0 : (List.replicate 4294967296 0)[0]? = some 0 := by
    rw [List.getElem?_replicate]
    rfl
  refine ⟨h0, ?_, ?_⟩
  · exact compress_wrap_zero nodes_ _ 0 h0 (by decide)
      (by rw [List.length_replicate]; decide)
  · unfold decompress
    rw [List.length_replicate]
    rfl

/-- C1 as amended. Round trip within the `uint32_t` limits: for every byte sequence `S` of
length at least 1 and below `2 ^ 32` whose first byte has its top bit clear and whose number
of code bits `B` satisfies `B + 8 <= 2 ^ 32`, `compress` returns a buffer and `decompress` of
that buffer returns exactly `S`, on the compressed path and on the passthrough path, also for
inputs made of zero-frequency byte values. -/
theorem C1_round_trip (S : List Nat) (d0 : Nat) (hS : ∀ x ∈ S, x < 256)
    (h0 : S[0]? = some d0) (hd : d0 >>> 7 = 0) (hlen : S.length < 2 ^ 32)
    (hB : codeBits nodes_ S + 8 ≤ 2 ^ 32) :
    ∃ c, compress nodes_ S = .ok c ∧ decompress nodes_ c = .ok S := by
  rw [nodes_eq] at hB ⊢
  exact roundtrip_built S d0 hS h0 hd hlen hB

set_option maxRecDepth 1000000 in
theorem C1_round_trip_witness :
    (∀ x ∈ [0, 4, 0, 0, 0, 0, 0, 0], x < 256) ∧ [0, 4, 0, 0, 0, 0, 0, 0][0]? = some 0
      ∧ (0 >>> 7 = 0) ∧ [0, 4, 0, 0, 0, 0, 0, 0].length < 2 ^ 32
      ∧ codeBits nodes_ [0, 4, 0, 0, 0, 0, 0, 0] + 8 ≤ 2 ^ 32
      ∧ ∃ c, compress nodes_ [0, 4, 0, 0, 0, 0, 0, 0] = .ok c
          ∧ decompress nodes_ c = .ok [0, 4, 0, 0, 0, 0, 0, 0] :=
  ⟨by decide, rfl, by decide, by decide, by rw [nodes_eq]; decide,
    C1_round_trip [0, 4, 0, 0, 0, 0, 0, 0] 0 (by decide) rfl (by decide) (by decide)
      (by rw [nodes_eq]; decide)⟩

/-- C3 as stated fails: for the sequence `S` of `2 ^ 32` zero bytes `B = 2 ^ 33`, so
`ceil(B / 8) + 1 = 2 ^ 30 + 1` is below the length and the claim says the result has exactly
that length; the size cast to `uint32_t` is 0 and `compress` returns `S` itself. -/
theorem C3_counterexample :
    codeBits nodes_ (List.replicate 4294967296 0) = 8589934592
      ∧ (8589934592 + 7) / 8 + 1 < (List.replicate 4294967296 0).length
      ∧ compress nodes_ (List.replicate 4294967296 0) = .ok (List.replicate 4294967296 0)
      ∧ (List.replicate 4294967296 0).length ≠ (8589934592 + 7) / 8 + 1 := by
  have h0 : (List.replicate 4294967296 0)[0]? = some 0 := by
    rw [List.getElem?_replicate]
    rfl
  refine ⟨?_, ?_, ?_, ?_⟩
  · rw [nodes_eq, codeBits_replicate, small_eval.2.2.2.1]
  · rw [List.length_replicate]
    decide
  · exact compress_wrap_zero nodes_ _ 0 h0 (by decide)
      (by rw [List.length_replicate]; decide)
  · rw [List.length_replicate]
    decide

/-- C3 as amended. Size monotonicity of `compress` within the `uint32_t` limits: for every
byte sequence `S` of length `1 <= L < 2 ^ 32` with first byte below `0x80` whose number of
code bits `B` is below `2 ^ 32`, `compress` returns a buffer no longer than `L`; when
`ceil(B / 8) + 1 >= L` the buffer is `S` itself, and otherwise it has exactly
`ceil(B / 8) + 1` bytes, fewer than `L`. -/
theorem C3_size_monotone (S : List Nat) (d0 : Nat) (h0 : S[0]? = some d0)
    (hd : d0 >>> 7 = 0) (hlen : S.length < 2 ^ 32) (hB : codeBits nodes_ S < 2 ^ 32) :
    ∃ out, compress nodes_ S = .ok out ∧ out.length ≤ S.length
      ∧ ((codeBits nodes_ S + 7) / 8 + 1 ≥ S.length → out = S)
      ∧ ((codeBits nodes_ S + 7) / 8 + 1 < S.length →
          out.length = (codeBits nodes_ S + 7) / 8 + 1 ∧ out.length < S.length) := by
  obtain ⟨h1, h2⟩ := compress_spec nodes_ S d0 h0 hd hlen hB
  rw [lengthOut_eq] at h1 h2
  by_cases hc : (codeBits nodes_ S + 7) / 8 + 1 ≥ S.length
  · exact ⟨S, h1 hc, le_refl _, fun _ => rfl, fun h => by omega⟩
  · obtain ⟨out, e, a1, _⟩ := h2 (by omega)
    exact ⟨out, e, by omega, fun h => by omega, fun _ => ⟨a1, by omega⟩⟩

set_option maxRecDepth 1000000 in
theorem C3_size_monotone_witness :
    [0, 0, 0, 0][0]? = some 0 ∧ (0 >>> 7 = 0) ∧ [0, 0, 0, 0].length < 2 ^ 32
      ∧ codeBits nodes_ [0, 0, 0, 0] < 2 ^ 32
      ∧ ∃ out, compress nodes_ [0, 0, 0, 0] = .ok out ∧ out.length ≤ [0, 0, 0, 0].length :=
  ⟨rfl, by decide, by decide, by rw [nodes_eq]; decide,
    (C3_size_monotone [0, 0, 0, 0] 0 rfl (by decide) (by decide)
      (by rw [nodes_eq]; decide)).imp fun _ h => ⟨h.1, h.2.1⟩⟩

theorem trunc_eval (x : Nat) (rest : List Nat)
    (hl : (0 :: 0 :: 0 :: x :: rest).length % 2 ^ 32 = 3) :
    compress builtNodes (0 :: 0 :: 0 :: x :: rest) = .ok [130, 63] := by
  rw [compress_trunc builtNodes (0 :: 0 :: 0 :: x :: rest) [0, 0, 0] 3 hl rfl rfl (by decide) rfl
    small_eval.2.1]
  exact small_eval.1

/-- C6 as stated fails: on the sequence of `2 ^ 32 + 3` zero bytes the size cast to
`uint32_t` is 3, `compress` takes the compressed path and encodes three bytes only: the
output is `82 3F` (hex). Code bit 6 of the input (the first bit of the fourth byte) is 1, but
bit 6 of output byte 1 is 0. -/
theorem C6_counterexample :
    compress nodes_ (0 :: 0 :: 0 :: 0 :: List.replicate 4294967295 0) = .ok [130, 63]
      ∧ 6 < codeBits nodes_ (0 :: 0 :: 0 :: 0 :: List.replicate 4294967295 0)
      ∧ (encodeBits nodes_ (0 :: 0 :: 0 :: 0 :: List.replicate 4294967295 0)).getD 6 false = true
      ∧ (([130, 63] : List Nat).getD (1 + 6 / 8) 0).testBit (6 % 8) = false := by
  rw [nodes_eq]
  refine ⟨?_, ?_, ?_, by decide⟩
  · apply trunc_eval
    rw [List.length_cons, List.length_cons, List.length_cons, List.length_cons,
      List.length_replicate]
    decide
  · rw [codeBits_cons, codeBits_cons, codeBits_cons, codeBits_cons, codeBits_replicate,
      small_eval.2.2.2.1]
    decide
  · rw [encodeBits_cons, encodeBits_cons, encodeBits_cons, encodeBits_cons, small_eval.2.2.1]
    generalize encodeBits builtNodes (List.replicate 4294967295 0) = R
    rfl

/-- C6 as amended. Payload wire format within the `uint32_t` limits: for every input `S` of
length `1 <= L < 2 ^ 32` with first byte below `0x80` whose code bit string `c` (the low
`bits` bits of each byte's `val`, least significant bit first, concatenated in order) has
`B < 2 ^ 32` bits and which takes the compressed path (`ceil(B / 8) + 1 < L`), `compress`
returns a buffer in which, for every `k < B`, bit `k mod 8` of byte `1 + floor(k / 8)` equals
`c[k]`, and every payload bit at a position from `B` on is 0. -/
theorem C6_payload_format (S : List Nat) (d0 : Nat) (h0 : S[0]? = some d0)
    (hd : d0 >>> 7 = 0) (hlen : S.length < 2 ^ 32) (hB : codeBits nodes_ S < 2 ^ 32)
    (hpath : (codeBits nodes_ S + 7) / 8 + 1 < S.length) :
    (encodeBits nodes_ S).length = codeBits nodes_ S
      ∧ ∃ out, compress nodes_ S = .ok out
        ∧ (∀ k, k < codeBits nodes_ S →
            (out.getD (1 + k / 8) 0).testBit (k % 8) = (encodeBits nodes_ S).getD k false)
        ∧ (∀ k, codeBits nodes_ S ≤ k → (out.getD (1 + k / 8) 0).testBit (k % 8) = false) := by
  obtain ⟨_, h2⟩ := compress_spec nodes_ S d0 h0 hd hlen hB
  rw [lengthOut_eq] at h2
  obtain ⟨out, e, _, _, a3, _⟩ := h2 hpath
  have hg : ∀ k, (out.getD (1 + k / 8) 0).testBit (k % 8) = getBit out (8 + k) := by
    intro k
    unfold getBit
    have e1 : (8 + k) / 8 = 1 + k / 8 := by omega
    have e2 : (8 + k) % 8 = k % 8 := by omega
    rw [e1, e2]
  refine ⟨encodeBits_length nodes_ S, out, e, ?_, ?_⟩
  · intro k _
    rw [hg, a3]
  · intro k hk
    rw [hg, a3, List.getD_eq_getElem?_getD,
      List.getElem?_eq_none (by rw [encodeBits_length]; exact hk)]
    rfl

set_option maxRecDepth 1000000 in
theorem C6_payload_format_witness :
    [0, 0, 0, 0][0]? = some 0 ∧ (0 >>> 7 = 0) ∧ [0, 0, 0, 0].length < 2 ^ 32
      ∧ codeBits nodes_ [0, 0, 0, 0] < 2 ^ 32
      ∧ (codeBits nodes_ [0, 0, 0, 0] + 7) / 8 + 1 < [0, 0, 0, 0].length
      ∧ (encodeBits nodes_ [0, 0, 0, 0]).length = codeBits nodes_ [0, 0, 0, 0] :=
  ⟨rfl, by decide, by decide, by rw [nodes_eq]; decide, by rw [nodes_eq]; decide,
    (C6_payload_format [0, 0, 0, 0] 0 rfl (by decide) (by decide) (by rw [nodes_eq]; decide)
      (by rw [nodes_eq]; decide)).1⟩

/-- C7 as stated fails: the sequence `0, 0, 0, 1` followed by `2 ^ 32 - 1` zero bytes has
`B = 2 ^ 33 + 8` code bits, a multiple of 8, so the claim gives header byte `0x80`; the size
cast to `uint32_t` is 3, `compress` takes the compressed path on the first three bytes and
the header byte is `0x82`. -/
theorem C7_counterexample :
    compress nodes_ (0 :: 0 :: 0 :: 1 :: List.replicate 4294967295 0) = .ok [130, 63]
      ∧ codeBits nodes_ (0 :: 0 :: 0 :: 1 :: List.replicate 4294967295 0) = 8589934600
      ∧ (130 : Nat) ≠ 128 + (8 - 8589934600 % 8) % 8 := by
  rw [nodes_eq]
  refine ⟨?_, ?_, by decide⟩
  · apply trunc_eval
    rw [List.length_cons, List.length_cons, List.length_cons, List.length_cons,
      List.length_replicate]
    decide
  · rw [codeBits_cons, codeBits_cons, codeBits_cons, codeBits_cons, codeBits_replicate,
      small_eval.2.2.2.1, small_eval.2.2.2.2]

/-- C7 as amended. Header byte of a compressed buffer within the `uint32_t` limits: for every
input `S` of length `1 <= L < 2 ^ 32` with first byte below `0x80` whose number of code bits
`B` is below `2 ^ 32` and which takes the compressed path (`ceil(B / 8) + 1 < L`), output
byte 0 equals `0x80 + ((8 - (B mod 8)) mod 8)`: bit 7 is 1, bits 6-4 are 0, and the low four
bits hold the number of unused trailing bits of the last payload byte, a value in `0..7` that
is 0 exactly when `B` is a multiple of 8. -/
theorem C7_header_byte (S : List Nat) (d0 : Nat) (h0 : S[0]? = some d0)
    (hd : d0 >>> 7 = 0) (hlen : S.length < 2 ^ 32) (hB : codeBits nodes_ S < 2 ^ 32)
    (hpath : (codeBits nodes_ S + 7) / 8 + 1 < S.length) :
    ∃ out, compress nodes_ S = .ok out
      ∧ out[0]? = some (0x80 + (8 - codeBits nodes_ S % 8) % 8)
      ∧ (8 - codeBits nodes_ S % 8) % 8 ≤ 7
      ∧ 8 * (out.length - 1) - codeBits nodes_ S = (8 - codeBits nodes_ S % 8) % 8
      ∧ ((8 - codeBits nodes_ S % 8) % 8 = 0 ↔ codeBits nodes_ S % 8 = 0) := by
  obtain ⟨_, h2⟩ := compress_spec nodes_ S d0 h0 hd hlen hB
  rw [lengthOut_eq] at h2
  obtain ⟨out, e, a1, a2, _, _⟩ := h2 hpath
  rw [headerByte_eq] at a2
  refine ⟨out, e, ?_, by omega, by omega, by omega⟩
  rw [getElem?_getD out 0 (by omega), a2]

set_option maxRecDepth 1000000 in
theorem C7_header_byte_witness :
    [0, 0, 0, 0, 0][0]? = some 0 ∧ (0 >>> 7 = 0) ∧ [0, 0, 0, 0, 0].length < 2 ^ 32
      ∧ codeBits nodes_ [0, 0, 0, 0, 0] < 2 ^ 32
      ∧ (codeBits nodes_ [0, 0, 0, 0, 0] + 7) / 8 + 1 < [0, 0, 0, 0, 0].length
      ∧ ∃ out, compress nodes_ [0, 0, 0, 0, 0] = .ok out
          ∧ out[0]? = some (0x80 + (8 - codeBits nodes_ [0, 0, 0, 0, 0] % 8) % 8) :=
  ⟨rfl, by decide, by decide, by rw [nodes_eq]; decide, by rw [nodes_eq]; decide,
    (C7_header_byte [0, 0, 0, 0, 0] 0 rfl (by decide) (by decide) (by rw [nodes_eq]; decide)
      (by rw [nodes_eq]; decide)).imp fun _ h => ⟨h.1, h.2.1⟩⟩

/-! ## The precondition of `compress` -/

end Huffman
